import Mathlib

/-!
# GCIS index overlay: reverse-lex sorter and overlay DFS

A shallow embedding of `include/index_builder.hpp`:

* `sorter<rule_info>`: `build_data_structures`, the comparator handed to
  `std::sort`, and `compare`;
* `elias_fano_dfs_helper`: the recursive `dfs(rule_idx, offset)` and the root
  loop `dfs()`;
* `index_basics<elias_fano_grammar>::dfs`: the decode loop, the
  expansion-length loop and the seeding of `pi`, `inv_pi`, `focc` and
  `bv_dfuds`;

and of the driver `src/gc-is-codec.cpp`: `load_string_from_file` and `main`,
over a dictionary given by its operations.

Conventions.  `uint_t` values are natural numbers; the difference
`rules_pos[r + 1] - rules_pos[r]` is the natural one, which is the unsigned
one whenever `rules_pos` does not decrease.  The expansion-length loop is
embedded with the additions of `uint_t`, of `w` bits
(`expansion_len_loop_uint`), and with the additions made in the natural
numbers (`expansion_len_loop`); the two agree when the expansion of every rule
is shorter than `2^w`, and the DFS is given the latter lengths.  A vector that the code indexes is
a total map from indices to values (`Nat → α`); the length it is allocated
with is kept as a separate definition, and a statement that reads a vector "as
a whole" reads the indices below that length.  Bit-packed vectors are taken to
be wide enough for the values stored in them.  `inv_pi` holds `int_t` values,
`-1` meaning "not visited".  The recursion of the DFS is bounded by a fuel
argument; `none` means the fuel ran out.  The field `calls` of the DFS state
is a ghost log of the calls made; no statement of the program reads it.
-/

set_option autoImplicit false

namespace gcis

/-! ## Records -/

/-- The record `rule_info`: rule label, starting position, expansion length. -/
structure rule_info where
  id : Nat
  pos : Nat
  len : Nat
deriving DecidableEq, Repr

/-! ## The sorter -/

/-- The routines of the succinct-structure library that `sorter` calls:
`calculate_sa` (suffix array of a byte sequence), `construct_lcp`
(`construct_im` on an LCP array: the LCP array of a text), `rmq` (the
range-minimum support built over an LCP array, queried with two indices) and
`std_sort`. -/
structure sdsl_lib where
  calculate_sa : List Nat → List Nat
  construct_lcp : List Nat → List Nat
  rmq : List Nat → Nat → Nat → Nat
  std_sort : (rule_info → rule_info → Bool) → List rule_info → List rule_info

/-- The members of `sorter` that the comparator reads after
`build_data_structures`. -/
structure sorter_state where
  m_ISA : Nat → Nat
  m_lcp : List Nat
  m_rmq : Nat → Nat → Nat

/-- The loop of `build_data_structures` that fills `rev_text`:
`rev_text[i] = text[text_size - i - 1]` for `i < text_size`, then the
terminating `0`. -/
def rev_text (text : List Nat) : List Nat :=
  (List.range text.length).map (fun i => text.getD (text.length - i - 1) 0) ++ [0]

/-- `sdsl::inv_perm_support` over `m_SA`: the rank at which position `i`
stands in the suffix array. -/
def inv_perm_support (sa : List Nat) (i : Nat) : Nat :=
  sa.indexOf i

/-- `sorter::build_data_structures(text)`.  The suffix array is computed on
`rev_text` (with its terminator), the LCP array is constructed from `text`. -/
def build_data_structures (lib : sdsl_lib) (text : List Nat) : sorter_state :=
  let m_SA := lib.calculate_sa (rev_text text)
  let m_lcp := lib.construct_lcp text
  { m_ISA := inv_perm_support m_SA
    m_lcp := m_lcp
    m_rmq := lib.rmq m_lcp }

/-- The comparator that `sorter::sort` hands to `std::sort`. -/
def sort_lambda (m_ISA : Nat → Nat) (m_rmq : Nat → Nat → Nat)
    (lhs rhs : rule_info) : Bool :=
  let rmq := m_rmq (m_ISA lhs.pos) (m_ISA lhs.pos)
  if lhs.len ≤ rmq then
    true
  else if rhs.len ≤ rmq then
    false
  else
    decide (m_ISA lhs.pos < m_ISA rhs.pos)

/-- The method `sorter::compare`. -/
def compare (m_ISA : Nat → Nat) (m_rmq : Nat → Nat → Nat)
    (lhs rhs : rule_info) : Bool :=
  let rmq := m_rmq (m_ISA lhs.pos) (m_ISA lhs.pos)
  if lhs.len ≤ rmq then
    true
  else if rhs.len ≤ rmq then
    false
  else
    decide (m_ISA lhs.pos < m_ISA rhs.pos)

/-- `sorter::sort(v, text)`: `pre_process` does nothing for `rule_info`. -/
def sort (lib : sdsl_lib) (v : List rule_info) (text : List Nat) : List rule_info :=
  let st := build_data_structures lib text
  lib.std_sort (sort_lambda st.m_ISA st.m_rmq) v

/-- The three-case rule of the specification, for a given query result `l`:
`a < b` if `a.len ≤ l`, else `a > b` if `b.len ≤ l`, else by rank. -/
def three_case_rule (m_ISA : Nat → Nat) (l : Nat) (a b : rule_info) : Bool :=
  if a.len ≤ l then true
  else if b.len ≤ l then false
  else decide (m_ISA a.pos < m_ISA b.pos)

/-- The comparator as the specification words it: the query is made over the
pair of ranks of `a` and `b`. -/
def compare_by_pair (m_ISA : Nat → Nat) (m_rmq : Nat → Nat → Nat)
    (a b : rule_info) : Bool :=
  three_case_rule m_ISA (m_rmq (m_ISA a.pos) (m_ISA b.pos)) a b

/-! ### A reference instance of the library, for concrete texts -/

/-- Strict lexicographic order on symbol sequences (a proper initial segment
is smaller). -/
def lex_lt : List Nat → List Nat → Bool
  | [], [] => false
  | [], _ :: _ => true
  | _ :: _, [] => false
  | a :: as, b :: bs => decide (a < b) || (decide (a = b) && lex_lt as bs)

/-- Insertion of one element into a list ordered by `lt`, after its equals. -/
def insert_by {α : Type} (lt : α → α → Bool) (x : α) : List α → List α
  | [] => [x]
  | y :: ys => if lt x y then x :: y :: ys else y :: insert_by lt x ys

/-- Insertion sort by a comparator; it orders the suffixes in `naive_sa`. -/
def insertion_sort {α : Type} (lt : α → α → Bool) : List α → List α
  | [] => []
  | x :: xs => insert_by lt x (insertion_sort lt xs)

/-- The routine `__unguarded_linear_insert` of libstdc++ on the ordered part
`pre`, read from its end: `val` moves to the left over every element `next`
with `comp(val, next)` and stops at the first element without.  It is called
only when `comp(val, first)` is false for the first element of `pre`. -/
def unguarded_linear_insert {α : Type} (comp : α → α → Bool) (val : α) (pre : List α) :
    List α :=
  let moved := pre.reverse.takeWhile (fun next => comp val next)
  let kept := pre.reverse.dropWhile (fun next => comp val next)
  kept.reverse ++ val :: moved.reverse

/-- One round of `__insertion_sort` of libstdc++, with `pre` the part ordered
so far and `val` the next element: `val` is moved to the front when
`comp(val, first)`, and is inserted by `__unguarded_linear_insert`
otherwise. -/
def insertion_round {α : Type} (comp : α → α → Bool) (pre : List α) (val : α) : List α :=
  match pre with
  | [] => [val]
  | first :: _ =>
    if comp val first then val :: pre else unguarded_linear_insert comp val pre

/-- What `std::sort` of libstdc++ does on at most 16 elements: the introsort
loop is not entered and `__final_insertion_sort` runs `__insertion_sort`. -/
def std_insertion_sort {α : Type} (comp : α → α → Bool) (v : List α) : List α :=
  v.foldl (insertion_round comp) []

/-- Suffix array of `s`: the starting positions ordered by their suffixes. -/
def naive_sa (s : List Nat) : List Nat :=
  insertion_sort (fun i j => lex_lt (s.drop i) (s.drop j)) (List.range s.length)

/-- Length of the longest common initial segment. -/
def common_len : List Nat → List Nat → Nat
  | a :: as, b :: bs => if a = b then common_len as bs + 1 else 0
  | _, _ => 0

/-- LCP array of `text` followed by the terminator `0`: entry `k` is the
common length of the suffixes of ranks `k - 1` and `k`, entry `0` is `0`. -/
def naive_lcp (text : List Nat) : List Nat :=
  let s := text ++ [0]
  let sa := naive_sa s
  (List.range sa.length).map (fun k =>
    if k = 0 then 0 else common_len (s.drop (sa.getD (k - 1) 0)) (s.drop (sa.getD k 0)))

/-- Minimum of `lcp[i..j]`, both ends included (`lcp[i]` when `j ≤ i`). -/
def range_min_value (lcp : List Nat) (i j : Nat) : Nat :=
  ((List.range (j - i)).map (fun k => lcp.getD (i + k + 1) 0)).foldl min (lcp.getD i 0)

/-- Leftmost index of the minimum of `lcp[i..j]` (`i` when `j ≤ i`). -/
def range_min_index (lcp : List Nat) (i j : Nat) : Nat :=
  (List.range (j - i)).foldl
    (fun best k => if lcp.getD (i + k + 1) 0 < lcp.getD best 0 then i + k + 1 else best) i

/-- Reference library whose range-minimum query answers with the minimum
value, as the specification reads `RMQ`; `std_sort` is `std::sort` of
libstdc++ on at most 16 elements. -/
def lib_value : sdsl_lib :=
  { calculate_sa := naive_sa
    construct_lcp := naive_lcp
    rmq := range_min_value
    std_sort := fun comp v => std_insertion_sort comp v }

/-- Reference library whose range-minimum query answers with the index of the
minimum; `std_sort` as in `lib_value`. -/
def lib_index : sdsl_lib :=
  { calculate_sa := naive_sa
    construct_lcp := naive_lcp
    rmq := range_min_index
    std_sort := fun comp v => std_insertion_sort comp v }

/-! ## Loops -/

/-- The loop `for (i = lo; i < lo + n; i++) s = body i s`. -/
def for_range {σ : Type} (lo : Nat) (body : Nat → σ → σ) : Nat → σ → σ
  | 0, s => s
  | n + 1, s => body (lo + n) (for_range lo body n s)

/-- The loop `for (i = lo; i < lo + n; i++)` whose body may fail to return. -/
def for_range_opt {σ : Type} (lo : Nat) (body : Nat → σ → Option σ) : Nat → σ → Option σ
  | 0, s => some s
  | n + 1, s => (for_range_opt lo body n s).bind (body (lo + n))

/-! ## Grammar tables and expansions -/

/-- What `index_basics::dfs` reads from `m_gref` together with the two tables
that its decode loop fills: `rules_derivation` (the concatenated right-hand
sides) and `rules_pos` (where each rule starts; entry `total_rules` closes the
last rule). -/
structure grammar where
  total_rules : Nat
  m_grammar_size : Nat
  m_xs : Nat
  m_text_size_1 : Nat
  m_first_level_expansion_len : Nat
  rules_derivation : Nat → Nat
  rules_pos : Nat → Nat

/-- Number of symbols of the right-hand side of rule `r`:
`rules_pos[r + 1] - rules_pos[r]`. -/
def arity (rules_pos : Nat → Nat) (r : Nat) : Nat :=
  rules_pos (r + 1) - rules_pos r

/-- The right-hand side of rule `r`, read off the two tables. -/
def rhs (g : grammar) (r : Nat) : List Nat :=
  (List.range (arity g.rules_pos r)).map (fun k => g.rules_derivation (g.rules_pos r + k))

/-- The byte string a symbol expands to, to depth `fuel`: a terminal is its
own byte, a non-terminal is the concatenation of the expansions of its
right-hand side. -/
def expansion (g : grammar) : Nat → Nat → List Nat
  | 0, _ => []
  | fuel + 1, r =>
    if r < 256 then [r]
    else ((rhs g r).map (expansion g fuel)).flatten

/-- The inner loop of the expansion-length loop, for rule `i` whose
right-hand side is `rules_derivation[pos .. pos + len)`:
`rules_expansion_len[i] += rules_expansion_len[rules_derivation[j]]`, the
entries being `uint_t` values of `w` bits: the sum wraps around at `2^w`. -/
def expansion_len_rule_uint (w : Nat) (rules_derivation : Nat → Nat) (i pos len : Nat)
    (rules_expansion_len : Nat → Nat) : Nat → Nat :=
  for_range pos
    (fun j rules_expansion_len =>
      Function.update rules_expansion_len i
        ((rules_expansion_len i + rules_expansion_len (rules_derivation j)) % 2 ^ w))
    len rules_expansion_len

/-- The expansion-length loop of `index_basics::dfs` after its first `n`
rules, with `uint_t` of `w` bits: the vector starts at `0`, `fill_n` puts `1`
in its first 256 entries, then the rules `256, …, 256 + n - 1` accumulate the
lengths of their right-hand sides. -/
def expansion_len_upto_uint (w : Nat) (g : grammar) (n : Nat) : Nat → Nat :=
  for_range 256
    (fun i rules_expansion_len =>
      let pos := g.rules_pos i
      let len := g.rules_pos (i + 1) - pos
      expansion_len_rule_uint w g.rules_derivation i pos len rules_expansion_len)
    n (fun i => if i < 256 then 1 else 0)

/-- The expansion-length loop of `index_basics::dfs`, over the rules
`256 ≤ i < total_rules`, with `uint_t` of `w` bits. -/
def expansion_len_loop_uint (w : Nat) (g : grammar) : Nat → Nat :=
  expansion_len_upto_uint w g (g.total_rules - 256)

/-- The inner loop of the expansion-length loop with the additions made in the
natural numbers: what `expansion_len_rule_uint` computes as long as no sum
reaches `2^w`. -/
def expansion_len_rule (rules_derivation : Nat → Nat) (i pos len : Nat)
    (rules_expansion_len : Nat → Nat) : Nat → Nat :=
  for_range pos
    (fun j rules_expansion_len =>
      Function.update rules_expansion_len i
        (rules_expansion_len i + rules_expansion_len (rules_derivation j)))
    len rules_expansion_len

/-- The expansion-length loop after its first `n` rules, with the additions
made in the natural numbers. -/
def expansion_len_upto (g : grammar) (n : Nat) : Nat → Nat :=
  for_range 256
    (fun i rules_expansion_len =>
      let pos := g.rules_pos i
      let len := g.rules_pos (i + 1) - pos
      expansion_len_rule g.rules_derivation i pos len rules_expansion_len)
    n (fun i => if i < 256 then 1 else 0)

/-- The expansion-length loop over the rules `256 ≤ i < total_rules` with the
additions made in the natural numbers: the lengths that
`expansion_len_loop_uint` computes when the expansion of every rule of the
table is shorter than `2^w`. -/
def expansion_len_loop (g : grammar) : Nat → Nat :=
  expansion_len_upto g (g.total_rules - 256)

/-! ## The overlay DFS -/

/-- Ghost record of one call `dfs(rule_idx, offset)`: which right-hand side
holds the node and where, the arguments of the call, and the counters as they
stand when the call is made.  It is not part of the program. -/
structure dfs_call where
  parent : Nat
  child : Nat
  rule : Nat
  offset : Nat
  gidx : Nat
  focc_slot : Nat
  leaf_slot : Nat
  l_pos : Nat
  bv_pos : Nat
  fresh : Bool
deriving DecidableEq, Repr

/-- The vectors and counters that `elias_fano_dfs_helper` writes, and the
ghost log `calls` of the calls made so far. -/
structure dfs_state where
  rules_expansion_pos : Nat → Nat
  suffixes_expansion_pos : Nat → Nat
  m_focc : Nat → Bool
  m_l : Nat → Bool
  m_bv_dfuds : Nat → Bool
  m_t : Nat → Bool
  m_pi : Nat → Nat
  m_inv_pi : Nat → Int
  m_wt : Nat → Nat
  m_str : List Nat
  m_prev_rule : Nat → Nat
  m_bv_idx : Nat
  pi_idx : Nat
  focc_idx : Nat
  dfs_idx : Nat
  leaf_idx : Nat
  wt_idx : Nat
  l_idx : Nat
  global_dfs_idx : Nat
  calls : List dfs_call

/-- Ghost step: append the record of the call about to be made. -/
def log_call (parent child rule offset : Nat) (s : dfs_state) : dfs_state :=
  { s with calls := s.calls ++
      [{ parent := parent, child := child, rule := rule, offset := offset,
         gidx := s.global_dfs_idx, focc_slot := s.focc_idx, leaf_slot := s.leaf_idx,
         l_pos := s.l_idx, bv_pos := s.m_bv_idx,
         fresh := decide (256 ≤ rule) && decide (s.m_inv_pi rule = -1) }] }

/-- The terminal branch of `dfs(rule_idx, offset)`. -/
def visit_terminal (rule_idx : Nat) (s : dfs_state) : dfs_state :=
  { s with
    m_t := Function.update s.m_t s.leaf_idx true
    leaf_idx := s.leaf_idx + 1
    m_str := s.m_str ++ [rule_idx]
    m_focc := Function.update s.m_focc s.focc_idx false
    focc_idx := s.focc_idx + 1
    m_bv_dfuds := Function.update s.m_bv_dfuds s.m_bv_idx false
    m_bv_idx := s.m_bv_idx + 1
    m_l := Function.update s.m_l s.l_idx true
    l_idx := s.l_idx + 1 }

/-- The branch of a non-terminal seen before. -/
def visit_repeated (rules_expansion_len : Nat → Nat) (rule_idx : Nat) (s : dfs_state) :
    dfs_state :=
  { s with
    leaf_idx := s.leaf_idx + 1
    m_wt := Function.update s.m_wt s.wt_idx rule_idx
    wt_idx := s.wt_idx + 1
    m_bv_dfuds := Function.update s.m_bv_dfuds s.m_bv_idx false
    m_bv_idx := s.m_bv_idx + 1
    m_focc := Function.update s.m_focc s.focc_idx false
    focc_idx := s.focc_idx + 1
    m_l := Function.update s.m_l s.l_idx true
    l_idx := s.l_idx + rules_expansion_len rule_idx }

/-- First occurrence of a non-terminal, up to the loop over its right-hand
side: `pi`, `inv_pi`, `focc` and the DFUDS slots. -/
def open_rule (rule_idx len : Nat) (s : dfs_state) : dfs_state :=
  { s with
    m_pi := Function.update s.m_pi s.pi_idx rule_idx
    pi_idx := s.pi_idx + 1
    m_inv_pi := Function.update s.m_inv_pi rule_idx (s.dfs_idx : Int)
    dfs_idx := s.dfs_idx + 1
    m_focc := Function.update s.m_focc s.focc_idx true
    focc_idx := s.focc_idx + 1
    m_bv_dfuds := Function.update s.m_bv_dfuds (s.m_bv_idx + len) false
    m_bv_idx := s.m_bv_idx + len + 1 }

/-- What the loop over the right-hand side of `rule_idx` does at index `i`
before the recursive call: bump `global_dfs_idx`, and for `i > pos` store the
previous sibling and `local_offset` at that index. -/
def child_enter (rules_derivation : Nat → Nat) (rule_idx pos i local_offset : Nat)
    (s : dfs_state) : dfs_state :=
  let s0 := { s with global_dfs_idx := s.global_dfs_idx + 1 }
  let s1 :=
    if i > pos then
      { s0 with
        m_prev_rule := Function.update s0.m_prev_rule s0.global_dfs_idx (rules_derivation (i - 1))
        suffixes_expansion_pos :=
          Function.update s0.suffixes_expansion_pos s0.global_dfs_idx local_offset }
    else s0
  log_call rule_idx (i - pos) (rules_derivation i) local_offset s1

/-- Body of the loop over the right-hand side of `rule_idx` in
`dfs(rule_idx, offset)`; the loop state is the helper state and
`local_offset`.  `visit` is the recursive call. -/
def child_step (visit : Nat → Nat → dfs_state → Option dfs_state)
    (rules_derivation rules_expansion_len : Nat → Nat) (rule_idx pos : Nat)
    (i : Nat) (st : dfs_state × Nat) : Option (dfs_state × Nat) :=
  (visit (rules_derivation i) st.2
      (child_enter rules_derivation rule_idx pos i st.2 st.1)).map
    (fun s2 => (s2, st.2 + rules_expansion_len (rules_derivation i)))

/-- The last statement of the first-occurrence branch:
`m_rules_expansion_pos[rule_idx] = offset`. -/
def close_rule (rule_idx offset : Nat) (s : dfs_state) : dfs_state :=
  { s with rules_expansion_pos := Function.update s.rules_expansion_pos rule_idx offset }

/-- The private method `dfs(rule_idx, offset)`. -/
def dfs_node (rules_derivation rules_pos rules_expansion_len : Nat → Nat) :
    Nat → Nat → Nat → dfs_state → Option dfs_state
  | 0, _, _, _ => none
  | fuel + 1, rule_idx, offset, s =>
    if rule_idx < 256 then
      some (visit_terminal rule_idx s)
    else if s.m_inv_pi rule_idx = -1 then
      let pos := rules_pos rule_idx
      let len := rules_pos (rule_idx + 1) - pos
      (for_range_opt pos
          (child_step (dfs_node rules_derivation rules_pos rules_expansion_len fuel)
            rules_derivation rules_expansion_len rule_idx pos)
          len (open_rule rule_idx len s, offset)).map
        (fun st => close_rule rule_idx offset st.1)
    else
      some (visit_repeated rules_expansion_len rule_idx s)

/-- What the loop of the public method `dfs()` does at index `i` before the
call: store `offset` at `global_dfs_idx`, and for `i > pos` the previous
sibling. -/
def root_enter (rules_derivation : Nat → Nat) (m_root pos i offset : Nat)
    (s : dfs_state) : dfs_state :=
  let s0 := { s with
    suffixes_expansion_pos :=
      Function.update s.suffixes_expansion_pos s.global_dfs_idx offset }
  let s1 :=
    if i > pos then
      { s0 with
        m_prev_rule := Function.update s0.m_prev_rule s0.global_dfs_idx (rules_derivation (i - 1)) }
    else s0
  log_call m_root (i - pos) (rules_derivation i) offset s1

/-- The statement `global_dfs_idx++` that ends an iteration of the loop of
`dfs()`. -/
def root_leave (s : dfs_state) : dfs_state :=
  { s with global_dfs_idx := s.global_dfs_idx + 1 }

/-- Body of the loop of the public method `dfs()` over the right-hand side of
the root; the loop state is the helper state and `offset`. -/
def root_step (visit : Nat → Nat → dfs_state → Option dfs_state)
    (rules_derivation rules_expansion_len : Nat → Nat) (m_root pos : Nat)
    (i : Nat) (st : dfs_state × Nat) : Option (dfs_state × Nat) :=
  (visit (rules_derivation i) st.2
      (root_enter rules_derivation m_root pos i st.2 st.1)).map
    (fun s2 => (root_leave s2, st.2 + rules_expansion_len (rules_derivation i)))

/-- The public method `dfs()`: a DFS from every child of the root. -/
def dfs_root (rules_derivation rules_pos rules_expansion_len : Nat → Nat) (m_root : Nat)
    (fuel : Nat) (s : dfs_state) : Option dfs_state :=
  let pos := rules_pos m_root
  let len := rules_pos (m_root + 1) - pos
  (for_range_opt pos
      (root_step (dfs_node rules_derivation rules_pos rules_expansion_len fuel)
        rules_derivation rules_expansion_len m_root pos)
      len (s, 0)).map Prod.fst

/-! ## `index_basics<elias_fano_grammar>::dfs` -/

/-- Length `m_bv_dfuds` is allocated with. -/
def bv_dfuds_size (g : grammar) : Nat := 3 + 2 * (g.m_grammar_size + 1) - 1

/-- Length `focc` is allocated with. -/
def focc_size (g : grammar) : Nat := g.m_grammar_size + 1

/-- Length `m_pi` is resized to. -/
def pi_size (g : grammar) : Nat := g.total_rules

/-- Length of `suffixes_expansion_pos` and of `prev_rule`. -/
def suffixes_size (g : grammar) : Nat := g.m_grammar_size

/-- The state handed to the helper: the vectors as allocated, `m_bv_dfuds`
with the root and the terminal leaves written, `pi`, `inv_pi` and `focc`
seeded with the top rule and the 256 terminals, and the counters at their
initial values. -/
def seed_state (g : grammar) : dfs_state :=
  let root_arity := g.rules_pos (g.m_xs + 1) - g.rules_pos g.m_xs
  let bv0 : Nat → Bool := Function.update (fun _ => true) 2 false
  let bv1 := for_range (3 + root_arity + 256) (fun i bv => Function.update bv i false)
    (512 + 3 + root_arity + 1 - (3 + root_arity + 256)) bv0
  let s0 : dfs_state :=
    { rules_expansion_pos := fun _ => 0
      suffixes_expansion_pos := fun _ => 0
      m_focc := Function.update (fun _ => false) 0 true
      m_l := fun _ => false
      m_bv_dfuds := bv1
      m_t := fun _ => false
      m_pi := Function.update (fun _ => 0) 0 g.m_xs
      m_inv_pi := Function.update (fun _ => -1) g.m_xs 0
      m_wt := fun _ => 0
      m_str := []
      m_prev_rule := fun _ => 0
      m_bv_idx := 512 + 3 + root_arity + 1
      pi_idx := 257
      focc_idx := 257
      dfs_idx := 257
      leaf_idx := 0
      wt_idx := 0
      l_idx := 0
      global_dfs_idx := 257
      calls := [] }
  for_range 0
    (fun i s => { s with
      m_inv_pi := Function.update s.m_inv_pi i ((i : Int) + 1)
      m_pi := Function.update s.m_pi (i + 1) i
      m_focc := Function.update s.m_focc (i + 1) true })
    256 s0

/-- The expansion lengths the helper is built with: the result of the
expansion-length loop after the seeding loop has stored `1` for every
terminal again. -/
def seed_expansion_len (g : grammar) : Nat → Nat :=
  for_range 0 (fun i rules_expansion_len => Function.update rules_expansion_len i 1) 256
    (expansion_len_loop g)

/-- Recursion depth that suffices for the helper: one level per rule. -/
def dfs_fuel (g : grammar) : Nat := g.total_rules + 1

/-- `index_basics::dfs` from the expansion-length loop to the return of
`dfs_h.dfs()`. -/
def index_dfs (g : grammar) : Option dfs_state :=
  dfs_root g.rules_derivation g.rules_pos (seed_expansion_len g) g.m_xs (dfs_fuel g)
    (seed_state g)

/-- The `rules` array that `index_basics::dfs` builds from the result of the
DFS: the top rule first, then one record per slot `257 ≤ i < |pi|`. -/
def rules_array (g : grammar) (s : dfs_state) : List rule_info :=
  { id := g.m_xs, pos := 0, len := g.m_text_size_1 } ::
    (List.range (pi_size g - 257)).map (fun k =>
      { id := s.m_pi (257 + k)
        pos := s.rules_expansion_pos (s.m_pi (257 + k))
        len := seed_expansion_len g (s.m_pi (257 + k)) })

/-! ## Concrete inputs -/

/-- Tables of a grammar whose terminals `0..255` occupy one slot each
(`rules_derivation[c] = c`, `rules_pos[c] = c`) and whose non-terminals
`256, 257, …` have the right-hand sides listed in `nts`, in this order. -/
def tables_of (nts : List (List Nat)) (xs text_size : Nat) : grammar :=
  { total_rules := 256 + nts.length
    m_grammar_size := 256 + nts.flatten.length
    m_xs := xs
    m_text_size_1 := text_size
    m_first_level_expansion_len := 0
    rules_derivation := fun i => if i < 256 then i else nts.flatten.getD (i - 256) 0
    rules_pos := fun i => if i ≤ 256 then i else 256 + (nts.take (i - 256)).flatten.length }

/-- The text `ababa`. -/
def text_ababa : List Nat := [97, 98, 97, 98, 97]

/-- A grammar of `ababa`: `256 → a b` and the top rule `257 → 256 256 a`. -/
def grammar_ababa : grammar := tables_of [[97, 98], [256, 256, 97]] 257 5

/-- The text `aabaa`. -/
def text_aabaa : List Nat := [97, 97, 98, 97, 97]

/-- The text `aaaa`. -/
def text_aaaa : List Nat := [97, 97, 97, 97]

/-! ## Predicates on states and tables -/

/-- Rule `r` has been given a slot: `inv_pi[r] != -1`. -/
def marked (s : dfs_state) (r : Nat) : Prop := s.m_inv_pi r ≠ -1

/-- Every symbol of every right-hand side, and the top rule, is a rule of the
table: the tables are finite. -/
def tables_in_range (g : grammar) : Prop :=
  g.m_xs < g.total_rules ∧
  ∀ r, r < g.total_rules → ∀ k, k < arity g.rules_pos r →
    g.rules_derivation (g.rules_pos r + k) < g.total_rules

/-- On every assigned slot `inv_pi` undoes `pi`, and `pi_idx` and `dfs_idx`
advance together. -/
def slots_inverse (s : dfs_state) : Prop :=
  s.pi_idx = s.dfs_idx ∧ ∀ i, i < s.pi_idx → s.m_inv_pi (s.m_pi i) = (i : Int)

/-- Number of rules below `n` that have no slot yet. -/
def unmarked_count (n : Nat) (s : dfs_state) : Nat :=
  ((Finset.range n).filter (fun r => s.m_inv_pi r = -1)).card

/-- Relation between an earlier state `a` and a later state `b`: `pi_idx` has
not gone back and the slots of `pi` below the earlier `pi_idx` are as they
were. -/
def pi_extends (a b : dfs_state) : Prop :=
  a.pi_idx ≤ b.pi_idx ∧ ∀ j, j < a.pi_idx → b.m_pi j = a.m_pi j

/-- Rules expand only into lower symbols: every symbol of the right-hand side
of a non-terminal `r` of the table is smaller than `r`. -/
def level_ordered (g : grammar) : Prop :=
  ∀ r, 256 ≤ r → r < g.total_rules → ∀ k, k < arity g.rules_pos r →
    g.rules_derivation (g.rules_pos r + k) < r

/-- The lengths `len` are consistent with the grammar: `1` for a terminal, the
sum over the right-hand side for a non-terminal of the table. -/
def lengths_consistent (g : grammar) (len : Nat → Nat) : Prop :=
  (∀ c, c < 256 → len c = 1) ∧
  ∀ r, 256 ≤ r → r < g.total_rules → len r = ((rhs g r).map len).sum

/-- The full expansion of symbol `r`. -/
def full_expansion (g : grammar) (r : Nat) : List Nat := expansion g (r + 1) r

/-- Symbols that occur in the derivation of the top rule: the top rule, and
every symbol of the right-hand side of a reachable non-terminal. -/
inductive reachable (g : grammar) : Nat → Prop
  | root : reachable g g.m_xs
  | step (r k : Nat) : reachable g r → 256 ≤ r → k < arity g.rules_pos r →
      reachable g (g.rules_derivation (g.rules_pos r + k))

/-- A well-formed grammar: a finite table whose terminals `0..255` occupy one
slot of `rules_derivation` each, whose rules follow one another in
`rules_derivation` up to `rules_pos[total_rules] = m_grammar_size`, whose top
rule is a non-terminal, and whose non-terminals all occur in the derivation of
the top rule. -/
def well_formed (g : grammar) : Prop :=
  tables_in_range g ∧ 256 ≤ g.m_xs ∧
  (∀ c, c ≤ 256 → g.rules_pos c = c) ∧
  (∀ r, r < g.total_rules → g.rules_pos r ≤ g.rules_pos (r + 1)) ∧
  g.rules_pos g.total_rules = g.m_grammar_size ∧
  (∀ r, 256 ≤ r → r < g.total_rules → reachable g r)

/-- Every rule that has a slot stands in `pi` below `pi_idx`. -/
def marks_in_pi (s : dfs_state) : Prop :=
  ∀ r, marked s r → ∃ i, i < s.pi_idx ∧ s.m_pi i = r

/-- Sum of the arities of the rules stored in the slots `a ≤ i < b` of `pi`. -/
def slot_arity_sum (rp : Nat → Nat) (pi : Nat → Nat) (a b : Nat) : Nat :=
  ∑ i in Finset.Ico a b, arity rp (pi i)

/-- What a call adds to the counters: with `d` the arities of the rules that
received a slot during the call, `focc_idx` grows by `1 + d`, `m_bv_idx` by
`1 + 2 d` and `global_dfs_idx` by `d`. -/
def call_counts (rp : Nat → Nat) (a b : dfs_state) : Prop :=
  pi_extends a b ∧
  b.focc_idx = a.focc_idx + 1 + slot_arity_sum rp b.m_pi a.pi_idx b.pi_idx ∧
  b.m_bv_idx = a.m_bv_idx + 1 + 2 * slot_arity_sum rp b.m_pi a.pi_idx b.pi_idx ∧
  b.global_dfs_idx = a.global_dfs_idx + slot_arity_sum rp b.m_pi a.pi_idx b.pi_idx

/-- Every rule that received its slot between `a` and `b` has all the symbols
of its right-hand side marked in `b`. -/
def new_marks_closed (rd rp : Nat → Nat) (a b : dfs_state) : Prop :=
  ∀ x, 256 ≤ x → ¬ marked a x → marked b x →
    ∀ k, k < arity rp x → marked b (rd (rp x + k))

/-- Number of set bits among the first `n` bits of a bit vector. -/
def count_set (f : Nat → Bool) : Nat → Nat
  | 0 => 0
  | n + 1 => count_set f n + (if f n then 1 else 0)

/-- The bits of `focc` below `focc_idx` hold as many set bits as `pi` has
assigned slots, and no bit is set from `focc_idx` on. -/
def focc_counted (s : dfs_state) : Prop :=
  count_set s.m_focc s.focc_idx = s.pi_idx ∧ ∀ j, s.focc_idx ≤ j → s.m_focc j = false

/-- Number of cleared bits among the first `n` bits of a bit vector. -/
def count_clear (f : Nat → Bool) : Nat → Nat
  | 0 => 0
  | n + 1 => count_clear f n + (if f n then 0 else 1)

/-- Number of set bits minus number of cleared bits among the `k` bits that
start at `a`. -/
def excess (bv : Nat → Bool) (a : Nat) : Nat → Int
  | 0 => 0
  | k + 1 => excess bv a k + (if bv (a + k) then 1 else -1)

/-- The `len` bits from `a` on hold `k` cleared bits more than set bits, and no
proper initial part of them holds `k` more: they are the DFUDS sequences of
`k` subtrees, one after the other. -/
def hanging (bv : Nat → Bool) (a len k : Nat) : Prop :=
  excess bv a len = -(k : Int) ∧ ∀ j, j < len → 1 - (k : Int) ≤ excess bv a j

/-- What a call writes into `m_bv_dfuds` when every bit from `m_bv_idx` on is
still set before it: bits below the old `m_bv_idx` are kept, bits from the new
`m_bv_idx` on are still set, and the bits in between are the DFUDS sequence of
one subtree. -/
def subtree_written (a b : dfs_state) : Prop :=
  a.m_bv_idx ≤ b.m_bv_idx ∧
  (∀ p, p < a.m_bv_idx → b.m_bv_dfuds p = a.m_bv_dfuds p) ∧
  (∀ p, b.m_bv_idx ≤ p → b.m_bv_dfuds p = true) ∧
  hanging b.m_bv_dfuds a.m_bv_idx (b.m_bv_idx - a.m_bv_idx) 1

/-- The text `abc`. -/
def text_abc : List Nat := [97, 98, 99]

/-- A grammar of `abc`: `256 → b c` and the top rule `257 → a 256`. -/
def grammar_abc : grammar := tables_of [[98, 99], [97, 256]] 257 3

/-- The calls logged so far have increasing indices, none above
`global_dfs_idx`; the slot of `suffixes_expansion_pos` of every logged call that
is a child of the root `xs` or not the first child of its parent holds the
offset of the call; and the root is marked. -/
def offsets_recorded (xs : Nat) (s : dfs_state) : Prop :=
  marked s xs ∧
  (∀ c, c ∈ s.calls → c.gidx ≤ s.global_dfs_idx) ∧
  s.calls.Pairwise (fun a b => a.gidx < b.gidx) ∧
  ∀ c, c ∈ s.calls → (c.parent = xs ∨ c.child ≠ 0) →
    s.suffixes_expansion_pos c.gidx = c.offset

/-- Bytes produced by the first `k` symbols of the right-hand side of `r`,
measured with the lengths `len`. -/
def prefix_len (g : grammar) (len : Nat → Nat) (r k : Nat) : Nat :=
  ((List.range k).map (fun j => len (g.rules_derivation (g.rules_pos r + j)))).sum

/-- The nodes of the derivation tree of the text with the byte offsets at
which they start: the top rule at offset 0, and every symbol of the right-hand
side of a non-terminal node, after the bytes of the symbols before it. -/
inductive occurs_at (g : grammar) (len : Nat → Nat) : Nat → Nat → Prop
  | root : occurs_at g len g.m_xs 0
  | child (r o k : Nat) : occurs_at g len r o → 256 ≤ r → k < arity g.rules_pos r →
      occurs_at g len (g.rules_derivation (g.rules_pos r + k)) (o + prefix_len g len r k)

/-- A logged call on a non-terminal is settled in state `s`: the rule is
marked and its recorded expansion position is not to the right of the call. -/
def entry_ok (s : dfs_state) (c : dfs_call) : Prop :=
  256 ≤ c.rule → marked s c.rule ∧ s.rules_expansion_pos c.rule ≤ c.offset

/-- A rule is settled in state `s`: its recorded expansion position is the
offset of a node of the derivation tree that carries the rule, and every
symbol of its right-hand side has a logged call at the offset that this
position gives it. -/
def rule_settled (g : grammar) (len : Nat → Nat) (s : dfs_state) (x : Nat) : Prop :=
  occurs_at g len x (s.rules_expansion_pos x) ∧
  ∀ k, k < arity g.rules_pos x → ∃ c, c ∈ s.calls ∧
    c.rule = g.rules_derivation (g.rules_pos x + k) ∧
    c.offset = s.rules_expansion_pos x + prefix_len g len x k

/-- What holds when `dfs(r, off)` is called: `r` is a rule of the table that
stands at offset `off` in the derivation tree, no recorded expansion position
lies to the right of `off`, and the call is the last entry of the log, every
earlier entry being settled. -/
def call_pre (g : grammar) (len : Nat → Nat) (r off : Nat) (s : dfs_state) : Prop :=
  r < g.total_rules ∧ occurs_at g len r off ∧
  (∀ x, s.rules_expansion_pos x ≤ off) ∧
  ∃ old c0, s.calls = old ++ [c0] ∧ c0.rule = r ∧ c0.offset = off ∧
    ∀ c, c ∈ old → entry_ok s c

/-- What holds when `dfs(r, off)` returns. -/
def call_post (g : grammar) (len : Nat → Nat) (r off : Nat) (s s' : dfs_state) : Prop :=
  (∀ x, marked s x → marked s' x ∧ s'.rules_expansion_pos x = s.rules_expansion_pos x) ∧
  (∃ l, s'.calls = s.calls ++ l ∧ ∀ c, c ∈ l → off ≤ c.offset) ∧
  (∀ c, c ∈ s'.calls → entry_ok s' c) ∧
  (∀ x, s'.rules_expansion_pos x ≤ off + len r) ∧
  (∀ x, ¬ marked s x → marked s' x → rule_settled g len s' x)

/-- State of the loop over the right-hand side of `r`, entered in state `s1`
at offset `off`, after `k` symbols. -/
def loop_inv (g : grammar) (len : Nat → Nat) (r off : Nat) (s1 : dfs_state) (base : List dfs_call)
    (k : Nat) (st : dfs_state × Nat) : Prop :=
  st.2 = off + prefix_len g len r k ∧
  (∀ x, marked s1 x → marked st.1 x ∧
    st.1.rules_expansion_pos x = s1.rules_expansion_pos x) ∧
  (∃ l, st.1.calls = base ++ l ∧ ∀ c, c ∈ l → off ≤ c.offset) ∧
  (∀ c, c ∈ st.1.calls → entry_ok st.1 c) ∧
  (∀ x, st.1.rules_expansion_pos x ≤ st.2) ∧
  (∀ x, ¬ marked s1 x → marked st.1 x → rule_settled g len st.1 x) ∧
  ∀ k', k' < k → ∃ c, c ∈ st.1.calls ∧
    c.rule = g.rules_derivation (g.rules_pos r + k') ∧
    c.offset = off + prefix_len g len r k'

/-- The text `aaab`. -/
def text_aaab : List Nat := [97, 97, 97, 98]

/-! ## The driver `gc-is-codec` -/

/-- The C string held in a buffer: the bytes before the first zero byte. -/
def c_string (buf : List Nat) : List Nat :=
  buf.takeWhile (fun b => decide (b ≠ 0))

/-- `load_string_from_file`: a buffer with the bytes of the file followed by a
zero byte. -/
def load_string_from_file (file : List Nat) : List Nat :=
  file ++ [0]

/-- The operations of `gcis_dictionary<gcis_eliasfano_codec>` that `main`
calls.  `encode` is given a `char *` and reads the C string it points to;
`decode` returns a `char *`; `serialize` and `load` write and read the
dictionary as the bytes of a file; `other_mode` stands for what the modes
`-s`, `-l`, `-A` and `-e` do to the files. -/
structure dictionary_ops (δ : Type) where
  encode : List Nat → δ
  serialize : δ → List Nat
  load : List Nat → δ
  decode : δ → List Nat
  other_mode : String → String → String → (String → List Nat) → (String → List Nat)

/-- The codec is lossless on the strings it is given: decoding the loaded
serialisation of the encoding of a zero-free string returns that string. -/
def lossless {δ : Type} (d : dictionary_ops δ) : Prop :=
  ∀ s : List Nat, (∀ b, b ∈ s → b ≠ 0) →
    c_string (d.decode (d.load (d.serialize (d.encode s)))) = s

/-- The value of the macro `EXIT_FAILURE`. -/
def EXIT_FAILURE : Nat := 1

/-- What a run of `main` leaves: the exit status, the messages written to
`std::cerr`, and the files. -/
structure run_result where
  status : Nat
  cerr : List String
  files : String → List Nat

/-- The branch `-c` of `main`: load the text, open the output, encode the C
string, serialise. -/
def mode_c {δ : Type} (d : dictionary_ops δ) (input output : String)
    (files : String → List Nat) : String → List Nat :=
  let str := load_string_from_file (files input)
  let opened := Function.update files output []
  Function.update opened output (d.serialize (d.encode (c_string str)))

/-- The branch `-d` of `main`: open the input and the output, load the
dictionary, decode, write `strlen(str)` bytes of the decoded text. -/
def mode_d {δ : Type} (d : dictionary_ops δ) (input output : String)
    (files : String → List Nat) : String → List Nat :=
  let opened := Function.update files output []
  let str := d.decode (d.load (opened input))
  Function.update opened output (c_string str)

/-- `main(argc, argv)`, with `argc` the length of `argv`. -/
def main {δ : Type} (d : dictionary_ops δ) (argv : List String)
    (files : String → List Nat) : run_result :=
  if argv.length ≠ 4 then
    { status := EXIT_FAILURE, cerr := ["Usage: \n"], files := files }
  else
    let mode := argv.getD 1 ""
    if mode = "-c" then
      { status := 0, cerr := [], files := mode_c d (argv.getD 2 "") (argv.getD 3 "") files }
    else if mode = "-d" then
      { status := 0, cerr := [], files := mode_d d (argv.getD 2 "") (argv.getD 3 "") files }
    else if mode = "-s" then
      { status := 0, cerr := [],
        files := d.other_mode mode (argv.getD 2 "") (argv.getD 3 "") files }
    else if mode = "-l" then
      { status := 0, cerr := [],
        files := d.other_mode mode (argv.getD 2 "") (argv.getD 3 "") files }
    else if mode = "-A" then
      { status := 0, cerr := [],
        files := d.other_mode mode (argv.getD 2 "") (argv.getD 3 "") files }
    else if mode = "-e" then
      { status := 0, cerr := [],
        files := d.other_mode mode (argv.getD 2 "") (argv.getD 3 "") files }
    else
      { status := EXIT_FAILURE, cerr := ["Invalid mode, use: "], files := files }

/-- A dictionary that stores the string itself: `decode` returns it in a
zero-terminated buffer. -/
def plain_dictionary : dictionary_ops (List Nat) :=
  { encode := fun s => s
    serialize := fun d => d
    load := fun bytes => bytes
    decode := fun d => d ++ [0]
    other_mode := fun _ _ _ files => files }

/-- Files of a run: the file `in` holds `text`, every other file is empty. -/
def files_with (text : List Nat) : String → List Nat :=
  fun name => if name = "in" then text else []

/-- The bytes of the file `out` after `gc-is-codec -c in mid` followed by
`gc-is-codec -d mid out`. -/
def round_trip {δ : Type} (d : dictionary_ops δ) (files : String → List Nat)
    (input mid output : String) : List Nat :=
  let after_c := (main d ["gc-is-codec", "-c", input, mid] files).files
  (main d ["gc-is-codec", "-d", mid, output] after_c).files output

/-- What the decode loop reads from `m_gref`: the sizes, the two select
supports, and the stream of symbols that `copy_suffix` reads. -/
structure encoded_grammar where
  total_rules : Nat
  m_grammar_size : Nat
  rules_lcp_select : Nat → Nat
  rules_delim_select : Nat → Nat
  rules_concat : Nat → Nat

/-- The variables of the decode loop. -/
structure decode_state where
  rules_derivation : Nat → Nat
  rules_pos : Nat → Nat
  idx : Nat
  rule_concat_idx : Nat
  prev_lcp_pos : Nat
  prev_rule_pos : Nat
  prev_rule_len : Nat

/-- Modelled from the spec: `copy_lcp(dst, lcp_len, prev_rule_len, idx)` copies
the first `lcp_len` symbols of the rule decoded just before, the
`prev_rule_len` symbols that end at `idx`, into `dst` at `idx`; `idx` is passed
by reference and ends after the copied symbols.  Returns `dst` and `idx`. -/
def copy_lcp (dst : Nat → Nat) (lcp_len prev_rule_len idx : Nat) : (Nat → Nat) × Nat :=
  (for_range 0 (fun j d => Function.update d (idx + j) (d (idx - prev_rule_len + j))) lcp_len dst,
   idx + lcp_len)

/-- Modelled from the spec: `copy_suffix(dst, suffix_len, concat_idx, idx)`
copies `suffix_len` symbols of the concat stream, from `concat_idx` on, into
`dst` at `idx`, advancing `concat_idx` and `idx` by `suffix_len`.  Returns
`dst`, `concat_idx` and `idx`. -/
def copy_suffix (rules_concat : Nat → Nat) (dst : Nat → Nat) (suffix_len concat_idx idx : Nat) :
    (Nat → Nat) × Nat × Nat :=
  (for_range 0 (fun j d => Function.update d (idx + j) (rules_concat (concat_idx + j)))
     suffix_len dst,
   concat_idx + suffix_len, idx + suffix_len)

/-- The state before the decode loop: both tables all zero, `rules_derivation[0]
= 0`, `rules_pos[0] = 0`, `idx = 1`, `rule_concat_idx = 1`, `prev_lcp_pos = 0`,
`prev_rule_pos = 1`, `prev_rule_len = 0`. -/
def decode_init : decode_state :=
  { rules_derivation := Function.update (fun _ => 0) 0 0
    rules_pos := Function.update (fun _ => 0) 0 0
    idx := 1
    rule_concat_idx := 1
    prev_lcp_pos := 0
    prev_rule_pos := 1
    prev_rule_len := 0 }

/-- The body of the decode loop for rule `i`. -/
def decode_step (e : encoded_grammar) (i : Nat) (s : decode_state) : decode_state :=
  let rules_pos := Function.update s.rules_pos i s.idx
  let cur_lcp_pos := e.rules_lcp_select (i + 1)
  let lcp_len := cur_lcp_pos - s.prev_lcp_pos - 1
  let cur_rule_pos := e.rules_delim_select (i + 1)
  let suffix_len := cur_rule_pos - s.prev_rule_pos - 1
  let cur_rule_len := lcp_len + suffix_len
  let a := copy_lcp s.rules_derivation lcp_len s.prev_rule_len s.idx
  let b := copy_suffix e.rules_concat a.1 suffix_len s.rule_concat_idx a.2
  { rules_derivation := b.1
    rules_pos := rules_pos
    idx := b.2.2
    rule_concat_idx := b.2.1
    prev_lcp_pos := cur_lcp_pos
    prev_rule_pos := cur_rule_pos
    prev_rule_len := cur_rule_len }

/-- The decode loop `for (i = 1; i < total_rules; i++)` followed by
`rules_pos[total_rules] = m_grammar_size`. -/
def decode_rules (e : encoded_grammar) : decode_state :=
  let s := for_range 1 (decode_step e) (e.total_rules - 1) decode_init
  { s with rules_pos := Function.update s.rules_pos e.total_rules e.m_grammar_size }

/-- In the words of the specification: `lcp_i`, the number of symbols rule `i`
shares with rule `i - 1`. -/
def lcp_of (e : encoded_grammar) (i : Nat) : Nat :=
  e.rules_lcp_select (i + 1) - e.rules_lcp_select i - 1

/-- In the words of the specification: `suffix_i`, the number of symbols of
rule `i` taken from the concat stream. -/
def suffix_of (e : encoded_grammar) (i : Nat) : Nat :=
  e.rules_delim_select (i + 1) - e.rules_delim_select i - 1

/-- In the words of the specification: the number of symbols of rule `i`; rule
0 is the single symbol written before the loop. -/
def rule_len (e : encoded_grammar) (i : Nat) : Nat :=
  if i = 0 then 1 else lcp_of e i + suffix_of e i

/-- In the words of the specification: the start of rule `i` in the
concatenation of the rules. -/
def rule_start (e : encoded_grammar) : Nat → Nat
  | 0 => 0
  | i + 1 => rule_start e i + rule_len e i

/-- In the words of the specification: the position in the concat stream of
the symbols of rule `i`; the stream is read from position 1 on. -/
def concat_start (e : encoded_grammar) : Nat → Nat
  | 0 => 1
  | i + 1 => concat_start e i + (if i = 0 then 0 else suffix_of e i)

/-- An encoding of the rules `0 → 0`, `1 → 5 6`, `2 → 5 7`, `3 → 5 7 8`. -/
def encoded_example : encoded_grammar :=
  { total_rules := 4
    m_grammar_size := 8
    rules_lcp_select := fun i => [0, 0, 1, 3, 6].getD i 0
    rules_delim_select := fun i => [0, 1, 4, 6, 8].getD i 0
    rules_concat := fun i => [0, 5, 6, 7, 8].getD i 0 }

/-- The state of the decode loop after `k` rounds (rules `1..k` decoded): the
counters stand at the start of rule `k + 1`, the table is zero from `idx` on,
and every decoded rule starts at its start and holds its shared symbols
followed by its symbols of the concat stream. -/
def decode_inv (e : encoded_grammar) (k : Nat) (st : decode_state) : Prop :=
  st.idx = rule_start e (k + 1) ∧
  st.rule_concat_idx = concat_start e (k + 1) ∧
  st.prev_lcp_pos = e.rules_lcp_select (k + 1) ∧
  st.prev_rule_pos = e.rules_delim_select (k + 1) ∧
  st.prev_rule_len = (if k = 0 then 0 else rule_len e k) ∧
  (∀ j, st.idx ≤ j → st.rules_derivation j = 0) ∧
  st.rules_derivation 0 = 0 ∧
  ∀ i, 1 ≤ i → i ≤ k →
    st.rules_pos i = rule_start e i ∧
    (∀ j, j < lcp_of e i →
      st.rules_derivation (rule_start e i + j) = st.rules_derivation (rule_start e (i - 1) + j)) ∧
    (∀ j, j < suffix_of e i →
      st.rules_derivation (rule_start e i + lcp_of e i + j)
        = e.rules_concat (concat_start e i + j))

/-! ## Book-keeping of the calls -/

/-- The entry `c` is the record of the call `dfs(r, off)` about to be made in
state `s`: it is the last entry of the log, after the entries `old`, and holds
the counters of `s`. -/
def pending (s : dfs_state) (r off : Nat) (old : List dfs_call) (c : dfs_call) : Prop :=
  s.calls = old ++ [c] ∧ c.rule = r ∧ c.offset = off ∧ c.gidx = s.global_dfs_idx ∧
  c.focc_slot = s.focc_idx ∧ c.leaf_slot = s.leaf_idx ∧ c.l_pos = s.l_idx ∧
  c.bv_pos = s.m_bv_idx ∧
  c.fresh = (decide (256 ≤ r) && decide (s.m_inv_pi r = -1))

/-- The states `s` and `t` agree on the vectors and counters that the three
visiting branches write: everything but `rules_expansion_pos`,
`suffixes_expansion_pos`, `prev_rule`, `global_dfs_idx` and the log. -/
def same_books (s t : dfs_state) : Prop :=
  t.m_focc = s.m_focc ∧ t.m_l = s.m_l ∧ t.m_bv_dfuds = s.m_bv_dfuds ∧ t.m_t = s.m_t ∧
  t.m_pi = s.m_pi ∧ t.m_inv_pi = s.m_inv_pi ∧ t.m_wt = s.m_wt ∧ t.m_str = s.m_str ∧
  t.m_bv_idx = s.m_bv_idx ∧ t.pi_idx = s.pi_idx ∧ t.focc_idx = s.focc_idx ∧
  t.dfs_idx = s.dfs_idx ∧ t.leaf_idx = s.leaf_idx ∧ t.wt_idx = s.wt_idx ∧ t.l_idx = s.l_idx

/-- The leaves among the logged calls: the calls that took the terminal branch
or the branch of a non-terminal seen before. -/
def leaves (cs : List dfs_call) : List dfs_call :=
  cs.filter (fun c => !c.fresh)

/-- The calls that took the terminal branch. -/
def terminal_leaves (cs : List dfs_call) : List dfs_call :=
  cs.filter (fun c => !c.fresh && decide (c.rule < 256))

/-- The calls that took the branch of a non-terminal seen before. -/
def repeated_leaves (cs : List dfs_call) : List dfs_call :=
  cs.filter (fun c => !c.fresh && decide (256 ≤ c.rule))

/-- What a leaf adds to `l_idx`: 1 for a terminal, the expansion length for a
non-terminal seen before. -/
def leaf_len (rules_expansion_len : Nat → Nat) (r : Nat) : Nat :=
  if r < 256 then 1 else rules_expansion_len r

/-- Book-keeping of `focc`: the seeded slots are set; every logged call owns
the slot of `focc` with its DFS index, a slot from 257 on and below
`focc_idx`, which holds 1 exactly when the call took the first-occurrence
branch; the slots increase along the log. -/
def focc_books (cs : List dfs_call) (s : dfs_state) : Prop :=
  257 ≤ s.focc_idx ∧
  (∀ i, i ≤ 256 → s.m_focc i = true) ∧
  (∀ c, c ∈ cs → 257 ≤ c.focc_slot ∧ c.focc_slot < s.focc_idx ∧ c.gidx = c.focc_slot ∧
    s.m_focc c.focc_slot = c.fresh) ∧
  cs.Pairwise (fun a b => a.focc_slot < b.focc_slot)

/-- Book-keeping of the marks: a non-terminal has a slot in `inv_pi` exactly
when it is the top rule or a call on it is logged; and a logged call took the
first-occurrence branch exactly when it is on a non-terminal other than the
top rule with no earlier logged call. -/
def mark_books (xs : Nat) (cs : List dfs_call) (s : dfs_state) : Prop :=
  (∀ r, 256 ≤ r → (s.m_inv_pi r ≠ -1 ↔ (r = xs ∨ ∃ c, c ∈ cs ∧ c.rule = r))) ∧
  ∀ old c rest, cs = old ++ c :: rest →
    (c.fresh = true ↔ 256 ≤ c.rule ∧ c.rule ≠ xs ∧ ∀ d, d ∈ old → d.rule ≠ c.rule)

/-- Book-keeping of `bv_dfuds`: the highest position a logged call wrote (its
closing 0, after one slot per child for a first occurrence) is below
`m_bv_idx`. -/
def bv_books (rp : Nat → Nat) (cs : List dfs_call) (s : dfs_state) : Prop :=
  ∀ c, c ∈ cs → c.bv_pos + (if c.fresh = true then arity rp c.rule else 0) < s.m_bv_idx

/-- Book-keeping of the leaves: the leaves own the slots `0 .. leaf_idx - 1`
in the order of the log; `t` marks the terminal ones and is 0 from `leaf_idx`
on; `str` holds the terminal leaves and `wt` the repeated non-terminals in the
order of the log; the counters add up; and no call started with a leaf
counter above `leaf_idx`. -/
def leaf_books (cs : List dfs_call) (s : dfs_state) : Prop :=
  (leaves cs).map (fun c => c.leaf_slot) = List.range s.leaf_idx ∧
  (∀ c, c ∈ cs → c.fresh = false → s.m_t c.leaf_slot = decide (c.rule < 256)) ∧
  (∀ j, s.leaf_idx ≤ j → s.m_t j = false) ∧
  s.m_str = (terminal_leaves cs).map (fun c => c.rule) ∧
  (List.range s.wt_idx).map s.m_wt = (repeated_leaves cs).map (fun c => c.rule) ∧
  s.leaf_idx = s.m_str.length + s.wt_idx ∧
  s.leaf_idx + s.pi_idx = s.focc_idx ∧
  ∀ c, c ∈ cs → c.leaf_slot ≤ s.leaf_idx

/-- Book-keeping of `l`: a bit is set exactly at the values of `l_idx` at which
a leaf was visited; no bit is set after `l_idx`; and every leaf is followed by
cleared bits up to the value of `l_idx` it left. -/
def l_books (rel : Nat → Nat) (cs : List dfs_call) (s : dfs_state) : Prop :=
  (∀ p, s.m_l p = true ↔ ∃ c, c ∈ cs ∧ c.fresh = false ∧ c.l_pos = p) ∧
  (∀ p, s.l_idx < p → s.m_l p = false) ∧
  ∀ c, c ∈ cs → c.fresh = false →
    c.l_pos + leaf_len rel c.rule ≤ s.l_idx ∧
    ∀ p, c.l_pos < p → p < c.l_pos + leaf_len rel c.rule → s.m_l p = false

/-- The book-keeping of the calls `cs` in state `s`; `d` is 0 where a call is
about to be made (`global_dfs_idx = focc_idx`) and 1 after a visit
(`global_dfs_idx + 1 = focc_idx`). -/
def books (xs : Nat) (rp rel : Nat → Nat) (d : Nat) (cs : List dfs_call) (s : dfs_state) :
    Prop :=
  s.focc_idx = s.global_dfs_idx + d ∧
  focc_books cs s ∧ mark_books xs cs s ∧ bv_books rp cs s ∧ leaf_books cs s ∧ l_books rel cs s

/-- Length `t` is allocated with, `m_grammar_size - total_rules + 1` in
unsigned arithmetic: it is `m_grammar_size + 1 - total_rules` as long as
`total_rules` is at most `m_grammar_size + 1`. -/
def t_size (g : grammar) : Nat := g.m_grammar_size + 1 - g.total_rules

/-- The leaf counter is the number of bytes in `str` plus the number of
entries in `wt`. -/
def leaf_count_ok (s : dfs_state) : Prop :=
  s.leaf_idx = s.m_str.length + s.wt_idx

/-- Every logged call was made with `l_idx` at its offset, on a symbol that
stands at this offset in the derivation tree. -/
def offsets_tracked (g : grammar) (len : Nat → Nat) (cs : List dfs_call) : Prop :=
  ∀ c, c ∈ cs → c.l_pos = c.offset ∧ occurs_at g len c.rule c.offset

/-- A table in which a non-terminal occurs in its own right-hand side:
`256 → 256 a` and the top rule `257 → 256 b`. -/
def grammar_cyclic : grammar := tables_of [[256, 97], [256, 98]] 257 0

/-- A table with an empty rule: `256 →` (nothing) and the top rule
`257 → a 256 256`, of the text `a`. -/
def grammar_empty_rule : grammar := tables_of [[], [97, 256, 256]] 257 1

/-- A table of `w` doubling rules: `256 → a a` and `256 + k → (255 + k)
(255 + k)` for `0 < k < w`, the last rule being the top rule; the expansion of
rule `256 + k` is `a` repeated `2^(k+1)` times. -/
def grammar_doubling (w : Nat) : grammar :=
  { total_rules := 256 + w
    m_grammar_size := 256 + 2 * w
    m_xs := 255 + w
    m_text_size_1 := 2 ^ w
    m_first_level_expansion_len := 0
    rules_derivation := fun i =>
      if i < 256 then i else if i < 258 then 97 else 255 + (i - 256) / 2
    rules_pos := fun i => if i ≤ 256 then i else 256 + 2 * (i - 256) }

/-! # Theorems -/

/-! ## The sorter -/

/-- The comparator of `sort` and the method `compare` are the same function:
the three-case rule with the query made on the rank of `lhs` twice. -/
theorem sort_lambda_eq_compare (m_ISA : Nat → Nat) (m_rmq : Nat → Nat → Nat)
    (lhs rhs : rule_info) :
    sort_lambda m_ISA m_rmq lhs rhs = compare m_ISA m_rmq lhs rhs ∧
    compare m_ISA m_rmq lhs rhs =
      three_case_rule m_ISA (m_rmq (m_ISA lhs.pos) (m_ISA lhs.pos)) lhs rhs := by
  constructor <;> rfl

set_option maxRecDepth 100000 in
/-- C1, evaluated on the text `ababa` with the grammar `256 → a b`,
`257 → 256 256 a`: the overlay hands the records of `257` (the whole text) and
of `256` to the sorter in this order, and the sorter returns `256` before
`257` (its comparator answers `true` on `(256, 257)` and `false` on
`(257, 256)`), although the reversed expansion of `257` (`ababa`) is strictly
smaller than the reversed expansion of `256` (`ba`).  This holds whether the
range-minimum query answers with a value or with an index. -/
theorem sort_ababa_misorders :
    ∃ s, index_dfs grammar_ababa = some s ∧
      rules_array grammar_ababa s = [⟨257, 0, 5⟩, ⟨256, 0, 2⟩] ∧
      sort lib_value [⟨257, 0, 5⟩, ⟨256, 0, 2⟩] text_ababa = [⟨256, 0, 2⟩, ⟨257, 0, 5⟩] ∧
      sort lib_index [⟨257, 0, 5⟩, ⟨256, 0, 2⟩] text_ababa = [⟨256, 0, 2⟩, ⟨257, 0, 5⟩] ∧
      (let st := build_data_structures lib_value text_ababa
       sort_lambda st.m_ISA st.m_rmq ⟨256, 0, 2⟩ ⟨257, 0, 5⟩ = true ∧
       sort_lambda st.m_ISA st.m_rmq ⟨257, 0, 5⟩ ⟨256, 0, 2⟩ = false) ∧
      expansion grammar_ababa 3 257 = text_ababa ∧
      lex_lt (expansion grammar_ababa 3 257).reverse
        (expansion grammar_ababa 3 256).reverse = true := by
  have h : (index_dfs grammar_ababa).map
      (fun s => (s.m_pi 257, s.rules_expansion_pos 256)) = some (256, 0) := by decide
  have hl : seed_expansion_len grammar_ababa 256 = 2 := by decide
  cases hs : index_dfs grammar_ababa with
  | none => simp [hs] at h
  | some s =>
    simp only [hs, Option.map_some', Option.some.injEq, Prod.mk.injEq] at h
    refine ⟨s, rfl, ?_, by decide, by decide, by decide, by decide, by decide⟩
    have hsz : pi_size grammar_ababa - 257 = 1 := by decide
    have hxs : grammar_ababa.m_xs = 257 := rfl
    have hts : grammar_ababa.m_text_size_1 = 5 := rfl
    simp [rules_array, hsz, hxs, hts, h.1, h.2, hl, List.range_succ]

/-- C2, evaluated on the text `aabaa` with the records of the whole text
(`pos = 0`, `len = 5`) and of a rule `b a` (`pos = 2`, `len = 2`): the
comparator of `sort` and `compare` return `false`, the three-case rule with
the query made over the pair of ranks returns `true`; with a value-returning
and with an index-returning range-minimum query alike. -/
theorem comparator_ignores_rhs_rank :
    (let st := build_data_structures lib_value text_aabaa
     sort_lambda st.m_ISA st.m_rmq ⟨257, 0, 5⟩ ⟨256, 2, 2⟩ = false ∧
     compare st.m_ISA st.m_rmq ⟨257, 0, 5⟩ ⟨256, 2, 2⟩ = false ∧
     compare_by_pair st.m_ISA st.m_rmq ⟨257, 0, 5⟩ ⟨256, 2, 2⟩ = true) ∧
    (let st := build_data_structures lib_index text_aabaa
     sort_lambda st.m_ISA st.m_rmq ⟨257, 0, 5⟩ ⟨256, 2, 2⟩ = false ∧
     compare st.m_ISA st.m_rmq ⟨257, 0, 5⟩ ⟨256, 2, 2⟩ = false ∧
     compare_by_pair st.m_ISA st.m_rmq ⟨257, 0, 5⟩ ⟨256, 2, 2⟩ = true) := by
  decide

/-- C3, evaluated on the text `aaaa` with the records of the rules `a a`
(`pos = 0`, `len = 2`) and `a a a` (`pos = 0`, `len = 3`): the comparator
returns `true` on the pair made of the first record twice, so it is not
irreflexive, and `true` on the two records in either order, so it is not
asymmetric; with a value-returning and with an index-returning range-minimum
query alike. -/
theorem comparator_not_strict :
    (let st := build_data_structures lib_value text_aaaa
     sort_lambda st.m_ISA st.m_rmq ⟨256, 0, 2⟩ ⟨256, 0, 2⟩ = true ∧
     compare st.m_ISA st.m_rmq ⟨256, 0, 2⟩ ⟨256, 0, 2⟩ = true ∧
     sort_lambda st.m_ISA st.m_rmq ⟨256, 0, 2⟩ ⟨257, 0, 3⟩ = true ∧
     sort_lambda st.m_ISA st.m_rmq ⟨257, 0, 3⟩ ⟨256, 0, 2⟩ = true) ∧
    (let st := build_data_structures lib_index text_aaaa
     sort_lambda st.m_ISA st.m_rmq ⟨256, 0, 2⟩ ⟨256, 0, 2⟩ = true ∧
     compare st.m_ISA st.m_rmq ⟨256, 0, 2⟩ ⟨256, 0, 2⟩ = true ∧
     sort_lambda st.m_ISA st.m_rmq ⟨256, 0, 2⟩ ⟨257, 0, 3⟩ = true ∧
     sort_lambda st.m_ISA st.m_rmq ⟨257, 0, 3⟩ ⟨256, 0, 2⟩ = true) := by
  decide

/-! ## Loops -/

/-- Invariant rule for `for_range_opt`. -/
theorem for_range_opt_inv {σ : Type} (lo : Nat) (body : Nat → σ → Option σ)
    (I : Nat → σ → Prop) (n : Nat) (s s' : σ) (h0 : I 0 s)
    (hstep : ∀ k st st', k < n → I k st → body (lo + k) st = some st' → I (k + 1) st')
    (h : for_range_opt lo body n s = some s') : I n s' := by
  induction n generalizing s' with
  | zero =>
    simp only [for_range_opt, Option.some.injEq] at h
    exact h ▸ h0
  | succ m ih =>
    simp only [for_range_opt, Option.bind_eq_some] at h
    obtain ⟨st, hst, hb⟩ := h
    exact hstep m st s' (Nat.lt_succ_self m)
      (ih st (fun k a b hk => hstep k a b (Nat.lt_succ_of_lt hk)) hst) hb

/-- Total-correctness rule for `for_range_opt`: a body that returns under the
invariant makes the loop return. -/
theorem for_range_opt_total {σ : Type} (lo : Nat) (body : Nat → σ → Option σ)
    (I : Nat → σ → Prop) (n : Nat) (s : σ) (h0 : I 0 s)
    (hstep : ∀ k st, k < n → I k st → ∃ st', body (lo + k) st = some st' ∧ I (k + 1) st') :
    ∃ s', for_range_opt lo body n s = some s' ∧ I n s' := by
  induction n with
  | zero => exact ⟨s, rfl, h0⟩
  | succ m ih =>
    obtain ⟨st, hst, hI⟩ := ih (fun k a hk => hstep k a (Nat.lt_succ_of_lt hk))
    obtain ⟨st', hb, hI'⟩ := hstep m st (Nat.lt_succ_self m) hI
    exact ⟨st', by simp [for_range_opt, hst, hb], hI'⟩

/-- Invariant rule for `for_range`. -/
theorem for_range_inv {σ : Type} (lo : Nat) (body : Nat → σ → σ)
    (I : Nat → σ → Prop) (n : Nat) (s : σ) (h0 : I 0 s)
    (hstep : ∀ k st, k < n → I k st → I (k + 1) (body (lo + k) st)) :
    I n (for_range lo body n s) := by
  induction n with
  | zero => exact h0
  | succ m ih =>
    exact hstep m _ (Nat.lt_succ_self m) (ih (fun k a hk => hstep k a (Nat.lt_succ_of_lt hk)))

/-! ## Induction over the calls of the DFS -/

/-- Call induction for `dfs_node`: a relation between the arguments, the state
before and the state after a call holds for every returning call as soon as it
holds for the two leaf branches and, for a first occurrence, follows from the
relation on the calls of the loop over the right-hand side. -/
theorem dfs_node_induct (rd rp rel : Nat → Nat)
    (P : Nat → Nat → dfs_state → dfs_state → Prop)
    (hterm : ∀ r off s, r < 256 → P r off s (visit_terminal r s))
    (hrep : ∀ r off s, 256 ≤ r → s.m_inv_pi r ≠ -1 → P r off s (visit_repeated rel r s))
    (hopen : ∀ (visit : Nat → Nat → dfs_state → Option dfs_state) r off s st,
      256 ≤ r → s.m_inv_pi r = -1 →
      (∀ r' off' a b, visit r' off' a = some b → P r' off' a b) →
      for_range_opt (rp r) (child_step visit rd rel r (rp r)) (rp (r + 1) - rp r)
        (open_rule r (rp (r + 1) - rp r) s, off) = some st →
      P r off s (close_rule r off st.1)) :
    ∀ fuel r off s s', dfs_node rd rp rel fuel r off s = some s' → P r off s s' := by
  intro fuel
  induction fuel with
  | zero => intro r off s s' h; simp [dfs_node] at h
  | succ n ih =>
    intro r off s s' h
    rw [dfs_node] at h
    by_cases h1 : r < 256
    · simp only [h1, if_true, Option.some.injEq] at h
      exact h ▸ hterm r off s h1
    · by_cases h2 : s.m_inv_pi r = -1
      · simp only [h1, h2, if_true, if_false, Option.map_eq_some'] at h
        obtain ⟨st, hst, hs'⟩ := h
        exact hs' ▸ hopen _ r off s st (Nat.le_of_not_lt h1) h2 (ih) hst
      · simp only [h1, h2, if_false, Option.some.injEq] at h
        exact h ▸ hrep r off s (Nat.le_of_not_lt h1) h2

/-- State invariants of the DFS: a predicate kept by each of the five steps a
call is made of is kept by every returning call. -/
theorem dfs_node_invariant (rd rp rel : Nat → Nat) (I : dfs_state → Prop)
    (hterm : ∀ r s, r < 256 → I s → I (visit_terminal r s))
    (hrep : ∀ r s, 256 ≤ r → s.m_inv_pi r ≠ -1 → I s → I (visit_repeated rel r s))
    (hopen : ∀ r s, 256 ≤ r → s.m_inv_pi r = -1 → I s →
      I (open_rule r (rp (r + 1) - rp r) s))
    (henter : ∀ r i lo s, I s → I (child_enter rd r (rp r) i lo s))
    (hclose : ∀ r off s, I s → I (close_rule r off s)) :
    ∀ fuel r off s s', dfs_node rd rp rel fuel r off s = some s' → I s → I s' := by
  apply dfs_node_induct rd rp rel (fun _ _ s s' => I s → I s')
  · exact fun r _ s hr hI => hterm r s hr hI
  · exact fun r _ s hr hm hI => hrep r s hr hm hI
  · intro visit r off s st hr hm hv hst hI
    apply hclose
    refine for_range_opt_inv (rp r) _ (fun _ st => I st.1) _ _ st (hopen r s hr hm hI) ?_ hst
    intro k a b _ hIa hb
    simp only [child_step, Option.map_eq_some'] at hb
    obtain ⟨s2, hs2, hb⟩ := hb
    rw [← hb]
    exact hv _ _ _ _ hs2 (henter r _ _ _ hIa)

/-- State invariants of the root loop `dfs()`. -/
theorem dfs_root_invariant (rd rp rel : Nat → Nat) (m_root : Nat) (I : dfs_state → Prop)
    (hterm : ∀ r s, r < 256 → I s → I (visit_terminal r s))
    (hrep : ∀ r s, 256 ≤ r → s.m_inv_pi r ≠ -1 → I s → I (visit_repeated rel r s))
    (hopen : ∀ r s, 256 ≤ r → s.m_inv_pi r = -1 → I s →
      I (open_rule r (rp (r + 1) - rp r) s))
    (henter : ∀ r i lo s, I s → I (child_enter rd r (rp r) i lo s))
    (hclose : ∀ r off s, I s → I (close_rule r off s))
    (hrenter : ∀ i off s, I s → I (root_enter rd m_root (rp m_root) i off s))
    (hrleave : ∀ s, I s → I (root_leave s)) :
    ∀ fuel s s', dfs_root rd rp rel m_root fuel s = some s' → I s → I s' := by
  intro fuel s s' h hI
  simp only [dfs_root, Option.map_eq_some'] at h
  obtain ⟨st, hst, hs'⟩ := h
  rw [← hs']
  refine for_range_opt_inv (rp m_root) _ (fun _ st => I st.1) _ _ st hI ?_ hst
  intro k a b _ hIa hb
  simp only [root_step, Option.map_eq_some'] at hb
  obtain ⟨s2, hs2, hb⟩ := hb
  rw [← hb]
  exact hrleave _ (dfs_node_invariant rd rp rel I hterm hrep hopen henter hclose
    fuel _ _ _ _ hs2 (hrenter _ _ _ hIa))

/-! ## The seeded state -/

/-- The seeding loop in closed form. -/
theorem seed_loop_eq (k : Nat) (s0 : dfs_state) :
    for_range 0
      (fun i s => { s with
        m_inv_pi := Function.update s.m_inv_pi i ((i : Int) + 1)
        m_pi := Function.update s.m_pi (i + 1) i
        m_focc := Function.update s.m_focc (i + 1) true })
      k s0 =
    { s0 with
      m_inv_pi := fun r => if r < k then (r : Int) + 1 else s0.m_inv_pi r
      m_pi := fun j => if 0 < j ∧ j ≤ k then j - 1 else s0.m_pi j
      m_focc := fun j => if 0 < j ∧ j ≤ k then true else s0.m_focc j } := by
  induction k with
  | zero =>
    cases s0
    simp only [for_range, dfs_state.mk.injEq, true_and, and_true]
    refine ⟨?_, ?_, ?_⟩ <;> funext j
    · exact (if_neg (by omega)).symm
    · exact (if_neg (by omega)).symm
    · exact (if_neg (by omega)).symm
  | succ m ih =>
    simp only [for_range, ih, Nat.zero_add, dfs_state.mk.injEq, true_and, and_true]
    refine ⟨?_, ?_, ?_⟩
    · funext j
      by_cases h : j = m + 1
      · subst h; simp
      · simp only [Function.update_noteq h]
        by_cases h2 : 0 < j ∧ j ≤ m
        · have : 0 < j ∧ j ≤ m + 1 := ⟨h2.1, by omega⟩
          simp [h2, this]
        · have : ¬ (0 < j ∧ j ≤ m + 1) := fun h3 => h2 ⟨h3.1, by omega⟩
          simp [h2, this]
    · funext j
      by_cases h : j = m + 1
      · subst h; simp
      · simp only [Function.update_noteq h]
        by_cases h2 : 0 < j ∧ j ≤ m
        · have : 0 < j ∧ j ≤ m + 1 := ⟨h2.1, by omega⟩
          simp [h2, this]
        · have : ¬ (0 < j ∧ j ≤ m + 1) := fun h3 => h2 ⟨h3.1, by omega⟩
          simp [h2, this]
    · funext r
      by_cases h : r = m
      · subst h; simp
      · simp only [Function.update_noteq h]
        by_cases h2 : r < m
        · have : r < m + 1 := by omega
          simp [h2, this]
        · have : ¬ r < m + 1 := by omega
          simp [h2, this]

/-- A loop that clears the bits `lo, …, lo + n - 1`, in closed form. -/
theorem clear_loop_eq (lo n : Nat) (bv : Nat → Bool) :
    for_range lo (fun i bv => Function.update bv i false) n bv =
      fun p => if lo ≤ p ∧ p < lo + n then false else bv p := by
  induction n with
  | zero =>
    funext p
    have h : ¬ (lo ≤ p ∧ p < lo + 0) := by omega
    simp only [for_range]
    exact (if_neg h).symm
  | succ m ih =>
    funext p
    simp only [for_range, ih]
    by_cases h : p = lo + m
    · subst h; simp
    · simp only [Function.update_noteq h]
      by_cases h2 : lo ≤ p ∧ p < lo + m
      · have : lo ≤ p ∧ p < lo + (m + 1) := ⟨h2.1, by omega⟩
        simp [h2, this]
      · have : ¬ (lo ≤ p ∧ p < lo + (m + 1)) := fun h3 => h2 ⟨h3.1, by omega⟩
        simp [h2, this]

/-- The permutation after seeding: the top rule at slot 0, terminal `j - 1` at
slot `j` for `1 ≤ j ≤ 256`. -/
theorem seed_pi (g : grammar) (j : Nat) :
    (seed_state g).m_pi j = if 0 < j ∧ j ≤ 256 then j - 1 else if j = 0 then g.m_xs else 0 := by
  simp only [seed_state, seed_loop_eq]
  by_cases h : 0 < j ∧ j ≤ 256
  · simp [h]
  · by_cases h0 : j = 0
    · subst h0; simp
    · simp [h, h0, Function.update_noteq h0]

/-- The inverse permutation after seeding. -/
theorem seed_inv_pi (g : grammar) (r : Nat) :
    (seed_state g).m_inv_pi r =
      if r < 256 then (r : Int) + 1 else if r = g.m_xs then 0 else -1 := by
  simp only [seed_state, seed_loop_eq]
  by_cases h : r < 256
  · simp [h]
  · by_cases h0 : r = g.m_xs
    · subst h0; simp [h]
    · simp [h, h0, Function.update_noteq h0]

/-- The first-occurrence bits after seeding: slots `0..256` are set. -/
theorem seed_focc (g : grammar) (j : Nat) :
    (seed_state g).m_focc j = decide (j ≤ 256) := by
  simp only [seed_state, seed_loop_eq]
  by_cases h : 0 < j ∧ j ≤ 256
  · simp [h]
  · by_cases h0 : j = 0
    · subst h0; simp
    · have : ¬ j ≤ 256 := fun h1 => h ⟨Nat.pos_of_ne_zero h0, h1⟩
      simp [h, this, Function.update_noteq h0]

/-- The counters after seeding. -/
theorem seed_counters (g : grammar) :
    (seed_state g).pi_idx = 257 ∧ (seed_state g).dfs_idx = 257 ∧
    (seed_state g).focc_idx = 257 ∧ (seed_state g).global_dfs_idx = 257 ∧
    (seed_state g).leaf_idx = 0 ∧ (seed_state g).wt_idx = 0 ∧ (seed_state g).l_idx = 0 ∧
    (seed_state g).m_bv_idx = 512 + 3 + arity g.rules_pos g.m_xs + 1 ∧
    (seed_state g).calls = [] := by
  simp [seed_state, seed_loop_eq, arity]

/-- The DFUDS bits after seeding: all set, except bit 2 and the 257 bits that
end just before `m_bv_idx`. -/
theorem seed_bv (g : grammar) (p : Nat) :
    (seed_state g).m_bv_dfuds p =
      if p = 2 ∨ (259 + arity g.rules_pos g.m_xs ≤ p ∧ p < 516 + arity g.rules_pos g.m_xs)
      then false else true := by
  simp only [seed_state, seed_loop_eq, clear_loop_eq, arity]
  by_cases h2 : p = 2
  · subst h2
    have : ¬ (3 + (g.rules_pos (g.m_xs + 1) - g.rules_pos g.m_xs) + 256 ≤ 2) := by omega
    simp [this]
  · simp only [h2, false_or, Function.update_noteq h2]
    congr 1
    apply propext
    constructor <;> intro h <;> omega

/-! ## Slots are kept, and the DFS returns -/

/-- A call of the DFS never takes a slot away: a rule that has a slot before
the call has one after it. -/
theorem dfs_node_keeps_marks (rd rp rel : Nat → Nat) (fuel r off : Nat) (s s' : dfs_state)
    (h : dfs_node rd rp rel fuel r off s = some s') (x : Nat) (hx : marked s x) :
    marked s' x := by
  refine dfs_node_invariant rd rp rel (fun t => marked t x) ?_ ?_ ?_ ?_ ?_ fuel r off s s' h hx
  · intro r t _ ht; simpa [marked, visit_terminal] using ht
  · intro r t _ _ ht; simpa [marked, visit_repeated] using ht
  · intro r t _ _ ht
    simp only [marked, open_rule] at ht ⊢
    by_cases hxr : x = r
    · subst hxr; simp only [Function.update_same]; omega
    · simpa [Function.update_noteq hxr] using ht
  · intro r i lo t ht
    simp only [marked, child_enter, log_call] at ht ⊢
    split_ifs <;> simpa using ht
  · intro r off t ht; simpa [marked, close_rule] using ht

/-- Fewer rules are unmarked when every mark is kept. -/
theorem unmarked_count_mono (n : Nat) (a b : dfs_state)
    (h : ∀ x, marked a x → marked b x) : unmarked_count n b ≤ unmarked_count n a := by
  apply Finset.card_le_card
  intro x hx
  simp only [Finset.mem_filter, Finset.mem_range] at hx ⊢
  refine ⟨hx.1, ?_⟩
  by_contra hc
  exact h x hc hx.2

/-- Giving a slot to an unmarked rule below `n` lowers the count. -/
theorem unmarked_count_open (n r len : Nat) (s : dfs_state) (hr : r < n)
    (hm : s.m_inv_pi r = -1) :
    unmarked_count n (open_rule r len s) < unmarked_count n s := by
  apply Finset.card_lt_card
  rw [Finset.ssubset_iff_of_subset]
  · refine ⟨r, ?_, ?_⟩
    · simp [hr, hm]
    · simp only [Finset.mem_filter, Finset.mem_range, open_rule, Function.update_same,
        not_and]
      intro _; omega
  · intro x hx
    simp only [Finset.mem_filter, Finset.mem_range, open_rule] at hx ⊢
    refine ⟨hx.1, ?_⟩
    by_cases hxr : x = r
    · subst hxr; exact hm
    · simpa [Function.update_noteq hxr] using hx.2

/-- On a finite table the recursive DFS returns as soon as the fuel exceeds the
number of rules that have no slot yet. -/
theorem dfs_node_returns (rd rp rel : Nat → Nat) (n : Nat)
    (hin : ∀ r, r < n → ∀ k, k < arity rp r → rd (rp r + k) < n) :
    ∀ fuel r off s, r < n → unmarked_count n s < fuel →
      ∃ s', dfs_node rd rp rel fuel r off s = some s' := by
  intro fuel
  induction fuel with
  | zero => intro r off s _ h; omega
  | succ m ih =>
    intro r off s hr hfuel
    rw [dfs_node]
    by_cases h1 : r < 256
    · exact ⟨visit_terminal r s, by simp [h1]⟩
    · by_cases h2 : s.m_inv_pi r = -1
      · simp only [h1, h2, if_true, if_false]
        have hopen := unmarked_count_open n r (rp (r + 1) - rp r) s hr h2
        obtain ⟨st, hst, _⟩ := for_range_opt_total (rp r)
          (child_step (dfs_node rd rp rel m) rd rel r (rp r))
          (fun _ st => unmarked_count n st.1 < m) (rp (r + 1) - rp r)
          (open_rule r (rp (r + 1) - rp r) s, off) (by simp only; omega)
          (by
            intro k st hk hI
            have hsym : rd (rp r + k) < n := hin r hr k hk
            have henter : unmarked_count n (child_enter rd r (rp r) (rp r + k) st.2 st.1)
                = unmarked_count n st.1 := by
              simp only [unmarked_count, child_enter, log_call]
              split_ifs <;> rfl
            obtain ⟨s2, hs2⟩ := ih (rd (rp r + k)) st.2
              (child_enter rd r (rp r) (rp r + k) st.2 st.1) hsym (by omega)
            refine ⟨(s2, st.2 + rel (rd (rp r + k))), by simp [child_step, hs2], ?_⟩
            have := unmarked_count_mono n _ _
              (dfs_node_keeps_marks rd rp rel m _ _ _ _ hs2)
            simp only
            omega)
        exact ⟨close_rule r off st.1, by simp [hst]⟩
      · exact ⟨visit_repeated rel r s, by simp [h1, h2]⟩

/-- On a finite table the root loop `dfs()` returns when the fuel exceeds the
number of rules. -/
theorem dfs_root_returns (rd rp rel : Nat → Nat) (n m_root : Nat) (hroot : m_root < n)
    (hin : ∀ r, r < n → ∀ k, k < arity rp r → rd (rp r + k) < n)
    (fuel : Nat) (hfuel : n < fuel) (s : dfs_state) :
    ∃ s', dfs_root rd rp rel m_root fuel s = some s' := by
  obtain ⟨st, hst, _⟩ := for_range_opt_total (rp m_root)
    (root_step (dfs_node rd rp rel fuel) rd rel m_root (rp m_root))
    (fun _ _ => True) (rp (m_root + 1) - rp m_root) (s, 0) trivial
    (by
      intro k st hk _
      have hcard : unmarked_count n (root_enter rd m_root (rp m_root) (rp m_root + k) st.2 st.1)
          ≤ n := by
        refine (Finset.card_filter_le _ _).trans ?_
        simp
      obtain ⟨s2, hs2⟩ := dfs_node_returns rd rp rel n hin fuel (rd (rp m_root + k)) st.2
        (root_enter rd m_root (rp m_root) (rp m_root + k) st.2 st.1)
        (hin m_root hroot k hk) (by omega)
      exact ⟨(root_leave s2, st.2 + rel (rd (rp m_root + k))),
        by simp [root_step, hs2], trivial⟩)
  exact ⟨st.1, by simp [dfs_root, hst]⟩

/-- On a finite table `index_basics::dfs` gets a result from its helper. -/
theorem index_dfs_returns (g : grammar) (h : tables_in_range g) :
    ∃ s, index_dfs g = some s :=
  dfs_root_returns g.rules_derivation g.rules_pos (seed_expansion_len g) g.total_rules
    g.m_xs h.1 h.2 (dfs_fuel g) (Nat.lt_succ_self _) (seed_state g)

/-! ## The permutation and its inverse -/

/-- The terminal branch keeps `slots_inverse`. -/
theorem slots_inverse_terminal (r : Nat) (s : dfs_state) (h : slots_inverse s) :
    slots_inverse (visit_terminal r s) := by
  simpa [slots_inverse, visit_terminal] using h

/-- The repeated branch keeps `slots_inverse`. -/
theorem slots_inverse_repeated (rel : Nat → Nat) (r : Nat) (s : dfs_state)
    (h : slots_inverse s) : slots_inverse (visit_repeated rel r s) := by
  simpa [slots_inverse, visit_repeated] using h

/-- Giving the next slot to a rule that has none keeps `slots_inverse`. -/
theorem slots_inverse_open (r len : Nat) (s : dfs_state) (hm : s.m_inv_pi r = -1)
    (h : slots_inverse s) : slots_inverse (open_rule r len s) := by
  obtain ⟨h1, h2⟩ := h
  refine ⟨by simp [open_rule, h1], ?_⟩
  intro i hi
  simp only [open_rule] at hi ⊢
  by_cases hip : i = s.pi_idx
  · subst hip
    rw [Function.update_same, Function.update_same, h1]
  · have hlt : i < s.pi_idx := by omega
    have hne : s.m_pi i ≠ r := by
      intro hc
      have := h2 i hlt
      rw [hc, hm] at this
      omega
    rw [Function.update_noteq hip, Function.update_noteq hne]
    exact h2 i hlt

/-- The bookkeeping before a recursive call keeps `slots_inverse`. -/
theorem slots_inverse_enter (rd : Nat → Nat) (r pos i lo : Nat) (s : dfs_state)
    (h : slots_inverse s) : slots_inverse (child_enter rd r pos i lo s) := by
  simp only [slots_inverse, child_enter, log_call] at h ⊢
  split_ifs <;> exact h

/-- Storing the expansion position keeps `slots_inverse`. -/
theorem slots_inverse_close (r off : Nat) (s : dfs_state) (h : slots_inverse s) :
    slots_inverse (close_rule r off s) := by
  simpa [slots_inverse, close_rule] using h

/-- The bookkeeping of the root loop keeps `slots_inverse`. -/
theorem slots_inverse_root_enter (rd : Nat → Nat) (r pos i off : Nat) (s : dfs_state)
    (h : slots_inverse s) : slots_inverse (root_enter rd r pos i off s) := by
  simp only [slots_inverse, root_enter, log_call] at h ⊢
  split_ifs <;> exact h

/-- The seeded state satisfies `slots_inverse` when the top rule is a
non-terminal. -/
theorem slots_inverse_seed (g : grammar) (hxs : 256 ≤ g.m_xs) :
    slots_inverse (seed_state g) := by
  refine ⟨by simp [seed_counters g], ?_⟩
  intro i hi
  rw [(seed_counters g).1] at hi
  rw [seed_pi, seed_inv_pi]
  by_cases h0 : i = 0
  · subst h0
    have : ¬ g.m_xs < 256 := by omega
    simp [this]
  · have h1 : 0 < i ∧ i ≤ 256 := by omega
    have h2 : i - 1 < 256 := by omega
    simp only [h1, h2, and_self, if_true]
    omega

/-- C5.  With a non-terminal top rule on a finite table: `inv_pi[pi[i]] = i`
holds on every assigned slot `i < pi_idx` (slot 0 of the top rule, slots
1..256 of the terminals, the slots from 257 on) after seeding; each step of
the DFS keeps it (the three branches of `dfs(rule_idx, offset)`, the
bookkeeping around the recursive calls, the final store), hence every call and
the whole traversal keep it; `index_basics::dfs` returns a state where it
holds, and there no rule is stored in two slots of `pi`. -/
theorem pi_inv_pi_inverse (g : grammar) (h : tables_in_range g) (hxs : 256 ≤ g.m_xs) :
    slots_inverse (seed_state g) ∧
    (∀ r s, slots_inverse s → slots_inverse (visit_terminal r s)) ∧
    (∀ r s, slots_inverse s → slots_inverse (visit_repeated (seed_expansion_len g) r s)) ∧
    (∀ r len s, s.m_inv_pi r = -1 → slots_inverse s → slots_inverse (open_rule r len s)) ∧
    (∀ r pos i lo s, slots_inverse s →
      slots_inverse (child_enter g.rules_derivation r pos i lo s)) ∧
    (∀ r off s, slots_inverse s → slots_inverse (close_rule r off s)) ∧
    (∀ r pos i off s, slots_inverse s →
      slots_inverse (root_enter g.rules_derivation r pos i off s)) ∧
    (∀ s, slots_inverse s → slots_inverse (root_leave s)) ∧
    (∀ fuel r off s s',
      dfs_node g.rules_derivation g.rules_pos (seed_expansion_len g) fuel r off s = some s' →
      slots_inverse s → slots_inverse s') ∧
    ∃ s, index_dfs g = some s ∧
      (∀ i, i < s.pi_idx → s.m_inv_pi (s.m_pi i) = (i : Int)) ∧
      (∀ i j, i < s.pi_idx → j < s.pi_idx → s.m_pi i = s.m_pi j → i = j) := by
  have hleave : ∀ s, slots_inverse s → slots_inverse (root_leave s) := by
    intro s hs; simpa [slots_inverse, root_leave] using hs
  refine ⟨slots_inverse_seed g hxs, slots_inverse_terminal, slots_inverse_repeated _,
    slots_inverse_open, slots_inverse_enter _, slots_inverse_close,
    slots_inverse_root_enter _, hleave, ?_, ?_⟩
  · exact dfs_node_invariant _ _ _ slots_inverse
      (fun r s _ => slots_inverse_terminal r s)
      (fun r s _ _ => slots_inverse_repeated _ r s)
      (fun r s _ hm => slots_inverse_open r _ s hm)
      (fun r i lo s => slots_inverse_enter _ r _ i lo s)
      slots_inverse_close
  · obtain ⟨s, hs⟩ := index_dfs_returns g h
    have hinv : slots_inverse s :=
      dfs_root_invariant _ _ _ g.m_xs slots_inverse
        (fun r s _ => slots_inverse_terminal r s)
        (fun r s _ _ => slots_inverse_repeated _ r s)
        (fun r s _ hm => slots_inverse_open r _ s hm)
        (fun r i lo s => slots_inverse_enter _ r _ i lo s)
        slots_inverse_close
        (fun i off s => slots_inverse_root_enter _ _ _ i off s)
        hleave _ _ _ hs (slots_inverse_seed g hxs)
    refine ⟨s, hs, hinv.2, ?_⟩
    intro i j hi hj hij
    have h1 := hinv.2 i hi
    have h2 := hinv.2 j hj
    rw [hij, h2] at h1
    exact_mod_cast h1.symm

set_option maxRecDepth 100000 in
/-- Instance of `pi_inv_pi_inverse` on the grammar of `ababa`. -/
theorem pi_inv_pi_inverse_witness :
    tables_in_range grammar_ababa ∧ 256 ≤ grammar_ababa.m_xs ∧
    ∃ s, index_dfs grammar_ababa = some s ∧
      (∀ i, i < s.pi_idx → s.m_inv_pi (s.m_pi i) = (i : Int)) ∧
      (∀ i j, i < s.pi_idx → j < s.pi_idx → s.m_pi i = s.m_pi j → i = j) := by
  have h : tables_in_range grammar_ababa := by unfold tables_in_range; decide
  have hxs : 256 ≤ grammar_ababa.m_xs := by decide
  exact ⟨h, hxs, (pi_inv_pi_inverse grammar_ababa h hxs).2.2.2.2.2.2.2.2.2⟩

/-- The slots of `pi` below `pi_idx` are never written again by a call. -/
theorem dfs_node_pi_extends (rd rp rel : Nat → Nat) (fuel r off : Nat) (s s' : dfs_state)
    (h : dfs_node rd rp rel fuel r off s = some s') : pi_extends s s' := by
  refine dfs_node_invariant rd rp rel (fun t => pi_extends s t) ?_ ?_ ?_ ?_ ?_
    fuel r off s s' h ⟨le_refl _, fun _ _ => rfl⟩
  · intro r t _ ht; simpa [pi_extends, visit_terminal] using ht
  · intro r t _ _ ht; simpa [pi_extends, visit_repeated] using ht
  · intro r t _ _ ht
    refine ⟨by simp only [open_rule]; exact Nat.le_succ_of_le ht.1, ?_⟩
    intro j hj
    have : j ≠ t.pi_idx := by have := ht.1; omega
    simp only [open_rule, Function.update_noteq this]
    exact ht.2 j hj
  · intro r i lo t ht
    simp only [pi_extends, child_enter, log_call] at ht ⊢
    split_ifs <;> exact ht
  · intro r off t ht; simpa [pi_extends, close_rule] using ht

/-- The slots of `pi` below `pi_idx` are never written by the root loop. -/
theorem dfs_root_pi_extends (rd rp rel : Nat → Nat) (m_root fuel : Nat) (s s' : dfs_state)
    (h : dfs_root rd rp rel m_root fuel s = some s') : pi_extends s s' := by
  refine dfs_root_invariant rd rp rel m_root (fun t => pi_extends s t) ?_ ?_ ?_ ?_ ?_ ?_ ?_
    fuel s s' h ⟨le_refl _, fun _ _ => rfl⟩
  · intro r t _ ht; simpa [pi_extends, visit_terminal] using ht
  · intro r t _ _ ht; simpa [pi_extends, visit_repeated] using ht
  · intro r t _ _ ht
    refine ⟨by simp only [open_rule]; exact Nat.le_succ_of_le ht.1, ?_⟩
    intro j hj
    have : j ≠ t.pi_idx := by have := ht.1; omega
    simp only [open_rule, Function.update_noteq this]
    exact ht.2 j hj
  · intro r i lo t ht
    simp only [pi_extends, child_enter, log_call] at ht ⊢
    split_ifs <;> exact ht
  · intro r off t ht; simpa [pi_extends, close_rule] using ht
  · intro i off t ht
    simp only [pi_extends, root_enter, log_call] at ht ⊢
    split_ifs <;> exact ht
  · intro t ht; simpa [pi_extends, root_leave] using ht

/-- C6.  On a finite table `index_basics::dfs` returns; `pi` is resized to
`total_rules`; in the result `pi[0] = xs` and `pi[i + 1] = i` for every
`i < 256`, whatever the right-hand sides are; the slots `0..256` are as the
seeding left them, and any call of the DFS started with `pi_idx ≥ 257` leaves
every slot below 257 unchanged. -/
theorem pi_seeded_slots_kept (g : grammar) (h : tables_in_range g) :
    ∃ s, index_dfs g = some s ∧
      pi_size g = g.total_rules ∧
      s.m_pi 0 = g.m_xs ∧
      (∀ i, i < 256 → s.m_pi (i + 1) = i) ∧
      (∀ j, j < 257 → s.m_pi j = (seed_state g).m_pi j) ∧
      (∀ fuel r off a b, 257 ≤ a.pi_idx →
        dfs_node g.rules_derivation g.rules_pos (seed_expansion_len g) fuel r off a = some b →
        ∀ j, j < 257 → b.m_pi j = a.m_pi j) := by
  obtain ⟨s, hs⟩ := index_dfs_returns g h
  have hext := dfs_root_pi_extends _ _ _ _ _ _ _ hs
  have hidx : (seed_state g).pi_idx = 257 := (seed_counters g).1
  have hkeep : ∀ j, j < 257 → s.m_pi j = (seed_state g).m_pi j :=
    fun j hj => hext.2 j (by omega)
  refine ⟨s, hs, rfl, ?_, ?_, hkeep, ?_⟩
  · rw [hkeep 0 (by omega), seed_pi]; simp
  · intro i hi
    rw [hkeep (i + 1) (by omega), seed_pi]
    have : 0 < i + 1 ∧ i + 1 ≤ 256 := by omega
    simp [this]
  · intro fuel r off a b ha hab j hj
    exact (dfs_node_pi_extends _ _ _ _ _ _ _ _ hab).2 j (by omega)

set_option maxRecDepth 100000 in
/-- Instance of `pi_seeded_slots_kept` on the grammar of `ababa`. -/
theorem pi_seeded_slots_kept_witness :
    tables_in_range grammar_ababa ∧
    ∃ s, index_dfs grammar_ababa = some s ∧
      pi_size grammar_ababa = grammar_ababa.total_rules ∧
      s.m_pi 0 = grammar_ababa.m_xs ∧
      (∀ i, i < 256 → s.m_pi (i + 1) = i) := by
  have h : tables_in_range grammar_ababa := by unfold tables_in_range; decide
  obtain ⟨s, h1, h2, h3, h4, _⟩ := pi_seeded_slots_kept grammar_ababa h
  exact ⟨h, s, h1, h2, h3, h4⟩

/-! ## Expansion lengths -/

/-- The inner loop of the expansion-length loop: entry `i` grows by the
entries of the symbols read, the other entries are kept, provided that no
symbol read is `i` itself. -/
theorem expansion_len_inner (rd : Nat → Nat) (i pos : Nat) (len0 : Nat → Nat) (n : Nat)
    (hne : ∀ k, k < n → rd (pos + k) ≠ i) :
    expansion_len_rule rd i pos n len0 i =
      len0 i + ((List.range n).map (fun k => len0 (rd (pos + k)))).sum ∧
    ∀ x, x ≠ i → expansion_len_rule rd i pos n len0 x = len0 x := by
  induction n with
  | zero => simp [expansion_len_rule, for_range]
  | succ m ih =>
    obtain ⟨h1, h2⟩ := ih (fun k hk => hne k (Nat.lt_succ_of_lt hk))
    simp only [expansion_len_rule, for_range] at h1 h2 ⊢
    refine ⟨?_, ?_⟩
    · rw [Function.update_same, h1, h2 _ (hne m (Nat.lt_succ_self m)), List.range_succ,
        List.map_append, List.sum_append]
      simp [Nat.add_assoc]
    · intro x hx
      rw [Function.update_noteq hx]
      exact h2 x hx

/-- The expansion-length loop after its first `n` rules. -/
theorem expansion_len_outer (g : grammar) (hlev : level_ordered g) (n : Nat)
    (hn : 256 + n ≤ g.total_rules) :
    (∀ c, c < 256 → expansion_len_upto g n c = 1) ∧
    (∀ r, 256 ≤ r → r < 256 + n →
      expansion_len_upto g n r = ((rhs g r).map (expansion_len_upto g n)).sum) ∧
    (∀ r, 256 + n ≤ r → expansion_len_upto g n r = 0) := by
  induction n with
  | zero =>
    refine ⟨?_, ?_, ?_⟩
    · intro c hc; simp [expansion_len_upto, for_range, hc]
    · intro r h1 h2; omega
    · intro r hr
      have : ¬ r < 256 := by omega
      simp [expansion_len_upto, for_range, this]
  | succ m ih =>
    obtain ⟨h1, h2, h3⟩ := ih (by omega)
    have hstep : expansion_len_upto g (m + 1) =
        expansion_len_rule g.rules_derivation (256 + m) (g.rules_pos (256 + m))
          (g.rules_pos (256 + m + 1) - g.rules_pos (256 + m)) (expansion_len_upto g m) := rfl
    have hne : ∀ k, k < g.rules_pos (256 + m + 1) - g.rules_pos (256 + m) →
        g.rules_derivation (g.rules_pos (256 + m) + k) ≠ 256 + m := by
      intro k hk
      exact Nat.ne_of_lt (hlev (256 + m) (by omega) (by omega) k hk)
    obtain ⟨e1, e2⟩ := expansion_len_inner g.rules_derivation (256 + m) (g.rules_pos (256 + m))
      (expansion_len_upto g m) _ hne
    rw [hstep]
    refine ⟨?_, ?_, ?_⟩
    · intro c hc
      rw [e2 c (by omega)]
      exact h1 c hc
    · intro r hr1 hr2
      have hchild : ∀ k, k < arity g.rules_pos r →
          g.rules_derivation (g.rules_pos r + k) ≠ 256 + m := by
        intro k hk
        have := hlev r hr1 (by omega) k hk
        omega
      by_cases hrm : r = 256 + m
      · subst hrm
        rw [e1, h3 _ (le_refl _), Nat.zero_add, rhs, List.map_map]
        apply congrArg
        apply List.map_congr_left
        intro k hk
        simp only [Function.comp, arity, List.mem_range] at hk ⊢
        exact (e2 _ (hchild k hk)).symm
      · rw [e2 r hrm, h2 r hr1 (by omega), rhs, List.map_map, List.map_map]
        apply congrArg
        apply List.map_congr_left
        intro k hk
        simp only [Function.comp, List.mem_range] at hk ⊢
        exact (e2 _ (hchild k hk)).symm
    · intro r hr
      rw [e2 r (by omega)]
      exact h3 r (by omega)

/-- On a level-ordered grammar the expansion-length loop yields consistent
lengths. -/
theorem expansion_len_loop_consistent (g : grammar) (hlev : level_ordered g) :
    lengths_consistent g (expansion_len_loop g) := by
  by_cases hn : 256 ≤ g.total_rules
  · obtain ⟨h1, h2, _⟩ := expansion_len_outer g hlev (g.total_rules - 256) (by omega)
    exact ⟨h1, fun r hr1 hr2 => h2 r hr1 (by omega)⟩
  · refine ⟨?_, fun r hr1 hr2 => by omega⟩
    intro c hc
    have : g.total_rules - 256 = 0 := by omega
    rw [expansion_len_loop, this]
    simp only [expansion_len_upto, for_range, hc, if_true]

/-- Storing `1` for the terminals again changes nothing: the lengths handed to
the DFS are those of the expansion-length loop. -/
theorem seed_expansion_len_eq (g : grammar) (hlev : level_ordered g) :
    seed_expansion_len g = expansion_len_loop g := by
  have hloop : ∀ (n : Nat) (len : Nat → Nat),
      for_range 0 (fun i len => Function.update len i 1) n len =
        fun x => if x < n then 1 else len x := by
    intro n len
    induction n with
    | zero => funext x; simp [for_range]
    | succ m ih =>
      funext x
      simp only [for_range, ih]
      rw [Nat.zero_add]
      by_cases hx : x = m
      · subst hx; simp
      · rw [Function.update_noteq hx]
        by_cases hlt : x < m
        · have : x < m + 1 := by omega
          simp [hlt, this]
        · have : ¬ x < m + 1 := by omega
          simp [hlt, this]
  funext x
  rw [seed_expansion_len, hloop]
  by_cases hx : x < 256
  · simp [hx, (expansion_len_loop_consistent g hlev).1 x hx]
  · simp [hx]

/-- On a level-ordered grammar more fuel than the symbol itself does not change
an expansion. -/
theorem expansion_fuel (g : grammar) (hlev : level_ordered g) :
    ∀ r, r < g.total_rules → ∀ fuel, r < fuel → expansion g fuel r = full_expansion g r := by
  intro r
  induction r using Nat.strong_induction_on with
  | _ r ih =>
    intro hr fuel hfuel
    obtain ⟨f, rfl⟩ : ∃ f, fuel = f + 1 := ⟨fuel - 1, by omega⟩
    rw [full_expansion, expansion, expansion]
    by_cases h : r < 256
    · simp [h]
    · simp only [h, if_false]
      apply congrArg
      apply List.map_congr_left
      intro c hc
      simp only [rhs, List.mem_map, List.mem_range] at hc
      obtain ⟨k, hk, rfl⟩ := hc
      have hlt := hlev r (by omega) hr k hk
      rw [ih _ hlt (by omega) f (by omega), ih _ hlt (by omega) r hlt]

/-- On a level-ordered grammar consistent lengths are the lengths of the full
expansions. -/
theorem expansion_length (g : grammar) (hlev : level_ordered g) (len : Nat → Nat)
    (hlen : lengths_consistent g len) :
    ∀ r, r < g.total_rules → (full_expansion g r).length = len r := by
  intro r
  induction r using Nat.strong_induction_on with
  | _ r ih =>
    intro hr
    rw [full_expansion, expansion]
    by_cases h : r < 256
    · simp [h, hlen.1 r h]
    · simp only [h, if_false]
      rw [hlen.2 r (by omega) hr, List.length_flatten, List.map_map]
      apply congrArg
      apply List.map_congr_left
      intro c hc
      simp only [rhs, List.mem_map, List.mem_range] at hc
      obtain ⟨k, hk, rfl⟩ := hc
      have hlt := hlev r (by omega) hr k hk
      simp only [Function.comp]
      rw [expansion_fuel g hlev _ (by omega) r hlt]
      exact ih _ hlt (by omega)

/-- The expansion-length loop with the additions made in the natural numbers.
On a grammar whose rules expand only into lower symbols, it leaves `1` for
every terminal and, for every non-terminal `r` of the table, the sum of the
entries of the symbols of its right-hand side, which is the number of bytes of
the full expansion of `r`; the seeding loop that follows does not change these
lengths. -/
theorem expansion_len_loop_correct (g : grammar) (hlev : level_ordered g) :
    (∀ c, c < 256 → expansion_len_loop g c = 1) ∧
    (∀ r, 256 ≤ r → r < g.total_rules →
      expansion_len_loop g r =
        ((List.range (g.rules_pos (r + 1) - g.rules_pos r)).map
          (fun k => expansion_len_loop g (g.rules_derivation (g.rules_pos r + k)))).sum) ∧
    (∀ r, r < g.total_rules → expansion_len_loop g r = (full_expansion g r).length) ∧
    seed_expansion_len g = expansion_len_loop g := by
  have hc := expansion_len_loop_consistent g hlev
  refine ⟨hc.1, ?_, ?_, seed_expansion_len_eq g hlev⟩
  · intro r h1 h2
    rw [hc.2 r h1 h2, rhs, List.map_map]
    simp only [arity, Function.comp_def]
  · intro r hr
    exact (expansion_length g hlev _ hc r hr).symm

set_option maxRecDepth 100000 in
/-- The grammar of `ababa` is level-ordered. -/
theorem level_ordered_ababa : level_ordered grammar_ababa := by
  intro r h1 h2 k hk
  have hr : r = 256 ∨ r = 257 := by
    have : grammar_ababa.total_rules = 258 := rfl
    omega
  rcases hr with rfl | rfl
  · have ha : arity grammar_ababa.rules_pos 256 = 2 := by decide
    rw [ha] at hk
    interval_cases k <;> decide
  · have ha : arity grammar_ababa.rules_pos 257 = 3 := by decide
    rw [ha] at hk
    interval_cases k <;> decide

/-- Instance of `expansion_len_loop_correct` on the grammar of `ababa`. -/
theorem expansion_len_loop_correct_witness :
    level_ordered grammar_ababa ∧
    (∀ c, c < 256 → expansion_len_loop grammar_ababa c = 1) ∧
    (∀ r, r < grammar_ababa.total_rules →
      expansion_len_loop grammar_ababa r = (full_expansion grammar_ababa r).length) :=
  ⟨level_ordered_ababa,
   (expansion_len_loop_correct grammar_ababa level_ordered_ababa).1,
   (expansion_len_loop_correct grammar_ababa level_ordered_ababa).2.2.1⟩

/-! ## Invariants that depend on the rule visited -/

/-- State invariants of the DFS, for calls on rules of a set closed under
right-hand sides. -/
theorem dfs_node_invariant_on (rd rp rel : Nat → Nat) (R : Nat → Prop)
    (hR : ∀ r, 256 ≤ r → R r → ∀ k, k < arity rp r → R (rd (rp r + k)))
    (I : dfs_state → Prop)
    (hterm : ∀ r s, r < 256 → I s → I (visit_terminal r s))
    (hrep : ∀ r s, 256 ≤ r → s.m_inv_pi r ≠ -1 → I s → I (visit_repeated rel r s))
    (hopen : ∀ r s, 256 ≤ r → R r → s.m_inv_pi r = -1 → I s →
      I (open_rule r (rp (r + 1) - rp r) s))
    (henter : ∀ r i lo s, I s → I (child_enter rd r (rp r) i lo s))
    (hclose : ∀ r off s, I s → I (close_rule r off s)) :
    ∀ fuel r off s s', dfs_node rd rp rel fuel r off s = some s' → R r → I s → I s' := by
  apply dfs_node_induct rd rp rel (fun r _ s s' => R r → I s → I s')
  · exact fun r _ s hr _ hI => hterm r s hr hI
  · exact fun r _ s hr hm _ hI => hrep r s hr hm hI
  · intro visit r off s st hr hm hv hst hRr hI
    apply hclose
    refine for_range_opt_inv (rp r) _ (fun _ st => I st.1) _ _ st (hopen r s hr hRr hm hI) ?_ hst
    intro k a b hk hIa hb
    simp only [child_step, Option.map_eq_some'] at hb
    obtain ⟨s2, hs2, hb⟩ := hb
    rw [← hb]
    exact hv _ _ _ _ hs2 (hR r hr hRr k hk) (henter r _ _ _ hIa)

/-- State invariants of the root loop, for a root whose right-hand side lies
in a set closed under right-hand sides. -/
theorem dfs_root_invariant_on (rd rp rel : Nat → Nat) (m_root : Nat) (R : Nat → Prop)
    (hR : ∀ r, 256 ≤ r → R r → ∀ k, k < arity rp r → R (rd (rp r + k)))
    (hroot : ∀ k, k < arity rp m_root → R (rd (rp m_root + k)))
    (I : dfs_state → Prop)
    (hterm : ∀ r s, r < 256 → I s → I (visit_terminal r s))
    (hrep : ∀ r s, 256 ≤ r → s.m_inv_pi r ≠ -1 → I s → I (visit_repeated rel r s))
    (hopen : ∀ r s, 256 ≤ r → R r → s.m_inv_pi r = -1 → I s →
      I (open_rule r (rp (r + 1) - rp r) s))
    (henter : ∀ r i lo s, I s → I (child_enter rd r (rp r) i lo s))
    (hclose : ∀ r off s, I s → I (close_rule r off s))
    (hrenter : ∀ i off s, I s → I (root_enter rd m_root (rp m_root) i off s))
    (hrleave : ∀ s, I s → I (root_leave s)) :
    ∀ fuel s s', dfs_root rd rp rel m_root fuel s = some s' → I s → I s' := by
  intro fuel s s' h hI
  simp only [dfs_root, Option.map_eq_some'] at h
  obtain ⟨st, hst, hs'⟩ := h
  rw [← hs']
  refine for_range_opt_inv (rp m_root) _ (fun _ st => I st.1) _ _ st hI ?_ hst
  intro k a b hk hIa hb
  simp only [root_step, Option.map_eq_some'] at hb
  obtain ⟨s2, hs2, hb⟩ := hb
  rw [← hb]
  exact hrleave _ (dfs_node_invariant_on rd rp rel R hR I hterm hrep hopen henter hclose
    fuel _ _ _ _ hs2 (hroot k hk) (hrenter _ _ _ hIa))

/-- The invariant "`slots_inverse`, every marked rule stands in `pi`, every
slot of `pi` holds a rule below `n`". -/
theorem slots_full_invariant (g : grammar) (h : tables_in_range g) (hxs : 256 ≤ g.m_xs) :
    ∃ s, index_dfs g = some s ∧ slots_inverse s ∧ marks_in_pi s ∧
      (∀ i, i < s.pi_idx → s.m_pi i < g.total_rules) ∧
      pi_extends (seed_state g) s ∧
      (∀ x, marked (seed_state g) x → marked s x) := by
  obtain ⟨s, hs⟩ := index_dfs_returns g h
  have hseed_inv := slots_inverse_seed g hxs
  have hidx : (seed_state g).pi_idx = 257 := (seed_counters g).1
  have hI0 : slots_inverse (seed_state g) ∧ marks_in_pi (seed_state g) ∧
      (∀ i, i < (seed_state g).pi_idx → (seed_state g).m_pi i < g.total_rules) ∧
      (∀ x, marked (seed_state g) x → marked (seed_state g) x) := by
    refine ⟨hseed_inv, ?_, ?_, fun _ hx => hx⟩
    · intro r hr
      rw [marked, seed_inv_pi] at hr
      rw [hidx]
      by_cases h1 : r < 256
      · refine ⟨r + 1, by omega, ?_⟩
        rw [seed_pi]
        have : 0 < r + 1 ∧ r + 1 ≤ 256 := by omega
        simp [this]
      · by_cases h2 : r = g.m_xs
        · refine ⟨0, by omega, ?_⟩
          rw [seed_pi]; simp [h2]
        · simp [h1, h2] at hr
    · intro i hi
      rw [hidx] at hi
      rw [seed_pi]
      have hn := h.1
      by_cases h1 : 0 < i ∧ i ≤ 256
      · simp only [h1, and_self, if_true]; omega
      · have : i = 0 := by omega
        simp only [h1, this, if_false, if_true]
        exact hn
  have hfin := dfs_root_invariant_on g.rules_derivation g.rules_pos (seed_expansion_len g)
    g.m_xs (fun r => r < g.total_rules)
    (fun r _ hr k hk => h.2 r hr k hk) (fun k hk => h.2 g.m_xs h.1 k hk)
    (fun t => slots_inverse t ∧ marks_in_pi t ∧ (∀ i, i < t.pi_idx → t.m_pi i < g.total_rules) ∧
      (∀ x, marked (seed_state g) x → marked t x))
    ?_ ?_ ?_ ?_ ?_ ?_ ?_ _ _ _ hs hI0
  · exact ⟨s, hs, hfin.1, hfin.2.1, hfin.2.2.1, dfs_root_pi_extends _ _ _ _ _ _ _ hs, hfin.2.2.2⟩
  · intro r t _ ht
    exact ⟨slots_inverse_terminal r t ht.1, by simpa [marks_in_pi, marked, visit_terminal] using ht.2.1,
      by simpa [visit_terminal] using ht.2.2.1, by simpa [marked, visit_terminal] using ht.2.2.2⟩
  · intro r t _ _ ht
    exact ⟨slots_inverse_repeated _ r t ht.1,
      by simpa [marks_in_pi, marked, visit_repeated] using ht.2.1,
      by simpa [visit_repeated] using ht.2.2.1, by simpa [marked, visit_repeated] using ht.2.2.2⟩
  · intro r t hr hrn hm ht
    refine ⟨slots_inverse_open r _ t hm ht.1, ?_, ?_, ?_⟩
    · intro x hx
      simp only [marked, open_rule] at hx ⊢
      by_cases hxr : x = r
      · exact ⟨t.pi_idx, by omega, by simp [hxr]⟩
      · rw [Function.update_noteq hxr] at hx
        obtain ⟨i, hi, hpi⟩ := ht.2.1 x hx
        exact ⟨i, by omega, by rw [Function.update_noteq (by omega), hpi]⟩
    · intro i hi
      simp only [open_rule] at hi ⊢
      by_cases hip : i = t.pi_idx
      · rw [hip, Function.update_same]; exact hrn
      · rw [Function.update_noteq hip]; exact ht.2.2.1 i (by omega)
    · intro x hx
      have := ht.2.2.2 x hx
      simp only [marked, open_rule] at this ⊢
      by_cases hxr : x = r
      · rw [hxr, Function.update_same]; omega
      · rw [Function.update_noteq hxr]; exact this
  · intro r i lo t ht
    refine ⟨slots_inverse_enter _ r _ i lo t ht.1, ?_, ?_, ?_⟩
    · have := ht.2.1
      simp only [marks_in_pi, marked, child_enter, log_call] at this ⊢
      split_ifs <;> exact this
    · have := ht.2.2.1
      simp only [child_enter, log_call] at this ⊢
      split_ifs <;> exact this
    · have := ht.2.2.2
      simp only [marked, child_enter, log_call] at this ⊢
      split_ifs <;> exact this
  · intro r off t ht
    exact ⟨slots_inverse_close r off t ht.1, by simpa [marks_in_pi, marked, close_rule] using ht.2.1,
      by simpa [close_rule] using ht.2.2.1, by simpa [marked, close_rule] using ht.2.2.2⟩
  · intro i off t ht
    refine ⟨slots_inverse_root_enter _ _ _ i off t ht.1, ?_, ?_, ?_⟩
    · have := ht.2.1
      simp only [marks_in_pi, marked, root_enter, log_call] at this ⊢
      split_ifs <;> exact this
    · have := ht.2.2.1
      simp only [root_enter, log_call] at this ⊢
      split_ifs <;> exact this
    · have := ht.2.2.2
      simp only [marked, root_enter, log_call] at this ⊢
      split_ifs <;> exact this
  · intro t ht
    exact ⟨by simpa [slots_inverse, root_leave] using ht.1,
      by simpa [marks_in_pi, marked, root_leave] using ht.2.1,
      by simpa [root_leave] using ht.2.2.1, by simpa [marked, root_leave] using ht.2.2.2⟩

/-! ## What the bookkeeping around a call leaves alone -/

/-- `child_enter` changes `global_dfs_idx`, `prev_rule`,
`suffixes_expansion_pos` and the ghost log only. -/
theorem child_enter_fields (rd : Nat → Nat) (r pos i lo : Nat) (s : dfs_state) :
    (child_enter rd r pos i lo s).m_inv_pi = s.m_inv_pi ∧
    (child_enter rd r pos i lo s).m_pi = s.m_pi ∧
    (child_enter rd r pos i lo s).pi_idx = s.pi_idx ∧
    (child_enter rd r pos i lo s).dfs_idx = s.dfs_idx ∧
    (child_enter rd r pos i lo s).focc_idx = s.focc_idx ∧
    (child_enter rd r pos i lo s).m_focc = s.m_focc ∧
    (child_enter rd r pos i lo s).m_bv_idx = s.m_bv_idx ∧
    (child_enter rd r pos i lo s).m_bv_dfuds = s.m_bv_dfuds ∧
    (child_enter rd r pos i lo s).l_idx = s.l_idx ∧
    (child_enter rd r pos i lo s).m_l = s.m_l ∧
    (child_enter rd r pos i lo s).rules_expansion_pos = s.rules_expansion_pos ∧
    (child_enter rd r pos i lo s).global_dfs_idx = s.global_dfs_idx + 1 := by
  simp only [child_enter, log_call]
  split_ifs <;> simp

/-- `root_enter` changes `prev_rule`, `suffixes_expansion_pos` and the ghost
log only. -/
theorem root_enter_fields (rd : Nat → Nat) (r pos i off : Nat) (s : dfs_state) :
    (root_enter rd r pos i off s).m_inv_pi = s.m_inv_pi ∧
    (root_enter rd r pos i off s).m_pi = s.m_pi ∧
    (root_enter rd r pos i off s).pi_idx = s.pi_idx ∧
    (root_enter rd r pos i off s).dfs_idx = s.dfs_idx ∧
    (root_enter rd r pos i off s).focc_idx = s.focc_idx ∧
    (root_enter rd r pos i off s).m_focc = s.m_focc ∧
    (root_enter rd r pos i off s).m_bv_idx = s.m_bv_idx ∧
    (root_enter rd r pos i off s).m_bv_dfuds = s.m_bv_dfuds ∧
    (root_enter rd r pos i off s).l_idx = s.l_idx ∧
    (root_enter rd r pos i off s).m_l = s.m_l ∧
    (root_enter rd r pos i off s).rules_expansion_pos = s.rules_expansion_pos ∧
    (root_enter rd r pos i off s).global_dfs_idx = s.global_dfs_idx := by
  simp only [root_enter, log_call]
  split_ifs <;> simp

/-! ## Every symbol below a marked rule is marked -/

/-- After a call on `r`, started with the terminals marked: the marks are
kept, `r` is marked, and every rule marked during the call has its whole
right-hand side marked. -/
theorem dfs_node_closure (rd rp rel : Nat → Nat) :
    ∀ fuel r off s s', dfs_node rd rp rel fuel r off s = some s' →
      (∀ c, c < 256 → marked s c) →
      (∀ x, marked s x → marked s' x) ∧ marked s' r ∧ new_marks_closed rd rp s s' := by
  apply dfs_node_induct rd rp rel (fun r _ s s' => (∀ c, c < 256 → marked s c) →
      (∀ x, marked s x → marked s' x) ∧ marked s' r ∧ new_marks_closed rd rp s s')
  · intro r off s hr hterm
    refine ⟨fun x hx => hx, hterm r hr, ?_⟩
    intro x _ h1 h2
    exact absurd h2 h1
  · intro r off s hr hm _
    refine ⟨fun x hx => hx, hm, ?_⟩
    intro x _ h1 h2
    exact absurd h2 h1
  · intro visit r off s st hr hm hv hst hterm
    have hopen_inv : ∀ x, x ≠ r →
        (open_rule r (rp (r + 1) - rp r) s).m_inv_pi x = s.m_inv_pi x := by
      intro x hx; simp [open_rule, Function.update_noteq hx]
    have hopen_r : marked (open_rule r (rp (r + 1) - rp r) s) r := by
      simp only [marked, open_rule, Function.update_same]; omega
    have hmono1 : ∀ x, marked s x → marked (open_rule r (rp (r + 1) - rp r) s) x := by
      intro x hx
      by_cases hxr : x = r
      · rw [hxr]; exact hopen_r
      · simpa [marked, hopen_inv x hxr] using hx
    have hJ := for_range_opt_inv (rp r) _
      (fun k st =>
        (∀ x, marked (open_rule r (rp (r + 1) - rp r) s) x → marked st.1 x) ∧
        new_marks_closed rd rp (open_rule r (rp (r + 1) - rp r) s) st.1 ∧
        ∀ k', k' < k → marked st.1 (rd (rp r + k')))
      _ _ st ⟨fun _ hx => hx, fun x _ h1 h2 => absurd h2 h1, fun k' hk' => by omega⟩ ?_ hst
    · obtain ⟨hm1, hc1, hch⟩ := hJ
      refine ⟨fun x hx => hm1 x (hmono1 x hx), hm1 r hopen_r, ?_⟩
      intro x hx256 hnx hx k hk
      show marked st.1 _
      have hx' : marked st.1 x := hx
      by_cases hxr : x = r
      · subst hxr; exact hch k hk
      · exact hc1 x hx256 (by simpa [marked, hopen_inv x hxr] using hnx) hx' k hk
    · intro k a b hk hJa hb
      simp only [child_step, Option.map_eq_some'] at hb
      obtain ⟨s2, hs2, hb⟩ := hb
      obtain ⟨hma, hca, hcha⟩ := hJa
      have hfe := (child_enter_fields rd r (rp r) (rp r + k) a.2 a.1).1
      have hent : ∀ x, marked (child_enter rd r (rp r) (rp r + k) a.2 a.1) x ↔ marked a.1 x := by
        intro x; simp [marked, hfe]
      obtain ⟨hm2, hr2, hc2⟩ := hv _ _ _ _ hs2
        (fun c hc => (hent c).2 (hma c (hmono1 c (hterm c hc))))
      rw [← hb]
      refine ⟨fun x hx => hm2 x ((hent x).2 (hma x hx)), ?_, ?_⟩
      · intro x hx256 hnx hx j hj
        by_cases hxa : marked a.1 x
        · exact hm2 _ ((hent _).2 (hca x hx256 hnx hxa j hj))
        · exact hc2 x hx256 (fun hc => hxa ((hent x).1 hc)) hx j hj
      · intro k' hk'
        by_cases hkk : k' = k
        · rw [hkk]; exact hr2
        · exact hm2 _ ((hent _).2 (hcha k' (by omega)))

/-- After the root loop, started with the terminals marked: the marks are
kept, the right-hand side of the root is marked, and every rule marked during
the loop has its whole right-hand side marked. -/
theorem dfs_root_closure (rd rp rel : Nat → Nat) (m_root fuel : Nat) (s s' : dfs_state)
    (h : dfs_root rd rp rel m_root fuel s = some s') (hterm : ∀ c, c < 256 → marked s c) :
    (∀ x, marked s x → marked s' x) ∧
    (∀ k, k < arity rp m_root → marked s' (rd (rp m_root + k))) ∧
    new_marks_closed rd rp s s' := by
  simp only [dfs_root, Option.map_eq_some'] at h
  obtain ⟨st, hst, hs'⟩ := h
  rw [← hs']
  refine for_range_opt_inv (rp m_root) _
    (fun k st => (∀ x, marked s x → marked st.1 x) ∧
      (∀ k', k' < k → marked st.1 (rd (rp m_root + k'))) ∧ new_marks_closed rd rp s st.1)
    _ _ st ⟨fun _ hx => hx, fun k' hk' => by omega, fun x _ h1 h2 => absurd h2 h1⟩ ?_ hst
  intro k a b hk hJa hb
  simp only [root_step, Option.map_eq_some'] at hb
  obtain ⟨s2, hs2, hb⟩ := hb
  obtain ⟨hma, hcha, hca⟩ := hJa
  have hfe := (root_enter_fields rd m_root (rp m_root) (rp m_root + k) a.2 a.1).1
  have hent : ∀ x, marked (root_enter rd m_root (rp m_root) (rp m_root + k) a.2 a.1) x ↔
      marked a.1 x := by
    intro x; simp [marked, hfe]
  have hleave : ∀ x, marked (root_leave s2) x ↔ marked s2 x := by
    intro x; simp [marked, root_leave]
  obtain ⟨hm2, hr2, hc2⟩ := dfs_node_closure rd rp rel fuel _ _ _ _ hs2
    (fun c hc => (hent c).2 (hma c (hterm c hc)))
  rw [← hb]
  refine ⟨fun x hx => (hleave x).2 (hm2 x ((hent x).2 (hma x hx))), ?_, ?_⟩
  · intro k' hk'
    by_cases hkk : k' = k
    · rw [hkk]; exact (hleave _).2 hr2
    · exact (hleave _).2 (hm2 _ ((hent _).2 (hcha k' (by omega))))
  · intro x hx256 hnx hx j hj
    have hx2 : marked s2 x := (hleave x).1 hx
    refine (hleave _).2 ?_
    by_cases hxa : marked a.1 x
    · exact hm2 _ ((hent _).2 (hca x hx256 hnx hxa j hj))
    · exact hc2 x hx256 (fun hc => hxa ((hent x).1 hc)) hx2 j hj

/-- On a grammar whose top rule is a non-terminal, every reachable symbol is
marked when `index_basics::dfs` has run its helper. -/
theorem reachable_marked (g : grammar) (s : dfs_state) (hs : index_dfs g = some s) (r : Nat)
    (hr : reachable g r) : marked s r := by
  have hseedterm : ∀ c, c < 256 → marked (seed_state g) c := by
    intro c hc
    rw [marked, seed_inv_pi]
    simp only [hc, if_true]
    omega
  obtain ⟨hmono, hroot, hclosed⟩ := dfs_root_closure _ _ _ _ _ _ _ hs hseedterm
  induction hr with
  | root =>
    apply hmono
    rw [marked, seed_inv_pi]
    by_cases h : g.m_xs < 256
    · simp only [h, if_true]; omega
    · simp [h]
  | step x k _ hx hk ih =>
    by_cases hxs : x = g.m_xs
    · rw [hxs]; rw [hxs] at hk; exact hroot k hk
    · refine hclosed x hx ?_ ih k hk
      rw [marked, seed_inv_pi]
      have : ¬ x < 256 := by omega
      simp [this, hxs]

/-! ## Counting the calls -/

/-- An empty range of slots. -/
theorem slot_arity_sum_self (rp pi : Nat → Nat) (a : Nat) : slot_arity_sum rp pi a a = 0 := by
  simp [slot_arity_sum]

/-- Splitting a range of slots. -/
theorem slot_arity_sum_split (rp pi : Nat → Nat) (a b c : Nat) (hab : a ≤ b) (hbc : b ≤ c) :
    slot_arity_sum rp pi a c = slot_arity_sum rp pi a b + slot_arity_sum rp pi b c := by
  simp only [slot_arity_sum]
  exact (Finset.sum_Ico_consecutive _ hab hbc).symm

/-- The sum depends on the slots of the range only. -/
theorem slot_arity_sum_congr (rp pi pi' : Nat → Nat) (a b : Nat)
    (h : ∀ j, j < b → pi' j = pi j) :
    slot_arity_sum rp pi' a b = slot_arity_sum rp pi a b := by
  simp only [slot_arity_sum]
  apply Finset.sum_congr rfl
  intro j hj
  rw [h j (Finset.mem_Ico.1 hj).2]

/-- Taking the first slot out of a range. -/
theorem slot_arity_sum_first (rp pi : Nat → Nat) (a b : Nat) (hab : a < b) :
    slot_arity_sum rp pi a b = arity rp (pi a) + slot_arity_sum rp pi (a + 1) b := by
  simp only [slot_arity_sum]
  exact Finset.sum_eq_sum_Ico_succ_bot hab _

/-- What a call of the DFS adds to `focc_idx`, `m_bv_idx` and
`global_dfs_idx`. -/
theorem dfs_node_counts (rd rp rel : Nat → Nat) :
    ∀ fuel r off s s', dfs_node rd rp rel fuel r off s = some s' → call_counts rp s s' := by
  apply dfs_node_induct rd rp rel (fun _ _ s s' => call_counts rp s s')
  · intro r off s _
    refine ⟨⟨le_refl _, fun _ _ => rfl⟩, ?_, ?_, ?_⟩ <;>
      simp [visit_terminal, slot_arity_sum_self]
  · intro r off s _ _
    refine ⟨⟨le_refl _, fun _ _ => rfl⟩, ?_, ?_, ?_⟩ <;>
      simp [visit_repeated, slot_arity_sum_self]
  · intro visit r off s st hr hm hv hst
    have hJ := for_range_opt_inv (rp r) _
      (fun k st =>
        pi_extends (open_rule r (rp (r + 1) - rp r) s) st.1 ∧
        st.1.focc_idx = s.focc_idx + 1 + k
          + slot_arity_sum rp st.1.m_pi (s.pi_idx + 1) st.1.pi_idx ∧
        st.1.m_bv_idx = s.m_bv_idx + (rp (r + 1) - rp r) + 1 + k
          + 2 * slot_arity_sum rp st.1.m_pi (s.pi_idx + 1) st.1.pi_idx ∧
        st.1.global_dfs_idx = s.global_dfs_idx + k
          + slot_arity_sum rp st.1.m_pi (s.pi_idx + 1) st.1.pi_idx)
      _ _ st ?_ ?_ hst
    · obtain ⟨hext, hf, hb, hg⟩ := hJ
      have hlt : s.pi_idx < st.1.pi_idx := by
        have := hext.1; simp only [open_rule] at this; omega
      have hslot : st.1.m_pi s.pi_idx = r := by
        rw [hext.2 s.pi_idx (by simp [open_rule])]
        simp [open_rule]
      have hsum : slot_arity_sum rp st.1.m_pi s.pi_idx st.1.pi_idx =
          (rp (r + 1) - rp r) + slot_arity_sum rp st.1.m_pi (s.pi_idx + 1) st.1.pi_idx := by
        rw [slot_arity_sum_first rp _ _ _ hlt, hslot, arity]
      refine ⟨⟨by simp only [close_rule]; omega, ?_⟩, ?_, ?_, ?_⟩
      · intro j hj
        simp only [close_rule]
        rw [hext.2 j (by simp only [open_rule]; omega)]
        simp only [open_rule]
        rw [Function.update_noteq (by omega)]
      · simp only [close_rule]; rw [hsum, hf]; omega
      · simp only [close_rule]; rw [hsum, hb]; omega
      · simp only [close_rule]; rw [hsum, hg]; omega
    · refine ⟨⟨le_refl _, fun _ _ => rfl⟩, ?_, ?_, ?_⟩ <;>
        simp [open_rule, slot_arity_sum_self]
    · intro k a b hk hJa hb
      simp only [child_step, Option.map_eq_some'] at hb
      obtain ⟨s2, hs2, hb⟩ := hb
      obtain ⟨hext, hf, hbv, hg⟩ := hJa
      obtain ⟨f1, f2, f3, -, f5, -, f7, -, -, -, -, f12⟩ :=
        child_enter_fields rd r (rp r) (rp r + k) a.2 a.1
      obtain ⟨cext, cf, cb, cg⟩ := hv _ _ _ _ hs2
      rw [f3, f5] at cf
      rw [f3, f7] at cb
      rw [f3, f12] at cg
      have cext' : pi_extends a.1 s2 := by
        simp only [pi_extends, f2, f3] at cext ⊢
        exact cext
      have hle1 : s.pi_idx + 1 ≤ a.1.pi_idx := by
        have := hext.1; simpa [open_rule] using this
      have hsplit := slot_arity_sum_split rp s2.m_pi (s.pi_idx + 1) a.1.pi_idx s2.pi_idx
        hle1 cext'.1
      have hcongr := slot_arity_sum_congr rp a.1.m_pi s2.m_pi (s.pi_idx + 1) a.1.pi_idx
        cext'.2
      rw [← hb]
      refine ⟨⟨hext.1.trans cext'.1, fun j hj => ?_⟩, ?_, ?_, ?_⟩
      · rw [cext'.2 j (lt_of_lt_of_le hj hext.1), hext.2 j hj]
      · simp only; rw [hsplit, hcongr, cf, hf]; omega
      · simp only; rw [hsplit, hcongr, cb, hbv]; omega
      · simp only; rw [hsplit, hcongr, cg, hg]; omega

/-- What the root loop adds to `focc_idx`, `m_bv_idx` and `global_dfs_idx`. -/
theorem dfs_root_counts (rd rp rel : Nat → Nat) (m_root fuel : Nat) (s s' : dfs_state)
    (h : dfs_root rd rp rel m_root fuel s = some s') :
    pi_extends s s' ∧
    s'.focc_idx = s.focc_idx + arity rp m_root + slot_arity_sum rp s'.m_pi s.pi_idx s'.pi_idx ∧
    s'.m_bv_idx = s.m_bv_idx + arity rp m_root
      + 2 * slot_arity_sum rp s'.m_pi s.pi_idx s'.pi_idx ∧
    s'.global_dfs_idx = s.global_dfs_idx + arity rp m_root
      + slot_arity_sum rp s'.m_pi s.pi_idx s'.pi_idx := by
  simp only [dfs_root, Option.map_eq_some'] at h
  obtain ⟨st, hst, hs'⟩ := h
  rw [← hs']
  refine for_range_opt_inv (rp m_root) _
    (fun k st =>
      pi_extends s st.1 ∧
      st.1.focc_idx = s.focc_idx + k + slot_arity_sum rp st.1.m_pi s.pi_idx st.1.pi_idx ∧
      st.1.m_bv_idx = s.m_bv_idx + k + 2 * slot_arity_sum rp st.1.m_pi s.pi_idx st.1.pi_idx ∧
      st.1.global_dfs_idx = s.global_dfs_idx + k
        + slot_arity_sum rp st.1.m_pi s.pi_idx st.1.pi_idx)
    _ _ st ?_ ?_ hst
  · refine ⟨⟨le_refl _, fun _ _ => rfl⟩, ?_, ?_, ?_⟩ <;> simp [slot_arity_sum_self]
  · intro k a b hk hJa hb
    simp only [root_step, Option.map_eq_some'] at hb
    obtain ⟨s2, hs2, hb⟩ := hb
    obtain ⟨hext, hf, hbv, hg⟩ := hJa
    obtain ⟨f1, f2, f3, -, f5, -, f7, -, -, -, -, f12⟩ :=
      root_enter_fields rd m_root (rp m_root) (rp m_root + k) a.2 a.1
    obtain ⟨cext, cf, cb, cg⟩ := dfs_node_counts rd rp rel fuel _ _ _ _ hs2
    rw [f3, f5] at cf
    rw [f3, f7] at cb
    rw [f3, f12] at cg
    have cext' : pi_extends a.1 s2 := by
      simp only [pi_extends, f2, f3] at cext ⊢
      exact cext
    have hsplit := slot_arity_sum_split rp s2.m_pi s.pi_idx a.1.pi_idx s2.pi_idx
      hext.1 cext'.1
    have hcongr := slot_arity_sum_congr rp a.1.m_pi s2.m_pi s.pi_idx a.1.pi_idx cext'.2
    rw [← hb]
    refine ⟨⟨hext.1.trans cext'.1, fun j hj => ?_⟩, ?_, ?_, ?_⟩
    · show s2.m_pi j = s.m_pi j
      rw [cext'.2 j (lt_of_lt_of_le hj hext.1), hext.2 j hj]
    · simp only [root_leave]; rw [hsplit, hcongr, cf, hf]; omega
    · simp only [root_leave]; rw [hsplit, hcongr, cb, hbv]; omega
    · simp only [root_leave]; rw [hsplit, hcongr, cg, hg]; omega

/-- Rules that follow one another: the arities of the rules `256 ≤ r < 256 + m`
add up to the distance between their first and last position. -/
theorem arity_sum_telescope (rp : Nat → Nat) (n : Nat)
    (hmono : ∀ r, r < n → rp r ≤ rp (r + 1)) (m : Nat) (hm : 256 + m ≤ n) :
    rp 256 + ∑ r in Finset.Ico 256 (256 + m), arity rp r = rp (256 + m) := by
  induction m with
  | zero => simp
  | succ k ih =>
    have h1 := ih (by omega)
    have h2 := hmono (256 + k) (by omega)
    rw [show 256 + (k + 1) = 256 + k + 1 from rfl, Finset.sum_Ico_succ_top (by omega), arity]
    omega

/-- On a well-formed grammar the DFS ends with every rule in `pi` and with its
counters at the ends of the vectors they index: `pi_idx = total_rules`,
`focc_idx = G + 1`, `m_bv_idx = 2 G + 4`, `global_dfs_idx = G + 1`. -/
theorem final_counters (g : grammar) (hwf : well_formed g) :
    ∃ s, index_dfs g = some s ∧ s.pi_idx = g.total_rules ∧
      s.focc_idx = g.m_grammar_size + 1 ∧
      s.m_bv_idx = 2 * g.m_grammar_size + 4 ∧
      s.global_dfs_idx = g.m_grammar_size + 1 := by
  obtain ⟨hin, hxs, hterm, hmono, hG, hreach⟩ := hwf
  obtain ⟨s, hs, hinv, hmarks, hrange, hext, hkeep⟩ := slots_full_invariant g hin hxs
  have hidx : (seed_state g).pi_idx = 257 := (seed_counters g).1
  have hxn : g.m_xs < g.total_rules := hin.1
  have hpi0 : s.m_pi 0 = g.m_xs := by
    rw [hext.2 0 (by omega), seed_pi]; simp
  have hpit : ∀ c, c < 256 → s.m_pi (c + 1) = c := by
    intro c hc
    rw [hext.2 (c + 1) (by omega), seed_pi]
    have : 0 < c + 1 ∧ c + 1 ≤ 256 := by omega
    simp [this]
  have hle : 257 ≤ s.pi_idx := by have := hext.1; omega
  have hinj : ∀ i j, i < s.pi_idx → j < s.pi_idx → s.m_pi i = s.m_pi j → i = j := by
    intro i j hi hj hij
    have h1 := hinv.2 i hi
    have h2 := hinv.2 j hj
    rw [hij, h2] at h1
    exact_mod_cast h1.symm
  have himage : (Finset.Ico 257 s.pi_idx).image s.m_pi =
      (Finset.Ico 256 g.total_rules).erase g.m_xs := by
    ext x
    simp only [Finset.mem_image, Finset.mem_Ico, Finset.mem_erase]
    constructor
    · rintro ⟨i, ⟨hi1, hi2⟩, rfl⟩
      refine ⟨?_, ?_, hrange i hi2⟩
      · intro hc
        have := hinj i 0 hi2 (by omega) (by rw [hc, hpi0])
        omega
      · by_contra hc
        have hlt : s.m_pi i < 256 := by omega
        have := hinj i (s.m_pi i + 1) hi2 (by omega) (by rw [hpit _ hlt])
        omega
    · rintro ⟨hne, hx1, hx2⟩
      obtain ⟨i, hi, hpi⟩ := hmarks x (reachable_marked g s hs x (hreach x hx1 hx2))
      refine ⟨i, ⟨?_, hi⟩, hpi⟩
      by_contra hc
      by_cases hi0 : i = 0
      · rw [hi0, hpi0] at hpi; exact hne hpi.symm
      · have := hpit (i - 1) (by omega)
        rw [show i - 1 + 1 = i by omega, hpi] at this
        omega
  have hinjOn : Set.InjOn s.m_pi (Finset.Ico 257 s.pi_idx : Finset Nat) := by
    intro i hi j hj hij
    simp only [Finset.coe_Ico, Set.mem_Ico] at hi hj
    exact hinj i j hi.2 hj.2 hij
  have hcard : s.pi_idx = g.total_rules := by
    have h1 := Finset.card_image_of_injOn hinjOn
    rw [himage, Finset.card_erase_of_mem (by simp; omega)] at h1
    simp only [Nat.card_Ico] at h1
    omega
  have hsum : slot_arity_sum g.rules_pos s.m_pi 257 s.pi_idx + arity g.rules_pos g.m_xs
      = g.m_grammar_size - 256 := by
    have h1 : slot_arity_sum g.rules_pos s.m_pi 257 s.pi_idx =
        ∑ r in (Finset.Ico 256 g.total_rules).erase g.m_xs, arity g.rules_pos r := by
      rw [← himage, Finset.sum_image (fun i hi j hj hij => hinjOn hi hj hij)]
      rfl
    have h2 := Finset.sum_erase_add (Finset.Ico 256 g.total_rules) (arity g.rules_pos)
      (show g.m_xs ∈ Finset.Ico 256 g.total_rules by simp; omega)
    have h3 := arity_sum_telescope g.rules_pos g.total_rules hmono (g.total_rules - 256)
      (by omega)
    rw [show 256 + (g.total_rules - 256) = g.total_rules by omega, hG, hterm 256 (le_refl _)]
      at h3
    rw [h1, h2]
    omega
  have hGle : 256 ≤ g.m_grammar_size := by
    have h3 := arity_sum_telescope g.rules_pos g.total_rules hmono (g.total_rules - 256)
      (by omega)
    rw [show 256 + (g.total_rules - 256) = g.total_rules by omega, hG, hterm 256 (le_refl _)]
      at h3
    omega
  obtain ⟨-, cf, cb, cg⟩ := dfs_root_counts _ _ _ _ _ _ _ hs
  obtain ⟨-, -, c3, c4, -, -, -, c8, -⟩ := seed_counters g
  rw [hidx, c3] at cf
  rw [hidx, c8] at cb
  rw [hidx, c4] at cg
  refine ⟨s, hs, hcard, ?_, ?_, ?_⟩ <;> omega

/-! ## The first-occurrence bits -/

/-- `count_set` reads the bits below `n` only. -/
theorem count_set_congr (f f' : Nat → Bool) (n : Nat) (h : ∀ j, j < n → f' j = f j) :
    count_set f' n = count_set f n := by
  induction n with
  | zero => rfl
  | succ m ih =>
    simp only [count_set]
    rw [ih (fun j hj => h j (Nat.lt_succ_of_lt hj)), h m (Nat.lt_succ_self m)]

/-- Bits that are all set. -/
theorem count_set_all (f : Nat → Bool) (n : Nat) (h : ∀ j, j < n → f j = true) :
    count_set f n = n := by
  induction n with
  | zero => rfl
  | succ m ih =>
    simp only [count_set]
    rw [ih (fun j hj => h j (Nat.lt_succ_of_lt hj)), h m (Nat.lt_succ_self m)]
    simp

/-- Writing bit `n` and moving past it. -/
theorem count_set_push (f : Nat → Bool) (n : Nat) (b : Bool) :
    count_set (Function.update f n b) (n + 1) = count_set f n + (if b then 1 else 0) := by
  simp only [count_set, Function.update_same]
  rw [count_set_congr f (Function.update f n b) n
    (fun j hj => Function.update_noteq (Nat.ne_of_lt hj) _ _)]

/-- The DFS keeps `focc_counted`. -/
theorem dfs_root_focc_counted (rd rp rel : Nat → Nat) (m_root fuel : Nat) (s s' : dfs_state)
    (h : dfs_root rd rp rel m_root fuel s = some s') (hs : focc_counted s) :
    focc_counted s' := by
  have hupd : ∀ (f : Nat → Bool) (n : Nat) (b : Bool) (j : Nat), n + 1 ≤ j →
      (∀ i, n ≤ i → f i = false) → Function.update f n b j = false := by
    intro f n b j hj hf
    rw [Function.update_noteq (by omega)]
    exact hf j (by omega)
  refine dfs_root_invariant rd rp rel m_root focc_counted ?_ ?_ ?_ ?_ ?_ ?_ ?_ fuel s s' h hs
  · intro r t _ ht
    refine ⟨?_, fun j hj => hupd _ _ _ j hj ht.2⟩
    simp only [visit_terminal]
    rw [count_set_push, ht.1]; simp
  · intro r t _ _ ht
    refine ⟨?_, fun j hj => hupd _ _ _ j hj ht.2⟩
    simp only [visit_repeated]
    rw [count_set_push, ht.1]; simp
  · intro r t _ _ ht
    refine ⟨?_, fun j hj => hupd _ _ _ j hj ht.2⟩
    simp only [open_rule]
    rw [count_set_push, ht.1]; simp
  · intro r i lo t ht
    obtain ⟨-, -, f3, -, f5, f6, -⟩ := child_enter_fields rd r (rp r) i lo t
    simp only [focc_counted, f3, f5, f6]
    exact ht
  · intro r off t ht
    simpa [focc_counted, close_rule] using ht
  · intro i off t ht
    obtain ⟨-, -, f3, -, f5, f6, -⟩ := root_enter_fields rd m_root (rp m_root) i off t
    simp only [focc_counted, f3, f5, f6]
    exact ht
  · intro t ht
    simpa [focc_counted, root_leave] using ht

/-- C7.  On a well-formed grammar (a finite table with the 256 terminals, a
non-terminal top rule and non-terminals that are all reachable from it), after
the overlay DFS the bit vector `focc`, of length `G + 1`, holds exactly
`total_rules` set bits. -/
theorem focc_set_bits (g : grammar) (hwf : well_formed g) :
    ∃ s, index_dfs g = some s ∧ count_set s.m_focc (focc_size g) = g.total_rules := by
  obtain ⟨s, hs, hpi, hfocc, -, -⟩ := final_counters g hwf
  have hseed : focc_counted (seed_state g) := by
    obtain ⟨c1, -, c3, -⟩ := seed_counters g
    refine ⟨?_, ?_⟩
    · rw [c3, c1]
      exact count_set_all _ _ (fun j hj => by rw [seed_focc]; simp; omega)
    · intro j hj
      rw [c3] at hj
      rw [seed_focc]
      simp; omega
  have hfin := dfs_root_focc_counted _ _ _ _ _ _ _ hs hseed
  refine ⟨s, hs, ?_⟩
  rw [focc_size, ← hfocc, hfin.1, hpi]

set_option maxRecDepth 100000 in
/-- The grammar of `ababa` is well-formed. -/
theorem well_formed_ababa : well_formed grammar_ababa := by
  refine ⟨by unfold tables_in_range; decide, by decide, by decide, by decide, by decide, ?_⟩
  intro r h1 h2
  have hr : r = 256 ∨ r = 257 := by
    have : grammar_ababa.total_rules = 258 := rfl
    omega
  rcases hr with rfl | rfl
  · have h := reachable.step (g := grammar_ababa) 257 0 reachable.root (by decide) (by decide)
    have e : grammar_ababa.rules_derivation (grammar_ababa.rules_pos 257 + 0) = 256 := by decide
    rw [e] at h
    exact h
  · exact reachable.root

/-- Instance of `focc_set_bits` on the grammar of `ababa`. -/
theorem focc_set_bits_witness :
    well_formed grammar_ababa ∧
    ∃ s, index_dfs grammar_ababa = some s ∧
      count_set s.m_focc (focc_size grammar_ababa) = grammar_ababa.total_rules :=
  ⟨well_formed_ababa, focc_set_bits grammar_ababa well_formed_ababa⟩

/-! ## DFUDS sequences -/

/-- The excess of a concatenation. -/
theorem excess_add (bv : Nat → Bool) (a k m : Nat) :
    excess bv a (k + m) = excess bv a k + excess bv (a + k) m := by
  induction m with
  | zero => simp [excess]
  | succ n ih =>
    rw [← Nat.add_assoc, excess, ih, excess, Nat.add_assoc a k n]
    omega

/-- The excess reads the bits of its range only. -/
theorem excess_congr (bv bv' : Nat → Bool) (a k : Nat)
    (h : ∀ p, a ≤ p → p < a + k → bv' p = bv p) : excess bv' a k = excess bv a k := by
  induction k with
  | zero => rfl
  | succ n ih =>
    rw [excess, excess, ih (fun p h1 h2 => h p h1 (by omega)), h (a + n) (by omega) (by omega)]

/-- The excess of a run of set bits. -/
theorem excess_ones (bv : Nat → Bool) (a k : Nat)
    (h : ∀ p, a ≤ p → p < a + k → bv p = true) : excess bv a k = (k : Int) := by
  induction k with
  | zero => rfl
  | succ n ih =>
    rw [excess, ih (fun p h1 h2 => h p h1 (by omega)), h (a + n) (by omega) (by omega)]
    simp

/-- The excess of a run of cleared bits. -/
theorem excess_zeros (bv : Nat → Bool) (a k : Nat)
    (h : ∀ p, a ≤ p → p < a + k → bv p = false) : excess bv a k = -(k : Int) := by
  induction k with
  | zero => rfl
  | succ n ih =>
    rw [excess, ih (fun p h1 h2 => h p h1 (by omega)), h (a + n) (by omega) (by omega)]
    simp only [Bool.false_eq_true, if_false, Nat.cast_add, Nat.cast_one]
    omega

/-- The excess from bit 0 is the difference of the two counts. -/
theorem excess_eq_counts (bv : Nat → Bool) (n : Nat) :
    excess bv 0 n = (count_set bv n : Int) - (count_clear bv n : Int) ∧
    count_set bv n + count_clear bv n = n := by
  induction n with
  | zero => simp [excess, count_set, count_clear]
  | succ m ih =>
    simp only [excess, count_set, count_clear, Nat.zero_add]
    cases h : bv m
    · simp only [Bool.false_eq_true, if_false]
      constructor
      · rw [ih.1]; push_cast; omega
      · have := ih.2; omega
    · simp only [if_true]
      constructor
      · rw [ih.1]; push_cast; omega
      · have := ih.2; omega

/-- One more subtree after `k` subtrees. -/
theorem hanging_append (bv bv' : Nat → Bool) (a len len' k : Nat)
    (h : hanging bv a len k) (hframe : ∀ p, p < a + len → bv' p = bv p)
    (h' : hanging bv' (a + len) len' 1) : hanging bv' a (len + len') (k + 1) := by
  have hpre : ∀ j, j ≤ len → excess bv' a j = excess bv a j :=
    fun j hj => excess_congr bv bv' a j (fun p _ h2 => hframe p (by omega))
  refine ⟨?_, ?_⟩
  · rw [excess_add, hpre len (le_refl _), h.1, h'.1]
    push_cast; omega
  · intro j hj
    by_cases hjl : j < len
    · have := h.2 j hjl
      rw [hpre j (by omega)]
      push_cast; omega
    · obtain ⟨j', rfl⟩ : ∃ j', j = len + j' := ⟨j - len, by omega⟩
      have := h'.2 j' (by omega)
      rw [excess_add, hpre len (le_refl _), h.1]
      push_cast at this ⊢; omega

/-- A node of arity `n`: `n` set bits, a cleared bit, then `n` subtrees. -/
theorem hanging_node (bv : Nat → Bool) (b n len : Nat)
    (hones : ∀ p, b ≤ p → p < b + n → bv p = true) (hzero : bv (b + n) = false)
    (h : hanging bv (b + n + 1) len n) : hanging bv b (n + 1 + len) 1 := by
  have hrun : ∀ j, j ≤ n → excess bv b j = (j : Int) :=
    fun j hj => excess_ones bv b j (fun p h1 h2 => hones p h1 (by omega))
  have hhead : excess bv b (n + 1) = (n : Int) - 1 := by
    rw [excess, hrun n (le_refl _), hzero]
    simp only [Bool.false_eq_true, if_false]
    omega
  have e : b + (n + 1) = b + n + 1 := rfl
  refine ⟨?_, ?_⟩
  · rw [excess_add, hhead, e, h.1]; push_cast; omega
  · intro j hj
    by_cases hjn : j ≤ n
    · rw [hrun j hjn]; push_cast; omega
    · obtain ⟨j', rfl⟩ : ∃ j', j = n + 1 + j' := ⟨j - (n + 1), by omega⟩
      have := h.2 j' (by omega)
      rw [excess_add, hhead, e]
      push_cast at this ⊢; omega

/-- A leaf: one cleared bit. -/
theorem hanging_leaf (bv : Nat → Bool) (b : Nat) (hzero : bv b = false) :
    hanging bv b 1 1 := by
  refine ⟨?_, ?_⟩
  · simp [excess, hzero]
  · intro j hj
    have : j = 0 := by omega
    subst this
    simp [excess]

/-- A run of `k` subtrees grows by the subtree a call writes. -/
theorem hanging_step (b0 : Nat) (a s2 : dfs_state) (k : Nat)
    (hle : b0 ≤ a.m_bv_idx)
    (hh : hanging a.m_bv_dfuds b0 (a.m_bv_idx - b0) k)
    (hw : subtree_written a s2) :
    hanging s2.m_bv_dfuds b0 (s2.m_bv_idx - b0) (k + 1) := by
  obtain ⟨w1, w2, -, w4⟩ := hw
  have e1 : b0 + (a.m_bv_idx - b0) = a.m_bv_idx := by omega
  have e2 : s2.m_bv_idx - b0 = (a.m_bv_idx - b0) + (s2.m_bv_idx - a.m_bv_idx) := by omega
  rw [e2]
  refine hanging_append a.m_bv_dfuds s2.m_bv_dfuds b0 _ _ k hh ?_ ?_
  · intro p hp; exact w2 p (by omega)
  · rw [e1]; exact w4

/-- Every call of the DFS writes the DFUDS sequence of one subtree. -/
theorem dfs_node_subtree (rd rp rel : Nat → Nat) :
    ∀ fuel r off s s', dfs_node rd rp rel fuel r off s = some s' →
      (∀ p, s.m_bv_idx ≤ p → s.m_bv_dfuds p = true) → subtree_written s s' := by
  apply dfs_node_induct rd rp rel (fun _ _ s s' =>
    (∀ p, s.m_bv_idx ≤ p → s.m_bv_dfuds p = true) → subtree_written s s')
  · intro r off s _ hs
    refine ⟨by simp [visit_terminal], ?_, ?_, ?_⟩
    · intro p hp; simp only [visit_terminal]; rw [Function.update_noteq (by omega)]
    · intro p hp; simp only [visit_terminal] at hp ⊢
      rw [Function.update_noteq (by omega)]; exact hs p (by omega)
    · simp only [visit_terminal, Nat.add_sub_cancel_left]
      exact hanging_leaf _ _ (by simp)
  · intro r off s _ _ hs
    refine ⟨by simp [visit_repeated], ?_, ?_, ?_⟩
    · intro p hp; simp only [visit_repeated]; rw [Function.update_noteq (by omega)]
    · intro p hp; simp only [visit_repeated] at hp ⊢
      rw [Function.update_noteq (by omega)]; exact hs p (by omega)
    · simp only [visit_repeated, Nat.add_sub_cancel_left]
      exact hanging_leaf _ _ (by simp)
  · intro visit r off s st hr hm hv hst hs
    have hJ := for_range_opt_inv (rp r) _
      (fun k st =>
        s.m_bv_idx + (rp (r + 1) - rp r) + 1 ≤ st.1.m_bv_idx ∧
        (∀ p, p < s.m_bv_idx + (rp (r + 1) - rp r) + 1 →
          st.1.m_bv_dfuds p = (open_rule r (rp (r + 1) - rp r) s).m_bv_dfuds p) ∧
        (∀ p, st.1.m_bv_idx ≤ p → st.1.m_bv_dfuds p = true) ∧
        hanging st.1.m_bv_dfuds (s.m_bv_idx + (rp (r + 1) - rp r) + 1)
          (st.1.m_bv_idx - (s.m_bv_idx + (rp (r + 1) - rp r) + 1)) k)
      _ _ st ?_ ?_ hst
    · obtain ⟨j1, j2, j3, j4⟩ := hJ
      refine ⟨by simp only [close_rule]; omega, ?_, j3, ?_⟩
      · intro p hp
        simp only [close_rule]
        rw [j2 p (by omega)]
        simp only [open_rule]
        rw [Function.update_noteq (by omega)]
      · simp only [close_rule]
        have e : st.1.m_bv_idx - s.m_bv_idx = (rp (r + 1) - rp r) + 1
            + (st.1.m_bv_idx - (s.m_bv_idx + (rp (r + 1) - rp r) + 1)) := by omega
        rw [e]
        refine hanging_node _ _ _ _ ?_ ?_ j4
        · intro p h1 h2
          rw [j2 p (by omega)]
          simp only [open_rule]
          rw [Function.update_noteq (by omega)]
          exact hs p h1
        · rw [j2 _ (by omega)]
          simp [open_rule]
    · refine ⟨by simp [open_rule], fun _ _ => rfl, ?_, ?_⟩
      · intro p hp
        simp only [open_rule] at hp ⊢
        rw [Function.update_noteq (by omega)]
        exact hs p (by omega)
      · simp only [open_rule, Nat.sub_self]
        exact ⟨by simp [excess], fun j hj => by omega⟩
    · intro k a b hk hJa hb
      simp only [child_step, Option.map_eq_some'] at hb
      obtain ⟨s2, hs2, hb⟩ := hb
      obtain ⟨j1, j2, j3, j4⟩ := hJa
      obtain ⟨-, -, -, -, -, -, f7, f8, -⟩ := child_enter_fields rd r (rp r) (rp r + k) a.2 a.1
      have hw := hv _ _ _ _ hs2 (by rw [f7, f8]; exact j3)
      have hw' : subtree_written a.1 s2 := by
        simp only [subtree_written, f7, f8] at hw ⊢
        exact hw
      rw [← hb]
      refine ⟨j1.trans hw'.1, ?_, hw'.2.2.1, hanging_step _ a.1 s2 k j1 j4 hw'⟩
      intro p hp
      show s2.m_bv_dfuds p = _
      rw [hw'.2.1 p (by omega)]
      exact j2 p hp

/-- The root loop writes the DFUDS sequences of the subtrees of the children
of the root, one after the other. -/
theorem dfs_root_subtrees (rd rp rel : Nat → Nat) (m_root fuel : Nat) (s s' : dfs_state)
    (h : dfs_root rd rp rel m_root fuel s = some s')
    (hs : ∀ p, s.m_bv_idx ≤ p → s.m_bv_dfuds p = true) :
    s.m_bv_idx ≤ s'.m_bv_idx ∧
    (∀ p, p < s.m_bv_idx → s'.m_bv_dfuds p = s.m_bv_dfuds p) ∧
    (∀ p, s'.m_bv_idx ≤ p → s'.m_bv_dfuds p = true) ∧
    hanging s'.m_bv_dfuds s.m_bv_idx (s'.m_bv_idx - s.m_bv_idx) (arity rp m_root) := by
  simp only [dfs_root, Option.map_eq_some'] at h
  obtain ⟨st, hst, hs'⟩ := h
  rw [← hs']
  refine for_range_opt_inv (rp m_root) _
    (fun k st =>
      s.m_bv_idx ≤ st.1.m_bv_idx ∧
      (∀ p, p < s.m_bv_idx → st.1.m_bv_dfuds p = s.m_bv_dfuds p) ∧
      (∀ p, st.1.m_bv_idx ≤ p → st.1.m_bv_dfuds p = true) ∧
      hanging st.1.m_bv_dfuds s.m_bv_idx (st.1.m_bv_idx - s.m_bv_idx) k)
    _ _ st ?_ ?_ hst
  · refine ⟨le_refl _, fun _ _ => rfl, hs, ?_⟩
    simp only [Nat.sub_self]
    exact ⟨by simp [excess], fun j hj => by omega⟩
  · intro k a b hk hJa hb
    simp only [root_step, Option.map_eq_some'] at hb
    obtain ⟨s2, hs2, hb⟩ := hb
    obtain ⟨j1, j2, j3, j4⟩ := hJa
    obtain ⟨-, -, -, -, -, -, f7, f8, -⟩ :=
      root_enter_fields rd m_root (rp m_root) (rp m_root + k) a.2 a.1
    have hw := dfs_node_subtree rd rp rel fuel _ _ _ _ hs2 (by rw [f7, f8]; exact j3)
    have hw' : subtree_written a.1 s2 := by
      simp only [subtree_written, f7, f8] at hw ⊢
      exact hw
    rw [← hb]
    refine ⟨j1.trans hw'.1, ?_, hw'.2.2.1, hanging_step _ a.1 s2 k j1 j4 hw'⟩
    intro p hp
    show s2.m_bv_dfuds p = _
    rw [hw'.2.1 p (by omega)]
    exact j2 p hp

/-- The bits written before the DFS starts: the excess of every initial part of
the first `516 + ra` bits is non-negative, and the excess of all of them is the
arity `ra` of the root. -/
theorem seed_bv_excess (g : grammar) :
    (∀ k, k ≤ 516 + arity g.rules_pos g.m_xs → 0 ≤ excess (seed_state g).m_bv_dfuds 0 k) ∧
    excess (seed_state g).m_bv_dfuds 0 (516 + arity g.rules_pos g.m_xs)
      = (arity g.rules_pos g.m_xs : Int) := by
  have hbit : ∀ p, (seed_state g).m_bv_dfuds p =
      if p = 2 ∨ (259 + arity g.rules_pos g.m_xs ≤ p ∧ p < 516 + arity g.rules_pos g.m_xs)
      then false else true := seed_bv g
  generalize arity g.rules_pos g.m_xs = ra at hbit ⊢
  generalize (seed_state g).m_bv_dfuds = bv at hbit ⊢
  have hset : ∀ p, ¬ (p = 2 ∨ (259 + ra ≤ p ∧ p < 516 + ra)) → bv p = true := by
    intro p hp; rw [hbit]; simp only [hp, if_false]
  have b0 : bv 0 = true := hset 0 (by omega)
  have b1 : bv 1 = true := hset 1 (by omega)
  have b2 : bv 2 = false := by rw [hbit]; simp
  have e1 : excess bv 0 1 = 1 := by simp [excess, b0]
  have e2 : excess bv 0 2 = 2 := by simp [excess, b0, b1]
  have e3 : excess bv 0 3 = 1 := by simp [excess, b0, b1, b2]
  have hones : ∀ j, j ≤ 256 + ra → excess bv 3 j = (j : Int) := by
    intro j hj
    apply excess_ones
    intro p h1 h2
    rw [hbit]
    have : ¬ (p = 2 ∨ (259 + ra ≤ p ∧ p < 516 + ra)) := by omega
    simp [this]
  have hzeros : ∀ j, j ≤ 257 → excess bv (259 + ra) j = -(j : Int) := by
    intro j hj
    apply excess_zeros
    intro p h1 h2
    rw [hbit]
    have : p = 2 ∨ (259 + ra ≤ p ∧ p < 516 + ra) := by omega
    simp [this]
  have hmid : ∀ k, 3 ≤ k → k ≤ 259 + ra → excess bv 0 k = (k : Int) - 2 := by
    intro k h1 h2
    obtain ⟨j, rfl⟩ : ∃ j, k = 3 + j := ⟨k - 3, by omega⟩
    rw [excess_add, e3, Nat.zero_add, hones j (by omega)]
    push_cast; omega
  have hend : ∀ k, 259 + ra ≤ k → k ≤ 516 + ra →
      excess bv 0 k = 2 * (ra : Int) + 516 - (k : Int) := by
    intro k h1 h2
    obtain ⟨j, rfl⟩ : ∃ j, k = (259 + ra) + j := ⟨k - (259 + ra), by omega⟩
    rw [excess_add, hmid (259 + ra) (by omega) (le_refl _), Nat.zero_add, hzeros j (by omega)]
    push_cast; omega
  refine ⟨?_, ?_⟩
  · intro k hk
    by_cases h3 : k < 3
    · interval_cases k
      · simp [excess]
      · rw [e1]; omega
      · rw [e2]; omega
    · by_cases h4 : k ≤ 259 + ra
      · rw [hmid k (by omega) h4]; omega
      · rw [hend k (by omega) hk]; omega
  · rw [hend _ (by omega) (le_refl _)]
    push_cast; omega

/-- C4.  On a well-formed grammar, after `index_basics::dfs` the vector
`bv_dfuds` (of length `3 + 2 (G + 1) - 1`) is a valid DFUDS sequence: every
initial part of it holds at least as many set bits as cleared bits, and the
whole vector holds as many cleared bits as set bits, `G + 2` of each (one set
bit per edge of the tree and the leading one). -/
theorem bv_dfuds_valid (g : grammar) (hwf : well_formed g) :
    ∃ s, index_dfs g = some s ∧
      (∀ k, k ≤ bv_dfuds_size g → count_clear s.m_bv_dfuds k ≤ count_set s.m_bv_dfuds k) ∧
      count_clear s.m_bv_dfuds (bv_dfuds_size g) = count_set s.m_bv_dfuds (bv_dfuds_size g) ∧
      count_set s.m_bv_dfuds (bv_dfuds_size g) = g.m_grammar_size + 2 := by
  obtain ⟨s, hs, -, -, hbv, -⟩ := final_counters g hwf
  have hidx : (seed_state g).m_bv_idx = 516 + arity g.rules_pos g.m_xs := by
    rw [(seed_counters g).2.2.2.2.2.2.2.1]; omega
  have htail : ∀ p, (seed_state g).m_bv_idx ≤ p → (seed_state g).m_bv_dfuds p = true := by
    intro p hp
    rw [hidx] at hp
    rw [seed_bv]
    have : ¬ (p = 2 ∨ (259 + arity g.rules_pos g.m_xs ≤ p ∧
        p < 516 + arity g.rules_pos g.m_xs)) := by omega
    simp [this]
  obtain ⟨r1, r2, -, r4⟩ := dfs_root_subtrees _ _ _ _ _ _ _ hs htail
  rw [hidx] at r1 r2 r4
  obtain ⟨p1, p2⟩ := seed_bv_excess g
  have hsize : bv_dfuds_size g = 2 * g.m_grammar_size + 4 := by
    simp only [bv_dfuds_size]; omega
  have hpre : ∀ k, k ≤ 516 + arity g.rules_pos g.m_xs →
      excess s.m_bv_dfuds 0 k = excess (seed_state g).m_bv_dfuds 0 k :=
    fun k hk => excess_congr _ _ 0 k (fun p _ h2 => r2 p (by omega))
  have hex : (∀ k, k ≤ bv_dfuds_size g → 0 ≤ excess s.m_bv_dfuds 0 k) ∧
      excess s.m_bv_dfuds 0 (bv_dfuds_size g) = 0 := by
    rw [hsize, ← hbv]
    refine ⟨?_, ?_⟩
    · intro k hk
      by_cases hk0 : k ≤ 516 + arity g.rules_pos g.m_xs
      · rw [hpre k hk0]; exact p1 k hk0
      · obtain ⟨j, rfl⟩ : ∃ j, k = (516 + arity g.rules_pos g.m_xs) + j :=
          ⟨k - (516 + arity g.rules_pos g.m_xs), by omega⟩
        rw [excess_add, hpre _ (le_refl _), p2, Nat.zero_add]
        by_cases hj : j < s.m_bv_idx - (516 + arity g.rules_pos g.m_xs)
        · have := r4.2 j hj
          omega
        · have hje : j = s.m_bv_idx - (516 + arity g.rules_pos g.m_xs) := by omega
          rw [hje, r4.1]; omega
    · have e : s.m_bv_idx = (516 + arity g.rules_pos g.m_xs)
          + (s.m_bv_idx - (516 + arity g.rules_pos g.m_xs)) := by omega
      rw [e, excess_add, hpre _ (le_refl _), p2, Nat.zero_add, r4.1]
      omega
  refine ⟨s, hs, ?_, ?_, ?_⟩
  · intro k hk
    have h1 := hex.1 k hk
    rw [(excess_eq_counts _ k).1] at h1
    omega
  · have h1 := hex.2
    rw [(excess_eq_counts _ _).1] at h1
    omega
  · have h1 := hex.2
    rw [(excess_eq_counts _ _).1] at h1
    have h2 := (excess_eq_counts s.m_bv_dfuds (bv_dfuds_size g)).2
    rw [hsize] at h1 h2 ⊢
    omega

/-- Instance of `bv_dfuds_valid` on the grammar of `ababa`. -/
theorem bv_dfuds_valid_witness :
    well_formed grammar_ababa ∧
    ∃ s, index_dfs grammar_ababa = some s ∧
      (∀ k, k ≤ bv_dfuds_size grammar_ababa →
        count_clear s.m_bv_dfuds k ≤ count_set s.m_bv_dfuds k) ∧
      count_clear s.m_bv_dfuds (bv_dfuds_size grammar_ababa)
        = count_set s.m_bv_dfuds (bv_dfuds_size grammar_ababa) ∧
      count_set s.m_bv_dfuds (bv_dfuds_size grammar_ababa)
        = grammar_ababa.m_grammar_size + 2 :=
  ⟨well_formed_ababa, bv_dfuds_valid grammar_ababa well_formed_ababa⟩

/-! ## Invariants that look back at the state in which a rule was opened -/

/-- State invariants of the DFS, where the bookkeeping before a recursive call
may use that the rule whose right-hand side is walked had no slot in an
earlier state that satisfied the invariant. -/
theorem dfs_node_invariant_opened (rd rp rel : Nat → Nat) (I : dfs_state → Prop)
    (hterm : ∀ r s, r < 256 → I s → I (visit_terminal r s))
    (hrep : ∀ r s, 256 ≤ r → s.m_inv_pi r ≠ -1 → I s → I (visit_repeated rel r s))
    (hopen : ∀ r s, 256 ≤ r → s.m_inv_pi r = -1 → I s →
      I (open_rule r (rp (r + 1) - rp r) s))
    (henter : ∀ r k lo s0 s, 256 ≤ r → I s0 → s0.m_inv_pi r = -1 → I s →
      I (child_enter rd r (rp r) (rp r + k) lo s))
    (hclose : ∀ r off s, I s → I (close_rule r off s)) :
    ∀ fuel r off s s', dfs_node rd rp rel fuel r off s = some s' → I s → I s' := by
  apply dfs_node_induct rd rp rel (fun _ _ s s' => I s → I s')
  · exact fun r _ s hr hI => hterm r s hr hI
  · exact fun r _ s hr hm hI => hrep r s hr hm hI
  · intro visit r off s st hr hm hv hst hI
    apply hclose
    refine for_range_opt_inv (rp r) _ (fun _ st => I st.1) _ _ st (hopen r s hr hm hI) ?_ hst
    intro k a b _ hIa hb
    simp only [child_step, Option.map_eq_some'] at hb
    obtain ⟨s2, hs2, hb⟩ := hb
    rw [← hb]
    exact hv _ _ _ _ hs2 (henter r k _ s a.1 hr hI hm hIa)

/-! ## Offsets of the rule suffixes -/

/-- Logging a call at an index above every logged index, after storing its
offset when it is a child of the root or not a first child, keeps
`offsets_recorded`. -/
theorem offsets_recorded_log (xs : Nat) (s t : dfs_state) (c : dfs_call)
    (hs : offsets_recorded xs s)
    (hinv : t.m_inv_pi = s.m_inv_pi)
    (hcalls : t.calls = s.calls ++ [c])
    (hg : t.global_dfs_idx = c.gidx)
    (hnew : ∀ d, d ∈ s.calls → d.gidx < c.gidx)
    (hkeep : ∀ j, j ≠ c.gidx → t.suffixes_expansion_pos j = s.suffixes_expansion_pos j)
    (hgood : (c.parent = xs ∨ c.child ≠ 0) → t.suffixes_expansion_pos c.gidx = c.offset) :
    offsets_recorded xs t := by
  obtain ⟨h1, h2, h3, h4⟩ := hs
  refine ⟨by simpa [marked, hinv] using h1, ?_, ?_, ?_⟩
  · intro d hd
    rw [hcalls, List.mem_append, List.mem_singleton] at hd
    rcases hd with hd | rfl
    · rw [hg]; exact Nat.le_of_lt (hnew d hd)
    · rw [hg]
  · rw [hcalls, List.pairwise_append]
    refine ⟨h3, List.pairwise_singleton _ _, ?_⟩
    intro a ha b hb
    rw [List.mem_singleton] at hb
    rw [hb]; exact hnew a ha
  · intro d hd hgd
    rw [hcalls, List.mem_append, List.mem_singleton] at hd
    rcases hd with hd | rfl
    · rw [hkeep _ (Nat.ne_of_lt (hnew d hd))]
      exact h4 d hd hgd
    · exact hgood hgd

/-- Every call of the DFS keeps `offsets_recorded`. -/
theorem dfs_node_offsets_recorded (rd rp rel : Nat → Nat) (xs : Nat) :
    ∀ fuel r off s s', dfs_node rd rp rel fuel r off s = some s' →
      offsets_recorded xs s → offsets_recorded xs s' := by
  apply dfs_node_invariant_opened rd rp rel (offsets_recorded xs)
  · intro r s _ hs; simpa [offsets_recorded, marked, visit_terminal] using hs
  · intro r s _ _ hs; simpa [offsets_recorded, marked, visit_repeated] using hs
  · intro r s _ _ hs
    obtain ⟨h1, h2, h3, h4⟩ := hs
    refine ⟨?_, h2, h3, h4⟩
    simp only [marked, open_rule] at h1 ⊢
    by_cases hx : xs = r
    · rw [hx, Function.update_same]; omega
    · rw [Function.update_noteq hx]; exact h1
  · intro r k lo s0 s hr hs0 hm hs
    have hne : r ≠ xs := by
      intro hc
      have := hs0.1
      rw [marked, ← hc] at this
      exact this hm
    refine offsets_recorded_log xs s _
      { parent := r, child := rp r + k - rp r, rule := rd (rp r + k), offset := lo,
        gidx := s.global_dfs_idx + 1, focc_slot := s.focc_idx, leaf_slot := s.leaf_idx,
        l_pos := s.l_idx, bv_pos := s.m_bv_idx,
        fresh := decide (256 ≤ rd (rp r + k)) && decide (s.m_inv_pi (rd (rp r + k)) = -1) }
      hs ?_ ?_ ?_ ?_ ?_ ?_
    · exact (child_enter_fields rd r (rp r) (rp r + k) lo s).1
    · simp only [child_enter, log_call]
      split_ifs <;> rfl
    · exact (child_enter_fields rd r (rp r) (rp r + k) lo s).2.2.2.2.2.2.2.2.2.2.2
    · intro d hd
      have := hs.2.1 d hd
      show d.gidx < s.global_dfs_idx + 1
      omega
    · intro j hj
      simp only [child_enter, log_call]
      split_ifs
      · simp only
        rw [Function.update_noteq hj]
      · rfl
    · intro hgood
      have hk : 0 < k := by
        rcases hgood with h | h
        · exact absurd h hne
        · simp only [Nat.add_sub_cancel_left] at h
          omega
      have hgt : rp r + k > rp r := by omega
      simp only [child_enter, log_call, hgt, if_true, Function.update_same]
  · intro r off s hs; simpa [offsets_recorded, marked, close_rule] using hs

/-- The root loop keeps "`offsets_recorded`, with every logged index below
`global_dfs_idx`". -/
theorem dfs_root_offsets_recorded (rd rp rel : Nat → Nat) (xs fuel : Nat) (s s' : dfs_state)
    (h : dfs_root rd rp rel xs fuel s = some s')
    (hs : offsets_recorded xs s) (hlt : ∀ c, c ∈ s.calls → c.gidx < s.global_dfs_idx) :
    offsets_recorded xs s' := by
  simp only [dfs_root, Option.map_eq_some'] at h
  obtain ⟨st, hst, hs'⟩ := h
  rw [← hs']
  refine (for_range_opt_inv (rp xs) _
    (fun _ st => offsets_recorded xs st.1 ∧ ∀ c, c ∈ st.1.calls → c.gidx < st.1.global_dfs_idx)
    _ _ st ⟨hs, hlt⟩ ?_ hst).1
  intro k a b _ hJa hb
  simp only [root_step, Option.map_eq_some'] at hb
  obtain ⟨s2, hs2, hb⟩ := hb
  obtain ⟨ha, halt⟩ := hJa
  have henter : offsets_recorded xs (root_enter rd xs (rp xs) (rp xs + k) a.2 a.1) := by
    refine offsets_recorded_log xs a.1 _
      { parent := xs, child := rp xs + k - rp xs, rule := rd (rp xs + k), offset := a.2,
        gidx := a.1.global_dfs_idx, focc_slot := a.1.focc_idx, leaf_slot := a.1.leaf_idx,
        l_pos := a.1.l_idx, bv_pos := a.1.m_bv_idx,
        fresh := decide (256 ≤ rd (rp xs + k)) &&
          decide (a.1.m_inv_pi (rd (rp xs + k)) = -1) }
      ha ?_ ?_ ?_ ?_ ?_ ?_
    · exact (root_enter_fields rd xs (rp xs) (rp xs + k) a.2 a.1).1
    · simp only [root_enter, log_call]
      split_ifs <;> rfl
    · exact (root_enter_fields rd xs (rp xs) (rp xs + k) a.2 a.1).2.2.2.2.2.2.2.2.2.2.2
    · exact halt
    · intro j hj
      simp only [root_enter, log_call]
      split_ifs
      · simp only
        rw [Function.update_noteq hj]
      · simp only
        rw [Function.update_noteq hj]
    · intro _
      simp only [root_enter, log_call]
      split_ifs
      · simp only [Function.update_same]
      · simp only [Function.update_same]
  have hfin := dfs_node_offsets_recorded rd rp rel xs fuel _ _ _ _ hs2 henter
  rw [← hb]
  refine ⟨?_, ?_⟩
  · simpa [offsets_recorded, marked, root_leave] using
      (⟨hfin.1, fun c hc => Nat.le_succ_of_le (hfin.2.1 c hc), hfin.2.2.1, hfin.2.2.2⟩ :
        marked s2 xs ∧ (∀ c, c ∈ s2.calls → c.gidx ≤ s2.global_dfs_idx + 1) ∧
        s2.calls.Pairwise (fun a b => a.gidx < b.gidx) ∧
        ∀ c, c ∈ s2.calls → (c.parent = xs ∨ c.child ≠ 0) →
          s2.suffixes_expansion_pos c.gidx = c.offset)
  · intro c hc
    have := hfin.2.1 c hc
    show c.gidx < s2.global_dfs_idx + 1
    omega

/-- The ghost log grows with `global_dfs_idx`: one entry per index handed
out. -/
theorem dfs_root_calls_length (rd rp rel : Nat → Nat) (xs fuel : Nat) (s s' : dfs_state)
    (h : dfs_root rd rp rel xs fuel s = some s') :
    s'.calls.length + s.global_dfs_idx = s.calls.length + s'.global_dfs_idx := by
  simp only [dfs_root, Option.map_eq_some'] at h
  obtain ⟨st, hst, hs'⟩ := h
  rw [← hs']
  refine for_range_opt_inv (rp xs) _
    (fun _ st => st.1.calls.length + s.global_dfs_idx = s.calls.length + st.1.global_dfs_idx)
    _ _ st rfl ?_ hst
  intro k a b _ hJa hb
  simp only [root_step, Option.map_eq_some'] at hb
  obtain ⟨s2, hs2, hb⟩ := hb
  have hnode := dfs_node_invariant rd rp rel
    (fun t => t.calls.length + s.global_dfs_idx = s.calls.length + t.global_dfs_idx + 1)
    (fun r t _ ht => by simpa [visit_terminal] using ht)
    (fun r t _ _ ht => by simpa [visit_repeated] using ht)
    (fun r t _ _ ht => by simpa [open_rule] using ht)
    (fun r i lo t ht => by
      simp only [child_enter, log_call]
      split_ifs <;> simp only [List.length_append, List.length_singleton] <;> omega)
    (fun r off t ht => by simpa [close_rule] using ht)
    fuel _ _ _ _ hs2
    (by
      simp only [root_enter, log_call]
      split_ifs <;> simp only [List.length_append, List.length_singleton] <;> omega)
  rw [← hb]
  simp only [root_leave]
  omega

/-- What the DFS does record in `suffixes_expansion_pos`.  On a finite table
`index_basics::dfs` returns; the visited
nodes have increasing DFS indices; and for every visited node that is a child
of the root or is not the first child of its parent, with DFS index `j` inside
`suffixes_expansion_pos`, after the DFS `suffixes_expansion_pos[j]` is the
offset passed to the call of the node.  (The ghost log `calls` has one entry
per DFS index handed out.) -/
theorem suffixes_expansion_pos_recorded (g : grammar) (h : tables_in_range g) :
    ∃ s, index_dfs g = some s ∧
      s.calls.length + 257 = s.global_dfs_idx ∧
      s.calls.Pairwise (fun a b => a.gidx < b.gidx) ∧
      ∀ c, c ∈ s.calls → (c.parent = g.m_xs ∨ c.child ≠ 0) → c.gidx < suffixes_size g →
        s.suffixes_expansion_pos c.gidx = c.offset := by
  obtain ⟨s, hs⟩ := index_dfs_returns g h
  have hseed : offsets_recorded g.m_xs (seed_state g) := by
    have hc : (seed_state g).calls = [] := (seed_counters g).2.2.2.2.2.2.2.2
    refine ⟨?_, ?_, ?_, ?_⟩
    · rw [marked, seed_inv_pi]
      by_cases hx : g.m_xs < 256
      · simp only [hx, if_true]; omega
      · simp [hx]
    · intro c hcm; rw [hc] at hcm; simp at hcm
    · rw [hc]; exact List.Pairwise.nil
    · intro c hcm; rw [hc] at hcm; simp at hcm
  have hfin := dfs_root_offsets_recorded _ _ _ _ _ _ _ hs hseed
    (by intro c hcm; rw [(seed_counters g).2.2.2.2.2.2.2.2] at hcm; simp at hcm)
  have hlen := dfs_root_calls_length _ _ _ _ _ _ _ hs
  rw [(seed_counters g).2.2.2.1, (seed_counters g).2.2.2.2.2.2.2.2] at hlen
  exact ⟨s, hs, by simpa using hlen, hfin.2.2.1, fun c hc hg _ => hfin.2.2.2 c hc hg⟩

set_option maxRecDepth 100000 in
/-- Instance of `suffixes_expansion_pos_recorded` on the grammar of `abc`: the
node `256`, second child of the root, has DFS index 258 and offset 1, and
`suffixes_expansion_pos[258] = 1`. -/
theorem suffixes_expansion_pos_recorded_witness :
    tables_in_range grammar_abc ∧
    ∃ s, index_dfs grammar_abc = some s ∧
      ∃ c, c ∈ s.calls ∧ c.rule = 256 ∧ c.gidx = 258 ∧ c.offset = 1 ∧
        s.suffixes_expansion_pos 258 = 1 := by
  have h : tables_in_range grammar_abc := by unfold tables_in_range; decide
  obtain ⟨s, hs, -, -, hrec⟩ := suffixes_expansion_pos_recorded grammar_abc h
  have h1 : (index_dfs grammar_abc).map
      (fun s => s.calls.map (fun c => [c.parent, c.child, c.rule, c.offset, c.gidx]))
      = some [[257, 0, 97, 0, 257], [257, 1, 256, 1, 258], [256, 0, 98, 1, 259],
          [256, 1, 99, 2, 260]] := by decide
  simp only [hs, Option.map_some', Option.some.injEq] at h1
  have hmem : [257, 1, 256, 1, 258] ∈
      s.calls.map (fun c => [c.parent, c.child, c.rule, c.offset, c.gidx]) := by
    rw [h1]; simp
  obtain ⟨c, hc, hval⟩ := List.mem_map.1 hmem
  simp only [List.cons.injEq, and_true] at hval
  obtain ⟨e1, e2, e3, e4, e5⟩ := hval
  have hslot := hrec c hc (Or.inl e1) (by rw [e5]; decide)
  rw [e5, e4] at hslot
  exact ⟨h, s, hs, c, hc, e3, e5, e4, hslot⟩

/-! ## Occurrences in the derivation tree -/

/-- One more symbol in a prefix of a right-hand side. -/
theorem prefix_len_succ (g : grammar) (len : Nat → Nat) (r k : Nat) :
    prefix_len g len r (k + 1) =
      prefix_len g len r k + len (g.rules_derivation (g.rules_pos r + k)) := by
  simp [prefix_len, List.range_succ]

/-- With consistent lengths the whole right-hand side of a non-terminal of the
table produces as many bytes as the rule. -/
theorem prefix_len_full (g : grammar) (len : Nat → Nat) (hlen : lengths_consistent g len)
    (r : Nat) (h1 : 256 ≤ r) (h2 : r < g.total_rules) :
    prefix_len g len r (arity g.rules_pos r) = len r := by
  rw [hlen.2 r h1 h2, rhs, List.map_map]
  rfl

/-- The full expansion of a non-terminal of a level-ordered table is the
concatenation of the full expansions of its right-hand side. -/
theorem full_expansion_unfold (g : grammar) (hlev : level_ordered g) (r : Nat)
    (h1 : 256 ≤ r) (h2 : r < g.total_rules) :
    full_expansion g r =
      ((List.range (arity g.rules_pos r)).map
        (fun k => full_expansion g (g.rules_derivation (g.rules_pos r + k)))).flatten := by
  have hnot : ¬ r < 256 := by omega
  rw [full_expansion, expansion]
  simp only [hnot, if_false, rhs, List.map_map]
  apply congrArg
  apply List.map_congr_left
  intro k hk
  simp only [List.mem_range] at hk
  have hlt := hlev r h1 h2 k hk
  simp only [Function.comp]
  exact expansion_fuel g hlev _ (by omega) r hlt

/-- A concatenation of the lists `f 0, …, f (n - 1)` splits around `f k`. -/
theorem flatten_range_split {α : Type} (f : Nat → List α) (n : Nat) :
    ∀ k, k < n → ∃ tail, ((List.range n).map f).flatten =
      ((List.range k).map f).flatten ++ f k ++ tail := by
  induction n with
  | zero => intro k hk; omega
  | succ m ih =>
    intro k hk
    rw [List.range_succ, List.map_append, List.flatten_append]
    by_cases hkm : k < m
    · obtain ⟨tail, ht⟩ := ih k hkm
      exact ⟨tail ++ ((List.map f [m]).flatten), by rw [ht]; simp⟩
    · have : k = m := by omega
      subst this
      exact ⟨[], by simp⟩

/-- A piece of a piece of the text, read off the text. -/
theorem take_drop_piece {α : Type} (t a b tail : List α) (o n : Nat)
    (h : (t.drop o).take n = a ++ b ++ tail) :
    (t.drop (o + a.length)).take b.length = b := by
  have h1 : ((t.drop o).take n).drop a.length = b ++ tail := by
    rw [h, List.append_assoc, List.drop_left]
  have h2 : (((t.drop o).take n).drop a.length).take b.length = b := by
    rw [h1, List.take_left]
  rw [List.drop_take, List.take_take, List.drop_drop] at h2
  have hlen : a.length + b.length + tail.length ≤ n := by
    have := congrArg List.length h
    simp only [List.length_take, List.length_append] at this
    omega
  rw [Nat.min_eq_left (by omega)] at h2
  exact h2

/-- On a level-ordered finite table with consistent lengths, a node of the
derivation tree carries a rule of the table, and the bytes of the text that
start at its offset are the full expansion of its rule. -/
theorem occurs_at_expansion (g : grammar) (hin : tables_in_range g) (hlev : level_ordered g)
    (len : Nat → Nat) (hlen : lengths_consistent g len) (x o : Nat)
    (h : occurs_at g len x o) :
    x < g.total_rules ∧ x ≤ g.m_xs ∧
    ((full_expansion g g.m_xs).drop o).take (len x) = full_expansion g x := by
  induction h with
  | root =>
    refine ⟨hin.1, le_refl _, ?_⟩
    rw [List.drop_zero, ← expansion_length g hlev len hlen g.m_xs hin.1, List.take_length]
  | child r o k _ hr hk ih =>
    obtain ⟨ih1, ih2, ih3⟩ := ih
    have hlt := hlev r hr ih1 k hk
    refine ⟨hin.2 r ih1 k hk, by omega, ?_⟩
    rw [full_expansion_unfold g hlev r hr ih1] at ih3
    obtain ⟨tail, ht⟩ := flatten_range_split
      (fun k => full_expansion g (g.rules_derivation (g.rules_pos r + k)))
      (arity g.rules_pos r) k hk
    rw [ht] at ih3
    have hpre : ((List.range k).map
        (fun k => full_expansion g (g.rules_derivation (g.rules_pos r + k)))).flatten.length
        = prefix_len g len r k := by
      rw [List.length_flatten, List.map_map, prefix_len]
      apply congrArg
      apply List.map_congr_left
      intro j hj
      simp only [List.mem_range] at hj
      simp only [Function.comp]
      exact expansion_length g hlev len hlen _ (hin.2 r ih1 j (by omega))
    have hpiece := take_drop_piece _ _ _ _ _ _ ih3
    rw [hpre, expansion_length g hlev len hlen _ (hin.2 r ih1 k hk)] at hpiece
    exact hpiece

/-! ## Expansion positions -/

/-- `entry_ok` reads the marks and the expansion positions only. -/
theorem entry_ok_congr (s t : dfs_state) (c : dfs_call) (h1 : t.m_inv_pi = s.m_inv_pi)
    (h2 : t.rules_expansion_pos = s.rules_expansion_pos) (h : entry_ok s c) : entry_ok t c := by
  simpa [entry_ok, marked, h1, h2] using h

/-- `loop_inv` reads the marks, the expansion positions and the log only. -/
theorem loop_inv_congr (g : grammar) (len : Nat → Nat) (r off : Nat) (s1 : dfs_state)
    (base : List dfs_call) (k : Nat) (s t : dfs_state) (lo : Nat)
    (h1 : t.m_inv_pi = s.m_inv_pi) (h2 : t.rules_expansion_pos = s.rules_expansion_pos)
    (h3 : t.calls = s.calls) (h : loop_inv g len r off s1 base k (s, lo)) :
    loop_inv g len r off s1 base k (t, lo) := by
  simpa [loop_inv, entry_ok, rule_settled, marked, h1, h2, h3] using h

/-- The log after `child_enter`: one more entry, for the symbol about to be
visited at the local offset. -/
theorem child_enter_calls (rd : Nat → Nat) (r pos i lo : Nat) (s : dfs_state) :
    ∃ c, (child_enter rd r pos i lo s).calls = s.calls ++ [c] ∧ c.rule = rd i ∧
      c.offset = lo := by
  simp only [child_enter, log_call]
  split_ifs <;> exact ⟨_, rfl, rfl, rfl⟩

/-- The log after `root_enter`. -/
theorem root_enter_calls (rd : Nat → Nat) (r pos i off : Nat) (s : dfs_state) :
    ∃ c, (root_enter rd r pos i off s).calls = s.calls ++ [c] ∧ c.rule = rd i ∧
      c.offset = off := by
  simp only [root_enter, log_call]
  split_ifs <;> exact ⟨_, rfl, rfl, rfl⟩

/-- One iteration of a loop over a right-hand side: from the loop invariant
after `k` symbols, through the bookkeeping before the call (state `e`) and a
call that meets its contract (state `s2`), to the invariant after `k + 1`
symbols. -/
theorem loop_inv_step (g : grammar) (hin : tables_in_range g) (len : Nat → Nat)
    (r off : Nat) (s1 : dfs_state) (base : List dfs_call) (k : Nat)
    (a : dfs_state × Nat) (e s2 : dfs_state)
    (hr : 256 ≤ r) (hrn : r < g.total_rules) (hocc : occurs_at g len r off)
    (hk : k < arity g.rules_pos r)
    (hJ : loop_inv g len r off s1 base k a)
    (he1 : e.m_inv_pi = a.1.m_inv_pi)
    (he2 : e.rules_expansion_pos = a.1.rules_expansion_pos)
    (he3 : ∃ c, e.calls = a.1.calls ++ [c] ∧
      c.rule = g.rules_derivation (g.rules_pos r + k) ∧ c.offset = a.2)
    (hcall : call_pre g len (g.rules_derivation (g.rules_pos r + k)) a.2 e →
      call_post g len (g.rules_derivation (g.rules_pos r + k)) a.2 e s2) :
    loop_inv g len r off s1 base (k + 1)
      (s2, a.2 + len (g.rules_derivation (g.rules_pos r + k))) := by
  obtain ⟨j0, j1, ⟨l, jl, jloff⟩, j3, j4, j5, j6⟩ := hJ
  obtain ⟨ck, hck, hckr, hcko⟩ := he3
  have hmark : ∀ x, marked e x ↔ marked a.1 x := by intro x; simp [marked, he1]
  have hpre : call_pre g len (g.rules_derivation (g.rules_pos r + k)) a.2 e := by
    refine ⟨hin.2 r hrn k hk, ?_, ?_, a.1.calls, ck, hck, hckr, hcko, ?_⟩
    · rw [j0]; exact occurs_at.child r off k hocc hr hk
    · intro x; rw [he2]; exact j4 x
    · intro c hc; exact entry_ok_congr a.1 e c he1 he2 (j3 c hc)
  obtain ⟨q4, ⟨l2, ql, qloff⟩, q2, q3, q5⟩ := hcall hpre
  have hsub : ∀ c, c ∈ a.1.calls → c ∈ s2.calls := by
    intro c hc; rw [ql, hck]; simp [hc]
  refine ⟨?_, ?_, ?_, q2, q3, ?_, ?_⟩
  · show a.2 + _ = _
    rw [j0, prefix_len_succ]; omega
  · intro x hx
    obtain ⟨m1, r1⟩ := j1 x hx
    obtain ⟨m2, r2⟩ := q4 x ((hmark x).2 m1)
    exact ⟨m2, by rw [r2, he2, r1]⟩
  · refine ⟨l ++ [ck] ++ l2, by rw [ql, hck, jl]; simp, ?_⟩
    intro c hc
    simp only [List.mem_append, List.mem_singleton] at hc
    rcases hc with (hc | hc) | hc
    · exact jloff c hc
    · rw [hc, hcko, j0]; omega
    · have := qloff c hc; rw [j0] at this; omega
  · intro x hx1 hx2
    by_cases hxa : marked a.1 x
    · obtain ⟨o1, o2⟩ := j5 x hx1 hxa
      have hrep : s2.rules_expansion_pos x = a.1.rules_expansion_pos x := by
        rw [(q4 x ((hmark x).2 hxa)).2, he2]
      refine ⟨by rw [hrep]; exact o1, ?_⟩
      intro k' hk'
      obtain ⟨c, hc, hc1, hc2⟩ := o2 k' hk'
      exact ⟨c, hsub c hc, hc1, by rw [hrep]; exact hc2⟩
    · exact q5 x (fun hc => hxa ((hmark x).1 hc)) hx2
  · intro k' hk'
    by_cases hkk : k' = k
    · refine ⟨ck, by rw [ql, hck]; simp, ?_, ?_⟩
      · rw [hkk]; exact hckr
      · rw [hkk, hcko, j0]
    · obtain ⟨c, hc, hc1, hc2⟩ := j6 k' (by omega)
      exact ⟨c, hsub c hc, hc1, hc2⟩

/-- The contract of `dfs(r, off)` on a finite table with consistent lengths:
`call_pre` before the call gives `call_post` after it. -/
theorem dfs_node_settles (g : grammar) (hin : tables_in_range g) (len : Nat → Nat)
    (hlen : lengths_consistent g len) :
    ∀ fuel r off s s', dfs_node g.rules_derivation g.rules_pos len fuel r off s = some s' →
      call_pre g len r off s → call_post g len r off s s' := by
  apply dfs_node_induct g.rules_derivation g.rules_pos len
    (fun r off s s' => call_pre g len r off s → call_post g len r off s s')
  · intro r off s hr ⟨_, _, p2, old, c0, hcalls, hc0r, _, hold⟩
    refine ⟨fun x hx => ⟨hx, rfl⟩, ⟨[], by simp [visit_terminal], by simp⟩, ?_, ?_, ?_⟩
    · intro c hc
      have hc' : c ∈ old ++ [c0] := by rw [← hcalls]; exact hc
      rw [List.mem_append, List.mem_singleton] at hc'
      rcases hc' with hc' | hc'
      · exact entry_ok_congr s _ c rfl rfl (hold c hc')
      · intro h256; rw [hc', hc0r] at h256; omega
    · intro x
      have := p2 x
      show s.rules_expansion_pos x ≤ _
      omega
    · intro x h1 h2; exact absurd h2 h1
  · intro r off s hr hm ⟨_, _, p2, old, c0, hcalls, hc0r, hc0o, hold⟩
    refine ⟨fun x hx => ⟨hx, rfl⟩, ⟨[], by simp [visit_repeated], by simp⟩, ?_, ?_, ?_⟩
    · intro c hc
      have hc' : c ∈ old ++ [c0] := by rw [← hcalls]; exact hc
      rw [List.mem_append, List.mem_singleton] at hc'
      rcases hc' with hc' | hc'
      · exact entry_ok_congr s _ c rfl rfl (hold c hc')
      · intro _
        rw [hc', hc0r, hc0o]
        exact ⟨hm, p2 r⟩
    · intro x
      have := p2 x
      show s.rules_expansion_pos x ≤ _
      omega
    · intro x h1 h2; exact absurd h2 h1
  · intro visit r off s st hr hm hv hst ⟨hrn, hocc, p2, old, c0, hcalls, hc0r, hc0o, hold⟩
    have hopen_inv : ∀ x, x ≠ r →
        (open_rule r (g.rules_pos (r + 1) - g.rules_pos r) s).m_inv_pi x = s.m_inv_pi x := by
      intro x hx; simp [open_rule, Function.update_noteq hx]
    have hopen_r : marked (open_rule r (g.rules_pos (r + 1) - g.rules_pos r) s) r := by
      simp only [marked, open_rule, Function.update_same]; omega
    have hmono1 : ∀ x, marked s x →
        marked (open_rule r (g.rules_pos (r + 1) - g.rules_pos r) s) x := by
      intro x hx
      by_cases hxr : x = r
      · rw [hxr]; exact hopen_r
      · simpa [marked, hopen_inv x hxr] using hx
    have hJ := for_range_opt_inv (g.rules_pos r) _
      (loop_inv g len r off (open_rule r (g.rules_pos (r + 1) - g.rules_pos r) s) s.calls)
      _ _ st ?_ ?_ hst
    · obtain ⟨j0, j1, ⟨l, jl, jloff⟩, j3, j4, j5, j6⟩ := hJ
      have hfull : st.2 = off + len r := by
        rw [j0]
        have := prefix_len_full g len hlen r hr hrn
        simp only [arity] at this
        rw [this]
      refine ⟨?_, ⟨l, jl, jloff⟩, ?_, ?_, ?_⟩
      · intro x hx
        have hxr : x ≠ r := fun hc => hx (hc ▸ hm)
        obtain ⟨m1, r1⟩ := j1 x (hmono1 x hx)
        refine ⟨m1, ?_⟩
        simp only [close_rule]
        rw [Function.update_noteq hxr, r1]
        rfl
      · intro c hc h256
        have hc' : c ∈ st.1.calls := hc
        obtain ⟨m1, r1⟩ := j3 c hc' h256
        refine ⟨m1, ?_⟩
        simp only [close_rule]
        by_cases hcr : c.rule = r
        · rw [hcr, Function.update_same]
          rw [jl, hcalls] at hc'
          simp only [List.mem_append, List.mem_singleton] at hc'
          rcases hc' with (hc' | hc') | hc'
          · have := (hold c hc' h256).1
            rw [hcr] at this
            exact absurd hm this
          · rw [hc', hc0o]
          · exact jloff c hc'
        · rw [Function.update_noteq hcr]; exact r1
      · intro x
        simp only [close_rule]
        by_cases hxr : x = r
        · rw [hxr, Function.update_same]; omega
        · rw [Function.update_noteq hxr]
          have := j4 x
          omega
      · intro x hx1 hx2
        have hx2' : marked st.1 x := hx2
        by_cases hxr : x = r
        · subst hxr
          refine ⟨by simp only [close_rule, Function.update_same]; exact hocc, ?_⟩
          intro k hk
          obtain ⟨c, hc, hc1, hc2⟩ := j6 k hk
          exact ⟨c, hc, hc1, by simp only [close_rule, Function.update_same]; exact hc2⟩
        · have hnot : ¬ marked (open_rule r (g.rules_pos (r + 1) - g.rules_pos r) s) x := by
            simpa [marked, hopen_inv x hxr] using hx1
          obtain ⟨o1, o2⟩ := j5 x hnot hx2'
          have hrep : (close_rule r off st.1).rules_expansion_pos x
              = st.1.rules_expansion_pos x := by
            simp only [close_rule]; rw [Function.update_noteq hxr]
          refine ⟨by rw [hrep]; exact o1, ?_⟩
          intro k hk
          obtain ⟨c, hc, hc1, hc2⟩ := o2 k hk
          exact ⟨c, hc, hc1, by rw [hrep]; exact hc2⟩
    · refine ⟨by simp [prefix_len], fun x hx => ⟨hx, rfl⟩, ⟨[], by simp [open_rule], by simp⟩,
        ?_, p2, fun x h1 h2 => absurd h2 h1, fun k' hk' => by omega⟩
      intro c hc h256
      have hc' : c ∈ old ++ [c0] := by rw [← hcalls]; exact hc
      rw [List.mem_append, List.mem_singleton] at hc'
      rcases hc' with hc' | hc'
      · obtain ⟨m1, r1⟩ := hold c hc' h256
        exact ⟨hmono1 _ m1, r1⟩
      · rw [hc', hc0r, hc0o]
        exact ⟨hopen_r, p2 r⟩
    · intro k a b hk hJa hb
      simp only [child_step, Option.map_eq_some'] at hb
      obtain ⟨s2, hs2, hb⟩ := hb
      rw [← hb]
      have hf := child_enter_fields g.rules_derivation r (g.rules_pos r) (g.rules_pos r + k)
        a.2 a.1
      exact loop_inv_step g hin len r off _ _ k a _ s2 hr hrn hocc hk hJa hf.1
        hf.2.2.2.2.2.2.2.2.2.2.1 (child_enter_calls _ _ _ _ _ _) (hv _ _ _ _ hs2)

/-- The contract of the root loop `dfs()` started from the seeded state: the
loop invariant holds after the whole right-hand side of the top rule. -/
theorem dfs_root_settles (g : grammar) (hin : tables_in_range g) (hxs : 256 ≤ g.m_xs)
    (len : Nat → Nat) (hlen : lengths_consistent g len) (fuel : Nat) (s : dfs_state)
    (h : dfs_root g.rules_derivation g.rules_pos len g.m_xs fuel (seed_state g) = some s) :
    ∃ lo, loop_inv g len g.m_xs 0 (seed_state g) [] (arity g.rules_pos g.m_xs) (s, lo) := by
  simp only [dfs_root, Option.map_eq_some'] at h
  obtain ⟨st, hst, hs'⟩ := h
  have hcalls : (seed_state g).calls = [] := (seed_counters g).2.2.2.2.2.2.2.2
  have hrep : ∀ x, (seed_state g).rules_expansion_pos x = 0 := by
    intro x; simp [seed_state, seed_loop_eq]
  have hJ := for_range_opt_inv (g.rules_pos g.m_xs) _
    (loop_inv g len g.m_xs 0 (seed_state g) []) _ _ st ?_ ?_ hst
  · refine ⟨st.2, ?_⟩
    rw [← hs']
    exact hJ
  · refine ⟨by simp [prefix_len], fun x hx => ⟨hx, rfl⟩, ⟨[], by simp [hcalls], by simp⟩,
      ?_, ?_, fun x h1 h2 => absurd h2 h1, fun k' hk' => by omega⟩
    · intro c hc; rw [hcalls] at hc; simp at hc
    · intro x; rw [hrep x]
  · intro k a b hk hJa hb
    simp only [root_step, Option.map_eq_some'] at hb
    obtain ⟨s2, hs2, hb⟩ := hb
    rw [← hb]
    have hf := root_enter_fields g.rules_derivation g.m_xs (g.rules_pos g.m_xs)
      (g.rules_pos g.m_xs + k) a.2 a.1
    have hstep := loop_inv_step g hin len g.m_xs 0 _ _ k a _ s2 hxs hin.1 occurs_at.root hk hJa
      hf.1 hf.2.2.2.2.2.2.2.2.2.2.1 (root_enter_calls _ _ _ _ _ _)
      (dfs_node_settles g hin len hlen fuel _ _ _ _ hs2)
    exact loop_inv_congr g len g.m_xs 0 _ _ (k + 1) s2 (root_leave s2) _ rfl rfl rfl hstep

/-- C9.  On a level-ordered finite table with a non-terminal top rule (where
the expansion lengths computed by `index_basics::dfs` are consistent with the
grammar), the DFS returns, and for every non-terminal `r` other than the top
rule that it visited: `rules_expansion_pos[r]` is the offset of a node of the
derivation tree of the text that carries `r`; the `rules_expansion_len[r]`
bytes of the text `expansion(xs)` that start there are exactly `expansion(r)`;
and no node of the derivation tree that carries `r` starts at a smaller
offset. -/
theorem rules_expansion_pos_leftmost (g : grammar) (hin : tables_in_range g)
    (hxs : 256 ≤ g.m_xs) (hlev : level_ordered g) :
    ∃ s, index_dfs g = some s ∧
      ∀ r, 256 ≤ r → r ≠ g.m_xs → marked s r →
        occurs_at g (seed_expansion_len g) r (s.rules_expansion_pos r) ∧
        ((full_expansion g g.m_xs).drop (s.rules_expansion_pos r)).take
          (seed_expansion_len g r) = full_expansion g r ∧
        seed_expansion_len g r = (full_expansion g r).length ∧
        ∀ o, occurs_at g (seed_expansion_len g) r o → s.rules_expansion_pos r ≤ o := by
  obtain ⟨s, hs⟩ := index_dfs_returns g hin
  have hlen : lengths_consistent g (seed_expansion_len g) := by
    rw [seed_expansion_len_eq g hlev]; exact expansion_len_loop_consistent g hlev
  obtain ⟨lo, -, -, -, f1, -, f2, f3⟩ :=
    dfs_root_settles g hin hxs _ hlen (dfs_fuel g) s hs
  dsimp only at f1 f2 f3
  have hseed : ∀ x, 256 ≤ x → x ≠ g.m_xs → ¬ marked (seed_state g) x := by
    intro x h1 h2
    have : ¬ x < 256 := by omega
    simp [marked, seed_inv_pi, this, h2]
  have hleft : ∀ x o, occurs_at g (seed_expansion_len g) x o →
      (x = g.m_xs ∧ o = 0) ∨
      (x < g.m_xs ∧ (256 ≤ x → marked s x ∧ s.rules_expansion_pos x ≤ o)) := by
    intro x o hocc
    induction hocc with
    | root => exact Or.inl ⟨rfl, rfl⟩
    | child r o k _ hr hk ih =>
      right
      rcases ih with ⟨rfl, rfl⟩ | ⟨hlt, hrest⟩
      · refine ⟨hlev _ hxs hin.1 k hk, ?_⟩
        intro h256
        obtain ⟨c, hc, hc1, hc2⟩ := f3 k hk
        have := f1 c hc (by rw [hc1]; exact h256)
        rw [hc1, hc2] at this
        exact this
      · have hrn : r < g.total_rules := lt_trans hlt hin.1
        have hx := hlev r hr hrn k hk
        refine ⟨by omega, ?_⟩
        intro h256
        obtain ⟨hm, hle⟩ := hrest hr
        obtain ⟨-, hvis⟩ := f2 r (hseed r hr (by omega)) hm
        obtain ⟨c, hc, hc1, hc2⟩ := hvis k hk
        have := f1 c hc (by rw [hc1]; exact h256)
        rw [hc1, hc2] at this
        exact ⟨this.1, by have := this.2; omega⟩
  refine ⟨s, hs, ?_⟩
  intro r hr hne hm
  have hocc := (f2 r (hseed r hr hne) hm).1
  obtain ⟨hrn, -, hexp⟩ := occurs_at_expansion g hin hlev _ hlen r _ hocc
  refine ⟨hocc, hexp, (expansion_length g hlev _ hlen r hrn).symm, ?_⟩
  intro o ho
  rcases hleft r o ho with ⟨h1, -⟩ | ⟨-, h2⟩
  · exact absurd h1 hne
  · exact (h2 hr).2

set_option maxRecDepth 100000 in
/-- Instance of `rules_expansion_pos_leftmost` on the grammar of `ababa`, at
the rule `256 → a b`: it is visited, and the two bytes of the text that start
at `rules_expansion_pos[256]` are its expansion. -/
theorem rules_expansion_pos_leftmost_witness :
    tables_in_range grammar_ababa ∧ 256 ≤ grammar_ababa.m_xs ∧ level_ordered grammar_ababa ∧
    ∃ s, index_dfs grammar_ababa = some s ∧ marked s 256 ∧
      occurs_at grammar_ababa (seed_expansion_len grammar_ababa) 256
        (s.rules_expansion_pos 256) ∧
      ((full_expansion grammar_ababa grammar_ababa.m_xs).drop
        (s.rules_expansion_pos 256)).take (seed_expansion_len grammar_ababa 256)
        = full_expansion grammar_ababa 256 ∧
      ∀ o, occurs_at grammar_ababa (seed_expansion_len grammar_ababa) 256 o →
        s.rules_expansion_pos 256 ≤ o := by
  have h : tables_in_range grammar_ababa := by unfold tables_in_range; decide
  have hxs : 256 ≤ grammar_ababa.m_xs := by decide
  obtain ⟨s, hs, hall⟩ := rules_expansion_pos_leftmost grammar_ababa h hxs level_ordered_ababa
  have h1 : (index_dfs grammar_ababa).map (fun s => s.m_inv_pi 256) = some 257 := by decide
  simp only [hs, Option.map_some', Option.some.injEq] at h1
  have hm : marked s 256 := by rw [marked, h1]; decide
  obtain ⟨r1, r2, -, r4⟩ := hall 256 (le_refl _) (by decide) hm
  exact ⟨h, hxs, level_ordered_ababa, s, hs, hm, r1, r2, r4⟩

/-! ## The records handed to the sorter, and its LCP array -/

set_option maxRecDepth 100000 in
/-- C13, evaluated on the text `abc` with the grammar `256 → b c`,
`257 → a 256`: the record of rule 256 that `index_basics::dfs` hands to the
sorter has `pos = 1` and `len = 2` (the offset of `bc` in the text and its
length), while the two symbols of `rev(T) = cba` that start at position 1 are
`ba`, not the reverse `cb` of the expansion, which starts at position 0. -/
theorem rule_pos_is_text_offset :
    ∃ s, index_dfs grammar_abc = some s ∧
      rules_array grammar_abc s = [⟨257, 0, 3⟩, ⟨256, 1, 2⟩] ∧
      full_expansion grammar_abc 257 = text_abc ∧
      full_expansion grammar_abc 256 = [98, 99] ∧
      ((text_abc.reverse).drop 1).take 2 = [98, 97] ∧
      ((text_abc.reverse).drop 1).take 2 ≠ (full_expansion grammar_abc 256).reverse ∧
      ((text_abc.reverse).drop 0).take 2 = (full_expansion grammar_abc 256).reverse := by
  have h : (index_dfs grammar_abc).map
      (fun s => (s.m_pi 257, s.rules_expansion_pos 256)) = some (256, 1) := by decide
  have hl : seed_expansion_len grammar_abc 256 = 2 := by decide
  cases hs : index_dfs grammar_abc with
  | none => simp [hs] at h
  | some s =>
    simp only [hs, Option.map_some', Option.some.injEq, Prod.mk.injEq] at h
    refine ⟨s, rfl, ?_, by decide, by decide, by decide, by decide, by decide⟩
    have hsz : pi_size grammar_abc - 257 = 1 := by decide
    have hxs : grammar_abc.m_xs = 257 := rfl
    have hts : grammar_abc.m_text_size_1 = 3 := rfl
    simp [rules_array, hsz, hxs, hts, h.1, h.2, hl, List.range_succ]

/-- C18: `build_data_structures` constructs `m_lcp` from `text`, whatever the
library is; on the text `aaab` the LCP array of the text is `[0, 0, 2, 1, 0]`
and the LCP array of `rev(T)`, over which the suffix array and the ISA are
built, is `[0, 0, 1, 2, 0]`. -/
theorem lcp_built_over_text :
    (∀ (lib : sdsl_lib) (text : List Nat),
      (build_data_structures lib text).m_lcp = lib.construct_lcp text) ∧
    (build_data_structures lib_value text_aaab).m_lcp = [0, 0, 2, 1, 0] ∧
    naive_lcp text_aaab.reverse = [0, 0, 1, 2, 0] ∧
    rev_text text_aaab = text_aaab.reverse ++ [0] ∧
    (build_data_structures lib_value text_aaab).m_lcp ≠ naive_lcp text_aaab.reverse := by
  refine ⟨fun _ _ => rfl, by decide, by decide, by decide, by decide⟩

/-! ## The driver -/

/-- The C string of a buffer that holds `s`, a zero byte, and more. -/
theorem c_string_terminated (s rest : List Nat) (h : ∀ b, b ∈ s → b ≠ 0) :
    c_string (s ++ 0 :: rest) = s := by
  induction s with
  | nil => simp [c_string]
  | cons a t ih =>
    have ha : a ≠ 0 := h a (by simp)
    have := ih (fun b hb => h b (by simp [hb]))
    simp only [c_string] at this ⊢
    rw [List.cons_append, List.takeWhile_cons, if_pos (by simpa using ha), this]

/-- The C string of a buffer has no zero byte. -/
theorem c_string_zero_free (buf : List Nat) : ∀ b, b ∈ c_string buf → b ≠ 0 := by
  intro b hb
  have := List.mem_takeWhile_imp hb
  simpa using this

/-- With a lossless codec and an output file other than the compressed file,
the round trip writes the C string of the loaded text: the bytes of the file
before its first zero byte. -/
theorem round_trip_c_string {δ : Type} (d : dictionary_ops δ) (hd : lossless d)
    (files : String → List Nat) (input mid output : String) (hne : mid ≠ output) :
    round_trip d files input mid output = c_string (load_string_from_file (files input)) := by
  simp only [round_trip, main, List.length_cons, List.length_nil, ne_eq, not_true_eq_false,
    if_false, List.getD_cons_succ, List.getD_cons_zero, if_true, mode_c, mode_d,
    Function.update_same, Function.update_idem]
  have h1 : ("-d" : String) ≠ "-c" := by decide
  simp only [h1, if_false, Function.update_same, Function.update_noteq hne]
  exact hd _ (c_string_zero_free _)

/-- C15 as stated fails on the file that holds the bytes `a`, `0`, `b`: with
the dictionary that stores the string itself (a lossless codec), and with
every other lossless codec, compressing `in` to `mid` and decompressing `mid`
to `out` writes the single byte `a`. -/
theorem round_trip_stops_at_zero_byte :
    lossless plain_dictionary ∧
    round_trip plain_dictionary (files_with [97, 0, 98]) "in" "mid" "out" = [97] ∧
    round_trip plain_dictionary (files_with [97, 0, 98]) "in" "mid" "out" ≠ [97, 0, 98] ∧
    ∀ (δ : Type) (d : dictionary_ops δ), lossless d →
      round_trip d (files_with [97, 0, 98]) "in" "mid" "out" = [97] := by
  have hl : lossless plain_dictionary := by
    intro s hs
    simp only [plain_dictionary]
    have := c_string_terminated s [] hs
    simpa using this
  have hr := round_trip_c_string plain_dictionary hl (files_with [97, 0, 98]) "in" "mid" "out"
    (by decide)
  have hc : c_string (load_string_from_file (files_with [97, 0, 98] "in")) = [97] := by decide
  rw [hc] at hr
  refine ⟨hl, hr, by rw [hr]; decide, ?_⟩
  intro δ d hd
  rw [round_trip_c_string d hd (files_with [97, 0, 98]) "in" "mid" "out" (by decide)]
  exact hc

/-- C15, amended.  For every text `T` without a zero byte held in the input
file, with a lossless codec and an output file other than the compressed file,
compressing with `-c` and decompressing the result with `-d` writes exactly
the bytes of `T`. -/
theorem round_trip_zero_free {δ : Type} (d : dictionary_ops δ) (hd : lossless d)
    (files : String → List Nat) (input mid output : String) (hne : mid ≠ output)
    (hT : ∀ b, b ∈ files input → b ≠ 0) :
    round_trip d files input mid output = files input := by
  rw [round_trip_c_string d hd files input mid output hne, load_string_from_file]
  exact c_string_terminated _ [] hT

/-- Instance of `round_trip_zero_free`: the file that holds `abc`. -/
theorem round_trip_zero_free_witness :
    lossless plain_dictionary ∧ ("mid" : String) ≠ "out" ∧
    (∀ b, b ∈ files_with text_abc "in" → b ≠ 0) ∧
    round_trip plain_dictionary (files_with text_abc) "in" "mid" "out" = text_abc := by
  have hl : lossless plain_dictionary := by
    intro s hs
    simp only [plain_dictionary]
    have := c_string_terminated s [] hs
    simpa using this
  have hne : ("mid" : String) ≠ "out" := by decide
  have hT : ∀ b, b ∈ files_with text_abc "in" → b ≠ 0 := by decide
  exact ⟨hl, hne, hT, round_trip_zero_free plain_dictionary hl (files_with text_abc)
    "in" "mid" "out" hne hT⟩

/-- C16.  `main` ends with a non-zero status exactly when the argument count
is not 4 or `argv[1]` is none of `-c`, `-d`, `-s`, `-l`, `-A`, `-e`; it has
then written a message to `std::cerr`; and with four arguments and one of
these modes it returns 0. -/
theorem main_exit_status {δ : Type} (d : dictionary_ops δ) (argv : List String)
    (files : String → List Nat) :
    ((main d argv files).status ≠ 0 ↔
      (argv.length ≠ 4 ∨ argv.getD 1 "" ∉ ["-c", "-d", "-s", "-l", "-A", "-e"])) ∧
    ((main d argv files).status ≠ 0 → (main d argv files).cerr ≠ []) ∧
    (argv.length = 4 → argv.getD 1 "" ∈ ["-c", "-d", "-s", "-l", "-A", "-e"] →
      (main d argv files).status = 0 ∧ (main d argv files).cerr = []) := by
  simp only [main]
  generalize argv.getD 1 "" = mode
  by_cases hlen : argv.length = 4
  · simp only [hlen, ne_eq, not_true_eq_false, if_false, false_or]
    by_cases hc : mode = "-c"
    · subst hc; simp
    by_cases hd : mode = "-d"
    · subst hd; simp
    by_cases hs : mode = "-s"
    · subst hs; simp
    by_cases hl : mode = "-l"
    · subst hl; simp
    by_cases hA : mode = "-A"
    · subst hA; simp
    by_cases he : mode = "-e"
    · subst he; simp
    simp [hc, hd, hs, hl, hA, he, EXIT_FAILURE]
  · simp [hlen, EXIT_FAILURE]

/-! ## Previous siblings -/

/-- The table after the copy loop of `copy_lcp`, when the source symbols end
before `idx` or the source is `idx` itself. -/
theorem copy_lcp_val (dst : Nat → Nat) (idx src : Nat) :
    ∀ n, (src + n ≤ idx ∨ src = idx) → ∀ x,
      for_range 0 (fun j d => Function.update d (idx + j) (d (src + j))) n dst x
        = if idx ≤ x ∧ x < idx + n then dst (src + (x - idx)) else dst x := by
  intro n
  induction n with
  | zero =>
    intro _ x
    rw [if_neg (by omega)]
    rfl
  | succ n ih =>
    intro h x
    have ih := ih (by omega)
    simp only [for_range]
    rw [Nat.zero_add]
    by_cases hx : x = idx + n
    · subst hx
      rw [Function.update_same, ih, if_neg (by omega), if_pos (by omega)]
      congr 1
      omega
    · rw [Function.update_noteq hx, ih]
      by_cases hc : idx ≤ x ∧ x < idx + n
      · rw [if_pos hc, if_pos (by omega)]
      · rw [if_neg hc, if_neg (by omega)]

/-- The table after the copy loop of `copy_suffix`. -/
theorem copy_suffix_val (c dst : Nat → Nat) (idx ci : Nat) :
    ∀ n x, for_range 0 (fun j d => Function.update d (idx + j) (c (ci + j))) n dst x
        = if idx ≤ x ∧ x < idx + n then c (ci + (x - idx)) else dst x := by
  intro n
  induction n with
  | zero =>
    intro x
    rw [if_neg (by omega)]
    rfl
  | succ n ih =>
    intro x
    simp only [for_range]
    rw [Nat.zero_add]
    by_cases hx : x = idx + n
    · subst hx
      rw [Function.update_same, if_pos (by omega)]
      congr 1
      omega
    · rw [Function.update_noteq hx, ih]
      by_cases hc : idx ≤ x ∧ x < idx + n
      · rw [if_pos hc, if_pos (by omega)]
      · rw [if_neg hc, if_neg (by omega)]

/-- The starts of the rules do not decrease. -/
theorem rule_start_mono (e : encoded_grammar) (i m : Nat) (h : i ≤ m) :
    rule_start e i ≤ rule_start e m := by
  induction m with
  | zero =>
    have : i = 0 := by omega
    rw [this]
  | succ m ih =>
    by_cases hi : i = m + 1
    · rw [hi]
    · have := ih (by omega)
      simp only [rule_start]
      omega

/-- Rule 1 starts at 1. -/
theorem rule_start_one (e : encoded_grammar) : rule_start e 1 = 1 := by
  simp [rule_start, rule_len]

/-- One round of the decode loop takes the state after `k` rounds to the state
after `k + 1` rounds, when rule `k + 1` shares no more symbols with rule `k`
than rule `k` has. -/
theorem decode_step_inv (e : encoded_grammar) (k : Nat) (st : decode_state)
    (hlcp : ∀ i, 1 ≤ i → i ≤ k + 1 → lcp_of e i ≤ rule_len e (i - 1))
    (h : decode_inv e k st) : decode_inv e (k + 1) (decode_step e (1 + k) st) := by
  obtain ⟨h1, h2, h3, h4, h5, h6, h7, h8⟩ := h
  have e1 : 1 + k = k + 1 := Nat.add_comm 1 k
  have hl : e.rules_lcp_select (k + 1 + 1) - st.prev_lcp_pos - 1 = lcp_of e (k + 1) := by
    rw [h3]; rfl
  have hsf : e.rules_delim_select (k + 1 + 1) - st.prev_rule_pos - 1 = suffix_of e (k + 1) := by
    rw [h4]; rfl
  have hrl : rule_len e (k + 1) = lcp_of e (k + 1) + suffix_of e (k + 1) := by
    simp [rule_len]
  have hrs : rule_start e (k + 1 + 1) = rule_start e (k + 1) + rule_len e (k + 1) := rfl
  have hcs : concat_start e (k + 1 + 1) = concat_start e (k + 1) + suffix_of e (k + 1) := by
    simp [concat_start]
  have hsrc : st.idx - st.prev_rule_len + lcp_of e (k + 1) ≤ st.idx ∨
      st.idx - st.prev_rule_len = st.idx := by
    by_cases hk : k = 0
    · right; rw [h5, if_pos hk]; rfl
    · left
      have := hlcp (k + 1) (by omega) (by omega)
      rw [Nat.add_sub_cancel] at this
      have hk1 : rule_start e (k + 1) = rule_start e k + rule_len e k := rfl
      rw [h5, if_neg hk, h1, hk1]
      omega
  have hval : ∀ x, (decode_step e (1 + k) st).rules_derivation x =
      if st.idx + lcp_of e (k + 1) ≤ x ∧ x < st.idx + lcp_of e (k + 1) + suffix_of e (k + 1) then
        e.rules_concat (st.rule_concat_idx + (x - (st.idx + lcp_of e (k + 1))))
      else if st.idx ≤ x ∧ x < st.idx + lcp_of e (k + 1) then
        st.rules_derivation (st.idx - st.prev_rule_len + (x - st.idx))
      else st.rules_derivation x := by
    intro x
    simp only [decode_step, copy_suffix, copy_lcp, e1, hl, hsf]
    rw [copy_suffix_val, copy_lcp_val _ _ _ _ hsrc]
  have hold : ∀ x, x < st.idx → (decode_step e (1 + k) st).rules_derivation x
      = st.rules_derivation x := by
    intro x hx
    rw [hval, if_neg (by omega), if_neg (by omega)]
  have hpos : 1 ≤ st.idx := by
    rw [h1, ← rule_start_one e]
    exact rule_start_mono e 1 (k + 1) (by omega)
  refine ⟨?_, ?_, ?_, ?_, ?_, ?_, ?_, ?_⟩
  · simp only [decode_step, copy_suffix, copy_lcp, e1, hl, hsf]
    rw [hrs, hrl, h1]; omega
  · simp only [decode_step, copy_suffix, copy_lcp, e1, hl, hsf]
    rw [hcs, h2]
  · simp only [decode_step, e1]
  · simp only [decode_step, e1]
  · simp only [decode_step, e1, hl, hsf]
    rw [if_neg (by omega), hrl]
  · intro j hj
    have hidx : (decode_step e (1 + k) st).idx
        = st.idx + lcp_of e (k + 1) + suffix_of e (k + 1) := by
      simp only [decode_step, copy_suffix, copy_lcp, e1, hl, hsf]
    rw [hidx] at hj
    rw [hval, if_neg (by omega), if_neg (by omega)]
    exact h6 j (by omega)
  · rw [hold 0 (by omega)]; exact h7
  · intro i hi1 hik
    by_cases hi : i ≤ k
    · obtain ⟨a1, a2, a3⟩ := h8 i hi1 hi
      have hnext : rule_start e (i + 1) ≤ st.idx := by
        rw [h1]; exact rule_start_mono e (i + 1) (k + 1) (by omega)
      have hri : rule_start e (i + 1) = rule_start e i + rule_len e i := rfl
      have hli : rule_len e i = lcp_of e i + suffix_of e i := by
        simp only [rule_len]; rw [if_neg (by omega)]
      have hprev : rule_start e i = rule_start e (i - 1) + rule_len e (i - 1) := by
        have : i = (i - 1) + 1 := by omega
        conv_lhs => rw [this]
        rfl
      have hle := hlcp i hi1 (by omega)
      refine ⟨?_, ?_, ?_⟩
      · simp only [decode_step, e1]
        rw [Function.update_noteq (by omega)]
        exact a1
      · intro j hj
        rw [hold _ (by omega), hold _ (by omega)]
        exact a2 j hj
      · intro j hj
        rw [hold _ (by omega)]
        exact a3 j hj
    · have hi2 : i = k + 1 := by omega
      subst hi2
      refine ⟨?_, ?_, ?_⟩
      · simp only [decode_step, e1, Function.update_same]
        exact h1
      · intro j hj
        have hx : st.idx + j - st.idx = j := by omega
        have hle := hlcp (k + 1) (by omega) (by omega)
        have hkk : k + 1 - 1 = k := by omega
        rw [hkk] at hle ⊢
        rw [← h1, hval, if_neg (by omega), if_pos (by omega), hx]
        by_cases hk : k = 0
        · have hr0 : rule_len e k = 1 := by simp [rule_len, hk]
          have hj0 : j = 0 := by omega
          have hs0 : rule_start e k = 0 := by rw [hk]; rfl
          subst hj0
          rw [hs0]
          simp only [Nat.add_zero]
          rw [hold 0 (by omega), h7, h5, if_pos hk, Nat.sub_zero]
          exact h6 _ (Nat.le_refl _)
        · have hk1 : rule_start e (k + 1) = rule_start e k + rule_len e k := rfl
          have hsrc2 : st.idx - st.prev_rule_len = rule_start e k := by
            rw [h5, if_neg hk, h1, hk1]; omega
          rw [hsrc2, hold _ (by rw [h1, hk1]; omega)]
      · intro j hj
        rw [← h1, hval, if_pos (by omega), h2]
        congr 1
        omega

/-- C14.  Let the select values increase, `rules_lcp_select(1) = 0` and
`rules_delim_select(1) = 1`, and let no rule share more symbols with the rule
before it than that rule has (`lcp_i <= |rule i-1|`, rule 0 being the single
symbol written before the loop).  Then after the decode loop
`rules_pos[total_rules] = G`, and for every `i` with `1 <= i < total_rules`:
the two differences are exact, `rules_pos[i]` is the start of rule `i` (one
plus the lengths `lcp_k + suffix_k` of the rules `1..i-1`), the first `lcp_i`
symbols from there are the first `lcp_i` symbols of rule `i - 1`, and the next
`suffix_i` symbols are the next `suffix_i` symbols of the concat stream. -/
theorem decode_loop_reconstructs (e : encoded_grammar)
    (hl1 : e.rules_lcp_select 1 = 0) (hd1 : e.rules_delim_select 1 = 1)
    (hmono : ∀ i, 1 ≤ i → i < e.total_rules →
      e.rules_lcp_select i < e.rules_lcp_select (i + 1) ∧
      e.rules_delim_select i < e.rules_delim_select (i + 1))
    (hlcp : ∀ i, 1 ≤ i → i < e.total_rules → lcp_of e i ≤ rule_len e (i - 1)) :
    (decode_rules e).rules_pos e.total_rules = e.m_grammar_size ∧
    ∀ i, 1 ≤ i → i < e.total_rules →
      e.rules_lcp_select i + lcp_of e i + 1 = e.rules_lcp_select (i + 1) ∧
      e.rules_delim_select i + suffix_of e i + 1 = e.rules_delim_select (i + 1) ∧
      (decode_rules e).rules_pos i = rule_start e i ∧
      (decode_rules e).rules_pos (i - 1) = rule_start e (i - 1) ∧
      (∀ j, j < lcp_of e i →
        (decode_rules e).rules_derivation ((decode_rules e).rules_pos i + j)
          = (decode_rules e).rules_derivation ((decode_rules e).rules_pos (i - 1) + j)) ∧
      (∀ j, j < suffix_of e i →
        (decode_rules e).rules_derivation ((decode_rules e).rules_pos i + lcp_of e i + j)
          = e.rules_concat (concat_start e i + j)) := by
  have hinv : decode_inv e (e.total_rules - 1)
      (for_range 1 (decode_step e) (e.total_rules - 1) decode_init) := by
    refine for_range_inv 1 (decode_step e) (decode_inv e) _ _ ?_ ?_
    · refine ⟨rfl, rfl, hl1.symm, hd1.symm, rfl, ?_, rfl, ?_⟩
      · intro j hj
        have hj0 : j ≠ 0 := by
          intro hc; subst hc; simp [decode_init] at hj
        simp only [decode_init]
        rw [Function.update_noteq hj0]
      · intro i h1 h0; omega
    · intro k st hk hst
      exact decode_step_inv e k st (fun i h1 h2 => hlcp i h1 (by omega)) hst
  obtain ⟨-, -, -, -, -, -, h7, h8⟩ := hinv
  refine ⟨by simp [decode_rules], ?_⟩
  intro i hi1 hit
  obtain ⟨a1, a2, a3⟩ := h8 i hi1 (by omega)
  have hm := hmono i hi1 hit
  have hp : (decode_rules e).rules_pos i = rule_start e i := by
    simp only [decode_rules]
    rw [Function.update_noteq (by omega)]
    exact a1
  have hp' : (decode_rules e).rules_pos (i - 1) = rule_start e (i - 1) := by
    simp only [decode_rules]
    rw [Function.update_noteq (by omega)]
    by_cases hi : i = 1
    · subst hi
      have h0 : ∀ n, (for_range 1 (decode_step e) n decode_init).rules_pos 0 = 0 := by
        intro n
        induction n with
        | zero => rfl
        | succ n ih =>
          simp only [for_range, decode_step]
          rw [Function.update_noteq (by omega)]
          exact ih
      exact h0 _
    · exact (h8 (i - 1) (by omega) (by omega)).1
  refine ⟨by simp only [lcp_of]; omega, by simp only [suffix_of]; omega, hp, hp', ?_, ?_⟩
  · intro j hj
    rw [hp, hp']
    exact a2 j hj
  · intro j hj
    rw [hp]
    exact a3 j hj

/-- Instance of `decode_loop_reconstructs` on an encoding of `0 → 0`,
`1 → 5 6`, `2 → 5 7`, `3 → 5 7 8`: rule 3 starts at 5, shares two symbols
with rule 2, which starts at 3, and the table holds `0 5 6 5 7 5 7 8`. -/
theorem decode_loop_reconstructs_witness :
    (decode_rules encoded_example).rules_pos 4 = 8 ∧
    (decode_rules encoded_example).rules_pos 3 = 5 ∧
    (decode_rules encoded_example).rules_pos 2 = 3 ∧
    lcp_of encoded_example 3 = 2 ∧ suffix_of encoded_example 3 = 1 ∧
    (List.range 8).map (decode_rules encoded_example).rules_derivation
      = [0, 5, 6, 5, 7, 5, 7, 8] := by
  have hmono : ∀ i, 1 ≤ i → i < encoded_example.total_rules →
      encoded_example.rules_lcp_select i < encoded_example.rules_lcp_select (i + 1) ∧
      encoded_example.rules_delim_select i < encoded_example.rules_delim_select (i + 1) := by
    intro i h1 h2
    have h2 : i < 4 := h2
    interval_cases i <;> decide
  have hlcp : ∀ i, 1 ≤ i → i < encoded_example.total_rules →
      lcp_of encoded_example i ≤ rule_len encoded_example (i - 1) := by
    intro i h1 h2
    have h2 : i < 4 := h2
    interval_cases i <;> decide
  have h := decode_loop_reconstructs encoded_example rfl rfl hmono hlcp
  have h3 := h.2 3 (by decide) (by decide)
  have h2 := h.2 2 (by decide) (by decide)
  exact ⟨h.1, by rw [h3.2.2.1]; decide, by rw [h2.2.2.1]; decide, by decide, by decide,
    by decide⟩

/-! ## Book-keeping of the calls -/

/-- The record that `child_enter` appends is the pending call. -/
theorem child_enter_pending (rd : Nat → Nat) (r pos i lo : Nat) (s : dfs_state) :
    ∃ c, pending (child_enter rd r pos i lo s) (rd i) lo s.calls c := by
  simp only [child_enter, log_call]
  split_ifs <;> exact ⟨_, rfl, rfl, rfl, rfl, rfl, rfl, rfl, rfl, rfl⟩

/-- The record that `root_enter` appends is the pending call. -/
theorem root_enter_pending (rd : Nat → Nat) (r pos i off : Nat) (s : dfs_state) :
    ∃ c, pending (root_enter rd r pos i off s) (rd i) off s.calls c := by
  simp only [root_enter, log_call]
  split_ifs <;> exact ⟨_, rfl, rfl, rfl, rfl, rfl, rfl, rfl, rfl, rfl⟩

/-- `child_enter` leaves the books alone. -/
theorem child_enter_books (rd : Nat → Nat) (r pos i lo : Nat) (s : dfs_state) :
    same_books s (child_enter rd r pos i lo s) := by
  simp only [child_enter, log_call, same_books]
  split_ifs <;> exact ⟨rfl, rfl, rfl, rfl, rfl, rfl, rfl, rfl, rfl, rfl, rfl, rfl, rfl, rfl, rfl⟩

/-- `root_enter` leaves the books alone. -/
theorem root_enter_books (rd : Nat → Nat) (r pos i off : Nat) (s : dfs_state) :
    same_books s (root_enter rd r pos i off s) := by
  simp only [root_enter, log_call, same_books]
  split_ifs <;> exact ⟨rfl, rfl, rfl, rfl, rfl, rfl, rfl, rfl, rfl, rfl, rfl, rfl, rfl, rfl, rfl⟩

/-- The book-keeping reads only the vectors and counters of `same_books` and
`global_dfs_idx`. -/
theorem books_congr (xs : Nat) (rp rel : Nat → Nat) (d d' : Nat) (cs : List dfs_call)
    (s t : dfs_state) (h : same_books s t) (hg : t.focc_idx = t.global_dfs_idx + d')
    (hs : books xs rp rel d cs s) : books xs rp rel d' cs t := by
  obtain ⟨e1, e2, e3, e4, e5, e6, e7, e8, e9, e10, e11, e12, e13, e14, e15⟩ := h
  obtain ⟨-, b1, b2, b3, b4, b5⟩ := hs
  refine ⟨hg, ?_, ?_, ?_, ?_, ?_⟩
  · simpa only [focc_books, e1, e11] using b1
  · simpa only [mark_books, e6] using b2
  · simpa only [bv_books, e9] using b3
  · simpa only [leaf_books, e4, e13, e8, e14, e7, e10, e11] using b4
  · simpa only [l_books, e2, e15] using b5

/-- Call induction with the pending record: a condition `Pre` on the log
before the pending record and the state at the call gives `Post` on the log
and the state at the return, as soon as each visiting branch takes `Pre` to
`Post` with the record appended, the bookkeeping before a recursive call takes
`Post` to `Pre`, and the closing statement keeps `Post`. -/
theorem dfs_node_pending (rd rp rel : Nat → Nat)
    (Pre Post : List dfs_call → dfs_state → Prop)
    (hterm : ∀ r off s old c, r < 256 → pending s r off old c → Pre old s →
      Post (old ++ [c]) (visit_terminal r s))
    (hrep : ∀ r off s old c, 256 ≤ r → s.m_inv_pi r ≠ -1 → pending s r off old c → Pre old s →
      Post (old ++ [c]) (visit_repeated rel r s))
    (hopen : ∀ r off s old c, 256 ≤ r → s.m_inv_pi r = -1 → pending s r off old c → Pre old s →
      Post (old ++ [c]) (open_rule r (rp (r + 1) - rp r) s))
    (henter : ∀ r i lo s, Post s.calls s → Pre s.calls (child_enter rd r (rp r) i lo s))
    (hclose : ∀ r off s, Post s.calls s → Post s.calls (close_rule r off s)) :
    ∀ fuel r off s s', dfs_node rd rp rel fuel r off s = some s' →
      ∀ old c, pending s r off old c → Pre old s → Post s'.calls s' := by
  apply dfs_node_induct rd rp rel
    (fun r off s s' => ∀ old c, pending s r off old c → Pre old s → Post s'.calls s')
  · intro r off s hr old c hp hpre
    have hc : (visit_terminal r s).calls = old ++ [c] := hp.1
    rw [hc]; exact hterm r off s old c hr hp hpre
  · intro r off s hr hm old c hp hpre
    have hc : (visit_repeated rel r s).calls = old ++ [c] := hp.1
    rw [hc]; exact hrep r off s old c hr hm hp hpre
  · intro visit r off s st hr hm hv hst old c hp hpre
    have hc : (open_rule r (rp (r + 1) - rp r) s).calls = old ++ [c] := hp.1
    have h0 := hopen r off s old c hr hm hp hpre
    rw [← hc] at h0
    have hJ := for_range_opt_inv (rp r) _ (fun _ st => Post st.1.calls st.1) _ _ st h0 ?_ hst
    · exact hclose r off st.1 hJ
    · intro k a b _ hJa hb
      simp only [child_step, Option.map_eq_some'] at hb
      obtain ⟨s2, hs2, hb⟩ := hb
      rw [← hb]
      obtain ⟨c', hc'⟩ := child_enter_pending rd r (rp r) (rp r + k) a.2 a.1
      exact hv _ _ _ _ hs2 _ c' hc' (henter r (rp r + k) a.2 a.1 hJa)

/-- The root loop with the pending record: a condition `H` at the head of the
loop is kept when the bookkeeping before a call takes `H` to `Pre` and the
statement after the call takes `Post` to `H`. -/
theorem dfs_root_pending (rd rp rel : Nat → Nat) (xs : Nat)
    (Pre Post H : List dfs_call → dfs_state → Prop)
    (hterm : ∀ r off s old c, r < 256 → pending s r off old c → Pre old s →
      Post (old ++ [c]) (visit_terminal r s))
    (hrep : ∀ r off s old c, 256 ≤ r → s.m_inv_pi r ≠ -1 → pending s r off old c → Pre old s →
      Post (old ++ [c]) (visit_repeated rel r s))
    (hopen : ∀ r off s old c, 256 ≤ r → s.m_inv_pi r = -1 → pending s r off old c → Pre old s →
      Post (old ++ [c]) (open_rule r (rp (r + 1) - rp r) s))
    (henter : ∀ r i lo s, Post s.calls s → Pre s.calls (child_enter rd r (rp r) i lo s))
    (hclose : ∀ r off s, Post s.calls s → Post s.calls (close_rule r off s))
    (hrenter : ∀ i off s, H s.calls s → Pre s.calls (root_enter rd xs (rp xs) i off s))
    (hleave : ∀ s, Post s.calls s → H s.calls (root_leave s))
    (fuel : Nat) (s s' : dfs_state)
    (h : dfs_root rd rp rel xs fuel s = some s') (hs : H s.calls s) : H s'.calls s' := by
  simp only [dfs_root, Option.map_eq_some'] at h
  obtain ⟨st, hst, hs'⟩ := h
  rw [← hs']
  refine for_range_opt_inv (rp xs) _ (fun _ st => H st.1.calls st.1) _ _ st hs ?_ hst
  intro k a b _ hJa hb
  simp only [root_step, Option.map_eq_some'] at hb
  obtain ⟨s2, hs2, hb⟩ := hb
  rw [← hb]
  obtain ⟨c', hc'⟩ := root_enter_pending rd xs (rp xs) (rp xs + k) a.2 a.1
  exact hleave s2 (dfs_node_pending rd rp rel Pre Post hterm hrep hopen henter hclose
    fuel _ _ _ _ hs2 _ c' hc' (hrenter (rp xs + k) a.2 a.1 hJa))

/-- A visit writes the bit of the pending call into its slot of `focc`. -/
theorem focc_books_log (old : List dfs_call) (c : dfs_call) (s t : dfs_state)
    (hs : focc_books old s)
    (hslot : c.focc_slot = s.focc_idx) (hg : c.gidx = s.focc_idx)
    (hf : t.m_focc = Function.update s.m_focc s.focc_idx c.fresh)
    (hi : t.focc_idx = s.focc_idx + 1) : focc_books (old ++ [c]) t := by
  obtain ⟨h1, h2, h3, h4⟩ := hs
  refine ⟨by omega, ?_, ?_, ?_⟩
  · intro i hi256
    rw [hf, Function.update_noteq (by omega)]
    exact h2 i hi256
  · intro d hd
    rw [List.mem_append, List.mem_singleton] at hd
    rcases hd with hd | rfl
    · obtain ⟨a1, a2, a3, a4⟩ := h3 d hd
      refine ⟨a1, by omega, a3, ?_⟩
      rw [hf, Function.update_noteq (by omega)]
      exact a4
    · refine ⟨by omega, by omega, by omega, ?_⟩
      rw [hf, hslot, Function.update_same]
  · rw [List.pairwise_append]
    refine ⟨h4, List.pairwise_singleton _ _, ?_⟩
    intro a ha b hb
    rw [List.mem_singleton] at hb
    rw [hb, hslot]
    exact (h3 a ha).2.1

/-- A visit moves `m_bv_idx` past the positions the pending call writes. -/
theorem bv_books_log (rp : Nat → Nat) (old : List dfs_call) (c : dfs_call) (s t : dfs_state)
    (hs : bv_books rp old s) (hpos : c.bv_pos = s.m_bv_idx)
    (hi : t.m_bv_idx = s.m_bv_idx + (if c.fresh = true then arity rp c.rule else 0) + 1) :
    bv_books rp (old ++ [c]) t := by
  intro d hd
  rw [List.mem_append, List.mem_singleton] at hd
  rcases hd with hd | rfl
  · have := hs d hd
    omega
  · omega

/-- A visit marks at most the rule of the pending call, and the pending call
takes the first-occurrence branch exactly when its rule is an unmarked
non-terminal. -/
theorem mark_books_log (xs : Nat) (old : List dfs_call) (c : dfs_call) (s t : dfs_state)
    (hs : mark_books xs old s)
    (hfresh : c.fresh = (decide (256 ≤ c.rule) && decide (s.m_inv_pi c.rule = -1)))
    (hm : ∀ r, 256 ≤ r → (t.m_inv_pi r ≠ -1 ↔ (s.m_inv_pi r ≠ -1 ∨ r = c.rule))) :
    mark_books xs (old ++ [c]) t := by
  obtain ⟨h1, h2⟩ := hs
  refine ⟨?_, ?_⟩
  · intro r hr
    rw [hm r hr, h1 r hr]
    constructor
    · rintro ((h | ⟨d, hd, hdr⟩) | h)
      · exact Or.inl h
      · exact Or.inr ⟨d, List.mem_append_left _ hd, hdr⟩
      · exact Or.inr ⟨c, by simp, h.symm⟩
    · rintro (h | ⟨d, hd, hdr⟩)
      · exact Or.inl (Or.inl h)
      · rw [List.mem_append, List.mem_singleton] at hd
        rcases hd with hd | rfl
        · exact Or.inl (Or.inr ⟨d, hd, hdr⟩)
        · exact Or.inr hdr.symm
  · intro o x rest hsplit
    rcases List.eq_nil_or_concat rest with hnil | ⟨rest', y, hrest⟩
    · subst hnil
      have hlen : ([c] : List dfs_call).length = [x].length := rfl
      obtain ⟨ho, hx⟩ := List.append_inj' hsplit hlen
      simp only [List.cons.injEq, and_true] at hx
      subst ho
      subst hx
      rw [hfresh]
      simp only [Bool.and_eq_true, decide_eq_true_eq]
      constructor
      · rintro ⟨a1, a2⟩
        have hnot : ¬ (c.rule = xs ∨ ∃ d, d ∈ old ∧ d.rule = c.rule) := by
          rw [← h1 c.rule a1]
          simpa using a2
        refine ⟨a1, fun hx => hnot (Or.inl hx), fun d hd hdr => hnot (Or.inr ⟨d, hd, hdr⟩)⟩
      · rintro ⟨a1, a2, a3⟩
        refine ⟨a1, ?_⟩
        by_contra hmark
        rcases (h1 c.rule a1).1 hmark with h | ⟨d, hd, hdr⟩
        · exact a2 h
        · exact a3 d hd hdr
    · subst hrest
      have hsplit' : old ++ [c] = (o ++ x :: rest') ++ [y] := by
        rw [hsplit]; simp
      have hlen : ([c] : List dfs_call).length = [y].length := rfl
      obtain ⟨ho, -⟩ := List.append_inj' hsplit' hlen
      exact h2 o x rest' ho

/-- The three lists of leaves after one more record. -/
theorem leaves_append (old : List dfs_call) (c : dfs_call) :
    leaves (old ++ [c]) = leaves old ++ (if c.fresh = true then [] else [c]) ∧
    terminal_leaves (old ++ [c])
      = terminal_leaves old ++ (if c.fresh = false ∧ c.rule < 256 then [c] else []) ∧
    repeated_leaves (old ++ [c])
      = repeated_leaves old ++ (if c.fresh = false ∧ 256 ≤ c.rule then [c] else []) := by
  simp only [leaves, terminal_leaves, repeated_leaves, List.filter_append, List.filter_cons,
    List.filter_nil]
  cases hf : c.fresh <;> by_cases hr : c.rule < 256 <;> simp [hf, hr]

/-- The first-occurrence branch adds no leaf. -/
theorem leaf_books_open (old : List dfs_call) (c : dfs_call) (s t : dfs_state)
    (hs : leaf_books old s) (hfresh : c.fresh = true) (hslot : c.leaf_slot = s.leaf_idx)
    (h1 : t.m_t = s.m_t) (h2 : t.leaf_idx = s.leaf_idx) (h3 : t.m_str = s.m_str)
    (h4 : t.m_wt = s.m_wt) (h5 : t.wt_idx = s.wt_idx) (h6 : t.pi_idx = s.pi_idx + 1)
    (h7 : t.focc_idx = s.focc_idx + 1) : leaf_books (old ++ [c]) t := by
  obtain ⟨a1, a2, a3, a4, a5, a6, a7, a8⟩ := hs
  obtain ⟨l1, l2, l3⟩ := leaves_append old c
  simp only [hfresh, if_true, List.append_nil, Bool.true_eq_false, false_and, if_false]
    at l1 l2 l3
  refine ⟨by rw [l1, h2]; exact a1, ?_, ?_, by rw [l2, h3]; exact a4,
    by rw [l3, h4, h5]; exact a5, by rw [h2, h3, h5]; exact a6, by omega, ?_⟩
  · intro d hd hdf
    rw [List.mem_append, List.mem_singleton] at hd
    rcases hd with hd | rfl
    · rw [h1]; exact a2 d hd hdf
    · rw [hfresh] at hdf; exact absurd hdf (by decide)
  · intro j hj
    rw [h1]; exact a3 j (by omega)
  · intro d hd
    rw [List.mem_append, List.mem_singleton] at hd
    rcases hd with hd | rfl
    · have := a8 d hd; omega
    · omega

/-- The slot of a logged leaf is below `leaf_idx`. -/
theorem leaf_slot_lt (cs : List dfs_call) (s : dfs_state) (hs : leaf_books cs s)
    (c : dfs_call) (hc : c ∈ cs) (hf : c.fresh = false) : c.leaf_slot < s.leaf_idx := by
  have hmem : c.leaf_slot ∈ (leaves cs).map (fun c => c.leaf_slot) := by
    refine List.mem_map.2 ⟨c, ?_, rfl⟩
    simp [leaves, hc, hf]
  rw [hs.1] at hmem
  exact List.mem_range.1 hmem

/-- The terminal branch adds a terminal leaf. -/
theorem leaf_books_terminal (old : List dfs_call) (c : dfs_call) (s t : dfs_state)
    (hs : leaf_books old s) (hfresh : c.fresh = false) (hr : c.rule < 256)
    (hslot : c.leaf_slot = s.leaf_idx)
    (h1 : t.m_t = Function.update s.m_t s.leaf_idx true) (h2 : t.leaf_idx = s.leaf_idx + 1)
    (h3 : t.m_str = s.m_str ++ [c.rule])
    (h4 : t.m_wt = s.m_wt) (h5 : t.wt_idx = s.wt_idx) (h6 : t.pi_idx = s.pi_idx)
    (h7 : t.focc_idx = s.focc_idx + 1) : leaf_books (old ++ [c]) t := by
  have hlt := leaf_slot_lt old s hs
  obtain ⟨a1, a2, a3, a4, a5, a6, a7, a8⟩ := hs
  obtain ⟨l1, l2, l3⟩ := leaves_append old c
  have hn : ¬ 256 ≤ c.rule := by omega
  simp only [hfresh, Bool.false_eq_true, if_false, true_and, hr, if_true, hn] at l1 l2 l3
  refine ⟨?_, ?_, ?_, ?_, ?_, ?_, by omega, ?_⟩
  · rw [l1, h2, List.map_append, a1, List.range_succ, List.map_singleton, hslot]
  · intro d hd hdf
    rw [List.mem_append, List.mem_singleton] at hd
    rcases hd with hd | rfl
    · have := hlt d hd hdf
      rw [h1, Function.update_noteq (by omega)]
      exact a2 d hd hdf
    · rw [h1, hslot, Function.update_same]
      simp [hr]
  · intro j hj
    rw [h1, Function.update_noteq (by omega)]
    exact a3 j (by omega)
  · rw [l2, h3, List.map_append, a4, List.map_singleton]
  · rw [l3, h4, h5, List.append_nil]; exact a5
  · rw [h2, h3, h5, List.length_append, List.length_singleton]; omega
  · intro d hd
    rw [List.mem_append, List.mem_singleton] at hd
    rcases hd with hd | rfl
    · have := a8 d hd; omega
    · omega

/-- The branch of a non-terminal seen before adds a leaf to `wt`. -/
theorem leaf_books_repeated (old : List dfs_call) (c : dfs_call) (s t : dfs_state)
    (hs : leaf_books old s) (hfresh : c.fresh = false) (hr : 256 ≤ c.rule)
    (hslot : c.leaf_slot = s.leaf_idx)
    (h1 : t.m_t = s.m_t) (h2 : t.leaf_idx = s.leaf_idx + 1)
    (h3 : t.m_str = s.m_str)
    (h4 : t.m_wt = Function.update s.m_wt s.wt_idx c.rule) (h5 : t.wt_idx = s.wt_idx + 1)
    (h6 : t.pi_idx = s.pi_idx) (h7 : t.focc_idx = s.focc_idx + 1) :
    leaf_books (old ++ [c]) t := by
  have hlt := leaf_slot_lt old s hs
  obtain ⟨a1, a2, a3, a4, a5, a6, a7, a8⟩ := hs
  obtain ⟨l1, l2, l3⟩ := leaves_append old c
  have hn : ¬ c.rule < 256 := by omega
  simp only [hfresh, Bool.false_eq_true, if_false, true_and, hr, if_true, hn] at l1 l2 l3
  refine ⟨?_, ?_, ?_, ?_, ?_, ?_, by omega, ?_⟩
  · rw [l1, h2, List.map_append, a1, List.range_succ, List.map_singleton, hslot]
  · intro d hd hdf
    rw [List.mem_append, List.mem_singleton] at hd
    rcases hd with hd | rfl
    · rw [h1]; exact a2 d hd hdf
    · rw [h1, hslot, a3 _ (Nat.le_refl _)]
      simp [hn]
  · intro j hj
    rw [h1]; exact a3 j (by omega)
  · rw [l2, h3, List.append_nil]; exact a4
  · rw [l3, h4, h5, List.range_succ, List.map_append, List.map_append, List.map_singleton,
      List.map_singleton, Function.update_same, ← a5]
    congr 1
    apply List.map_congr_left
    intro j hj
    rw [Function.update_noteq (Nat.ne_of_lt (List.mem_range.1 hj))]
  · rw [h2, h3, h5]; omega
  · intro d hd
    rw [List.mem_append, List.mem_singleton] at hd
    rcases hd with hd | rfl
    · have := a8 d hd; omega
    · omega

/-- The first-occurrence branch leaves `l` alone. -/
theorem l_books_open (rel : Nat → Nat) (old : List dfs_call) (c : dfs_call) (s t : dfs_state)
    (hs : l_books rel old s) (hfresh : c.fresh = true)
    (h1 : t.m_l = s.m_l) (h2 : t.l_idx = s.l_idx) : l_books rel (old ++ [c]) t := by
  obtain ⟨a1, a2, a3⟩ := hs
  refine ⟨?_, by rw [h1, h2]; exact a2, ?_⟩
  · intro p
    rw [h1, a1 p]
    constructor
    · rintro ⟨d, hd, hdf, hdp⟩
      exact ⟨d, List.mem_append_left _ hd, hdf, hdp⟩
    · rintro ⟨d, hd, hdf, hdp⟩
      rw [List.mem_append, List.mem_singleton] at hd
      rcases hd with hd | rfl
      · exact ⟨d, hd, hdf, hdp⟩
      · rw [hfresh] at hdf; exact absurd hdf (by decide)
  · intro d hd hdf
    rw [List.mem_append, List.mem_singleton] at hd
    rcases hd with hd | rfl
    · rw [h1, h2]; exact a3 d hd hdf
    · rw [hfresh] at hdf; exact absurd hdf (by decide)

/-- A leaf sets the bit of `l` at `l_idx` and moves `l_idx` by its length. -/
theorem l_books_leaf (rel : Nat → Nat) (old : List dfs_call) (c : dfs_call) (s t : dfs_state)
    (hs : l_books rel old s) (hfresh : c.fresh = false) (hpos : c.l_pos = s.l_idx)
    (h1 : t.m_l = Function.update s.m_l s.l_idx true)
    (h2 : t.l_idx = s.l_idx + leaf_len rel c.rule) : l_books rel (old ++ [c]) t := by
  obtain ⟨a1, a2, a3⟩ := hs
  refine ⟨?_, ?_, ?_⟩
  · intro p
    by_cases hp : p = s.l_idx
    · rw [h1, hp, Function.update_same]
      exact ⟨fun _ => ⟨c, by simp, hfresh, hpos⟩, fun _ => rfl⟩
    · rw [h1, Function.update_noteq hp, a1 p]
      constructor
      · rintro ⟨d, hd, hdf, hdp⟩
        exact ⟨d, List.mem_append_left _ hd, hdf, hdp⟩
      · rintro ⟨d, hd, hdf, hdp⟩
        rw [List.mem_append, List.mem_singleton] at hd
        rcases hd with hd | rfl
        · exact ⟨d, hd, hdf, hdp⟩
        · exact absurd (hdp.symm.trans hpos) hp
  · intro p hp
    rw [h1, Function.update_noteq (by omega)]
    exact a2 p (by omega)
  · intro d hd hdf
    rw [List.mem_append, List.mem_singleton] at hd
    rcases hd with hd | rfl
    · obtain ⟨b1, b2⟩ := a3 d hd hdf
      refine ⟨by omega, ?_⟩
      intro p hp1 hp2
      rw [h1, Function.update_noteq (by omega)]
      exact b2 p hp1 hp2
    · refine ⟨by omega, ?_⟩
      intro p hp1 hp2
      rw [h1, Function.update_noteq (by omega)]
      exact a2 p (by omega)

/-- The terminal branch appends the pending record to the books. -/
theorem books_terminal (xs : Nat) (rp rel : Nat → Nat) (r off : Nat) (s : dfs_state)
    (old : List dfs_call) (c : dfs_call) (hr : r < 256) (hp : pending s r off old c)
    (hb : books xs rp rel 0 old s) : books xs rp rel 1 (old ++ [c]) (visit_terminal r s) := by
  obtain ⟨-, p2, -, p4, p5, p6, p7, p8, p9⟩ := hp
  obtain ⟨b0, b1, b2, b3, b4, b5⟩ := hb
  have hn : ¬ 256 ≤ r := by omega
  have hfresh : c.fresh = false := by rw [p9]; simp [hn]
  have hcr : c.rule < 256 := by rw [p2]; exact hr
  refine ⟨?_, focc_books_log old c s _ b1 p5 (by omega) ?_ rfl,
    mark_books_log xs old c s _ b2 (by rw [p2]; exact p9) ?_,
    bv_books_log rp old c s _ b3 p8 ?_,
    leaf_books_terminal old c s _ b4 hfresh hcr p6 rfl rfl (by rw [p2]; rfl) rfl rfl rfl rfl,
    l_books_leaf rel old c s _ b5 hfresh p7 rfl ?_⟩
  · show s.focc_idx + 1 = s.global_dfs_idx + 1
    omega
  · rw [hfresh]; rfl
  · intro r' hr'
    have hne : r' ≠ c.rule := by omega
    show s.m_inv_pi r' ≠ -1 ↔ _
    simp [hne]
  · rw [hfresh]; rfl
  · simp only [leaf_len, hcr, if_true]; rfl

/-- The branch of a non-terminal seen before appends the pending record to the
books. -/
theorem books_repeated (xs : Nat) (rp rel : Nat → Nat) (r off : Nat) (s : dfs_state)
    (old : List dfs_call) (c : dfs_call) (hr : 256 ≤ r) (hm : s.m_inv_pi r ≠ -1)
    (hp : pending s r off old c) (hb : books xs rp rel 0 old s) :
    books xs rp rel 1 (old ++ [c]) (visit_repeated rel r s) := by
  obtain ⟨-, p2, -, p4, p5, p6, p7, p8, p9⟩ := hp
  obtain ⟨b0, b1, b2, b3, b4, b5⟩ := hb
  have hfresh : c.fresh = false := by rw [p9]; simp [hm]
  have hcr : 256 ≤ c.rule := by rw [p2]; exact hr
  have hn : ¬ c.rule < 256 := by omega
  refine ⟨?_, focc_books_log old c s _ b1 p5 (by omega) ?_ rfl,
    mark_books_log xs old c s _ b2 (by rw [p2]; exact p9) ?_,
    bv_books_log rp old c s _ b3 p8 ?_,
    leaf_books_repeated old c s _ b4 hfresh hcr p6 rfl rfl rfl (by rw [p2]; rfl) rfl rfl rfl,
    l_books_leaf rel old c s _ b5 hfresh p7 rfl ?_⟩
  · show s.focc_idx + 1 = s.global_dfs_idx + 1
    omega
  · rw [hfresh]; rfl
  · intro r' hr'
    show s.m_inv_pi r' ≠ -1 ↔ _
    constructor
    · exact fun h => Or.inl h
    · rintro (h | h)
      · exact h
      · rw [h, p2]; exact hm
  · rw [hfresh]; rfl
  · have hn' : ¬ r < 256 := by omega
    simp only [leaf_len, p2, hn', if_false]; rfl

/-- The first-occurrence branch, up to the loop, appends the pending record to
the books. -/
theorem books_open (xs : Nat) (rp rel : Nat → Nat) (r off : Nat) (s : dfs_state)
    (old : List dfs_call) (c : dfs_call) (hr : 256 ≤ r) (hm : s.m_inv_pi r = -1)
    (hp : pending s r off old c) (hb : books xs rp rel 0 old s) :
    books xs rp rel 1 (old ++ [c]) (open_rule r (rp (r + 1) - rp r) s) := by
  obtain ⟨-, p2, -, p4, p5, p6, p7, p8, p9⟩ := hp
  obtain ⟨b0, b1, b2, b3, b4, b5⟩ := hb
  have hfresh : c.fresh = true := by rw [p9]; simp [hr, hm]
  refine ⟨?_, focc_books_log old c s _ b1 p5 (by omega) ?_ rfl,
    mark_books_log xs old c s _ b2 (by rw [p2]; exact p9) ?_,
    bv_books_log rp old c s _ b3 p8 ?_,
    leaf_books_open old c s _ b4 hfresh p6 rfl rfl rfl rfl rfl rfl rfl,
    l_books_open rel old c s _ b5 hfresh rfl rfl⟩
  · show s.focc_idx + 1 = s.global_dfs_idx + 1
    omega
  · rw [hfresh]; rfl
  · intro r' hr'
    simp only [open_rule]
    by_cases h : r' = r
    · subst h
      rw [Function.update_same]
      constructor
      · exact fun _ => Or.inr p2.symm
      · intro _; omega
    · rw [Function.update_noteq h]
      constructor
      · exact fun h' => Or.inl h'
      · rintro (h' | h')
        · exact h'
        · exact absurd (h'.trans p2) h
  · rw [hfresh, p2]; rfl

/-- The books after `index_basics::dfs` has seeded the vectors. -/
theorem books_seed (g : grammar) (rel : Nat → Nat) :
    books g.m_xs g.rules_pos rel 0 [] (seed_state g) := by
  obtain ⟨c1, c2, c3, c4, c5, c6, c7, c8, c9⟩ := seed_counters g
  have ht : (seed_state g).m_t = fun _ => false := by simp [seed_state, seed_loop_eq]
  have hl : (seed_state g).m_l = fun _ => false := by simp [seed_state, seed_loop_eq]
  have hstr : (seed_state g).m_str = [] := by simp [seed_state, seed_loop_eq]
  refine ⟨by omega, ⟨by omega, ?_, ?_, List.Pairwise.nil⟩, ⟨?_, ?_⟩, ?_, ?_, ?_⟩
  · intro i hi
    rw [seed_focc]; simpa using hi
  · intro c hc; simp at hc
  · intro r hr
    rw [seed_inv_pi]
    have hn : ¬ r < 256 := by omega
    by_cases hx : r = g.m_xs
    · rw [if_neg hn, if_pos hx]
      exact ⟨fun _ => Or.inl hx, fun _ => by omega⟩
    · simp [hn, hx]
  · intro old c rest h
    simp at h
  · intro c hc; simp at hc
  · refine ⟨by rw [c5]; rfl, ?_, ?_, by rw [hstr]; rfl, by rw [c6]; rfl,
      by rw [c5, c6, hstr]; rfl, by omega, ?_⟩
    · intro c hc; simp at hc
    · intro j _; rw [ht]
    · intro c hc; simp at hc
  · refine ⟨?_, ?_, ?_⟩
    · intro p; rw [hl]; simp
    · intro p _; rw [hl]
    · intro c hc; simp at hc

/-- The books are kept by `index_basics::dfs`: they hold of the whole log in
every state it returns. -/
theorem index_dfs_books (g : grammar) (s : dfs_state) (h : index_dfs g = some s) :
    books g.m_xs g.rules_pos (seed_expansion_len g) 0 s.calls s := by
  have hseed : books g.m_xs g.rules_pos (seed_expansion_len g) 0 (seed_state g).calls
      (seed_state g) := by
    rw [(seed_counters g).2.2.2.2.2.2.2.2]
    exact books_seed g _
  refine dfs_root_pending g.rules_derivation g.rules_pos (seed_expansion_len g) g.m_xs
    (books g.m_xs g.rules_pos (seed_expansion_len g) 0)
    (books g.m_xs g.rules_pos (seed_expansion_len g) 1)
    (books g.m_xs g.rules_pos (seed_expansion_len g) 0)
    (fun r off s old c => books_terminal _ _ _ r off s old c)
    (fun r off s old c => books_repeated _ _ _ r off s old c)
    (fun r off s old c => books_open _ _ _ r off s old c)
    ?_ ?_ ?_ ?_ (dfs_fuel g) (seed_state g) s h hseed
  · intro r i lo t ht
    refine books_congr _ _ _ 1 0 _ t _ (child_enter_books _ r _ i lo t) ?_ ht
    have hf := child_enter_fields g.rules_derivation r (g.rules_pos r) i lo t
    rw [hf.2.2.2.2.1, hf.2.2.2.2.2.2.2.2.2.2.2, ht.1]
  · intro r off t ht
    exact books_congr _ _ _ 1 1 _ t _
      ⟨rfl, rfl, rfl, rfl, rfl, rfl, rfl, rfl, rfl, rfl, rfl, rfl, rfl, rfl, rfl⟩ ht.1 ht
  · intro i off t ht
    refine books_congr _ _ _ 0 0 _ t _ (root_enter_books _ _ _ i off t) ?_ ht
    have hf := root_enter_fields g.rules_derivation g.m_xs (g.rules_pos g.m_xs) i off t
    rw [hf.2.2.2.2.1, hf.2.2.2.2.2.2.2.2.2.2.2, ht.1]
  · intro t ht
    refine books_congr _ _ _ 1 0 _ t _
      ⟨rfl, rfl, rfl, rfl, rfl, rfl, rfl, rfl, rfl, rfl, rfl, rfl, rfl, rfl, rfl⟩ ?_ ht
    show t.focc_idx = t.global_dfs_idx + 1 + 0
    rw [ht.1]

/-! ## First occurrences, counters and leaves -/

/-- C17.  On a finite table `index_basics::dfs` returns, and after it: the
seeded slots `0..256` of `focc` are 1; every visited node owns the slot of
`focc` with its DFS index, from 257 on, the slots increasing along the visits;
the slot holds 1 exactly when the call took the first-occurrence branch; and,
for every visit `c` with the visits `old` before it, its slot holds 1 exactly
when `c` is on a non-terminal other than the top rule that no earlier visit is
on, so that the slot is 0 for a terminal and for a non-terminal seen
before. -/
theorem focc_first_visit (g : grammar) (h : tables_in_range g) :
    ∃ s, index_dfs g = some s ∧
      (∀ i, i ≤ 256 → s.m_focc i = true) ∧
      s.calls.Pairwise (fun a b => a.focc_slot < b.focc_slot) ∧
      (∀ c, c ∈ s.calls → 257 ≤ c.focc_slot ∧ c.focc_slot < s.focc_idx ∧
        c.gidx = c.focc_slot ∧ s.m_focc c.focc_slot = c.fresh) ∧
      ∀ old c rest, s.calls = old ++ c :: rest →
        (s.m_focc c.focc_slot = true ↔
          256 ≤ c.rule ∧ c.rule ≠ g.m_xs ∧ ∀ d, d ∈ old → d.rule ≠ c.rule) := by
  obtain ⟨s, hs⟩ := index_dfs_returns g h
  obtain ⟨-, ⟨-, f2, f3, f4⟩, ⟨-, m2⟩, -, -, -⟩ := index_dfs_books g s hs
  refine ⟨s, hs, f2, f4, f3, ?_⟩
  intro old c rest hsplit
  have hc : c ∈ s.calls := by rw [hsplit]; simp
  rw [(f3 c hc).2.2.2]
  exact m2 old c rest hsplit

set_option maxRecDepth 100000 in
/-- Instance of `focc_first_visit` on the grammar of `ababa`
(`257 → 256 256 a`, `256 → a b`): slot 257, the first visit of 256, holds 1 and
slot 260, the second visit of 256, holds 0. -/
theorem focc_first_visit_witness :
    tables_in_range grammar_ababa ∧
    ∃ s, index_dfs grammar_ababa = some s ∧
      (∀ i, i ≤ 256 → s.m_focc i = true) ∧
      (∀ c, c ∈ s.calls → s.m_focc c.focc_slot = c.fresh) ∧
      s.calls.map (fun c => (c.rule, c.focc_slot, c.fresh))
        = [(256, 257, true), (97, 258, false), (98, 259, false), (256, 260, false),
            (97, 261, false)] := by
  have h : tables_in_range grammar_ababa := by unfold tables_in_range; decide
  obtain ⟨s, hs, h1, -, h3, -⟩ := focc_first_visit grammar_ababa h
  have hlog : (index_dfs grammar_ababa).map
      (fun s => s.calls.map (fun c => (c.rule, c.focc_slot, c.fresh)))
      = some [(256, 257, true), (97, 258, false), (98, 259, false), (256, 260, false),
          (97, 261, false)] := by decide
  simp only [hs, Option.map_some', Option.some.injEq] at hlog
  exact ⟨h, s, hs, h1, fun c hc => (h3 c hc).2.2.2, hlog⟩

/-- C19.  On a well-formed grammar `index_basics::dfs` returns with
`m_bv_idx = |bv_dfuds|`, `focc_idx = |focc|` and `leaf_idx = |t|`, the number
of leaves, `total_rules` being at most `G + 1`; and for every visited node,
with the values the counters have when its call is made: the slot `focc_idx`
of `focc` it writes is below `|focc|`, the highest position of `bv_dfuds` it
writes (`m_bv_idx`, or `m_bv_idx` plus the number of children for a first
occurrence) is below `|bv_dfuds|`, `leaf_idx` is at most `|t|`, and the slot
`leaf_idx` of a leaf is below `|t|`. -/
theorem dfs_counters_in_range (g : grammar) (hwf : well_formed g) :
    ∃ s, index_dfs g = some s ∧
      s.m_bv_idx = bv_dfuds_size g ∧ s.focc_idx = focc_size g ∧ s.leaf_idx = t_size g ∧
      g.total_rules ≤ g.m_grammar_size + 1 ∧
      ∀ c, c ∈ s.calls →
        c.focc_slot < focc_size g ∧
        c.bv_pos + (if c.fresh = true then arity g.rules_pos c.rule else 0) < bv_dfuds_size g ∧
        c.leaf_slot ≤ t_size g ∧
        (c.fresh = false → c.leaf_slot < t_size g) := by
  obtain ⟨s, hs, hpi, hfocc, hbv, -⟩ := final_counters g hwf
  have hb := index_dfs_books g s hs
  obtain ⟨-, ⟨-, -, f3, -⟩, -, b3, l4, -⟩ := hb
  have hleaf : s.leaf_idx + s.pi_idx = s.focc_idx := l4.2.2.2.2.2.2.1
  have hbs : bv_dfuds_size g = 2 * g.m_grammar_size + 4 := by
    simp only [bv_dfuds_size]; omega
  refine ⟨s, hs, by rw [hbs]; exact hbv, hfocc, by simp only [t_size]; omega, by omega, ?_⟩
  intro c hc
  refine ⟨?_, ?_, ?_, ?_⟩
  · have := (f3 c hc).2.1
    simp only [focc_size]; omega
  · have := b3 c hc
    rw [hbs]; omega
  · have := l4.2.2.2.2.2.2.2 c hc
    simp only [t_size]; omega
  · intro hf
    have := leaf_slot_lt s.calls s l4 c hc hf
    simp only [t_size]; omega

/-- Instance of `dfs_counters_in_range` on the grammar of `ababa`
(`G = 261`, `total_rules = 258`): the DFS ends with `m_bv_idx = 526`,
`focc_idx = 262` and `leaf_idx = 4`. -/
theorem dfs_counters_in_range_witness :
    well_formed grammar_ababa ∧
    ∃ s, index_dfs grammar_ababa = some s ∧
      s.m_bv_idx = 526 ∧ s.focc_idx = 262 ∧ s.leaf_idx = 4 := by
  obtain ⟨s, hs, h1, h2, h3, -, -⟩ := dfs_counters_in_range grammar_ababa well_formed_ababa
  exact ⟨well_formed_ababa, s, hs, by rw [h1]; decide, by rw [h2]; decide, by rw [h3]; decide⟩

/-- C20.  On a finite table `index_basics::dfs` returns, and after it: the
leaves of the DFS (the visits that took the terminal branch or the branch of a
non-terminal seen before) own the slots `0 .. leaf_idx - 1` in DFS order;
`t[j]` is 1 exactly when the leaf of slot `j` is a terminal; `str` is the
sequence of the terminal leaves and `wt[0 .. wt_idx)` the sequence of the
repeated non-terminals, all at least 256, in DFS order; and
`leaf_idx = |str| + wt_idx`, an equation that holds after seeding and is kept
by every step of the DFS. -/
theorem leaves_partitioned (g : grammar) (h : tables_in_range g) :
    ∃ s, index_dfs g = some s ∧
      (leaves s.calls).map (fun c => c.leaf_slot) = List.range s.leaf_idx ∧
      (∀ c, c ∈ leaves s.calls → (s.m_t c.leaf_slot = true ↔ c.rule < 256)) ∧
      s.m_str = (terminal_leaves s.calls).map (fun c => c.rule) ∧
      (List.range s.wt_idx).map s.m_wt = (repeated_leaves s.calls).map (fun c => c.rule) ∧
      (∀ c, c ∈ repeated_leaves s.calls → 256 ≤ c.rule) ∧
      leaf_count_ok s ∧ leaf_count_ok (seed_state g) ∧
      (∀ r t, leaf_count_ok t → leaf_count_ok (visit_terminal r t)) ∧
      (∀ r t, leaf_count_ok t → leaf_count_ok (visit_repeated (seed_expansion_len g) r t)) ∧
      (∀ r len t, leaf_count_ok t → leaf_count_ok (open_rule r len t)) ∧
      (∀ r pos i lo t, leaf_count_ok t →
        leaf_count_ok (child_enter g.rules_derivation r pos i lo t)) ∧
      (∀ r off t, leaf_count_ok t → leaf_count_ok (close_rule r off t)) ∧
      (∀ r pos i off t, leaf_count_ok t →
        leaf_count_ok (root_enter g.rules_derivation r pos i off t)) ∧
      (∀ t, leaf_count_ok t → leaf_count_ok (root_leave t)) := by
  obtain ⟨s, hs⟩ := index_dfs_returns g h
  obtain ⟨-, -, -, -, ⟨l1, l2, -, l4, l5, l6, -, -⟩, -⟩ := index_dfs_books g s hs
  refine ⟨s, hs, l1, ?_, l4, l5, ?_, l6, ?_, ?_, ?_, ?_, ?_, ?_, ?_, ?_⟩
  · intro c hc
    simp only [leaves, List.mem_filter, Bool.not_eq_true', ] at hc
    rw [l2 c hc.1 hc.2]
    simp
  · intro c hc
    simp only [repeated_leaves, List.mem_filter, Bool.and_eq_true, decide_eq_true_eq] at hc
    exact hc.2.2
  · exact (books_seed g (seed_expansion_len g)).2.2.2.2.1.2.2.2.2.2.1
  · intro r t ht
    simp only [leaf_count_ok, visit_terminal, List.length_append, List.length_singleton] at ht ⊢
    omega
  · intro r t ht
    simp only [leaf_count_ok, visit_repeated] at ht ⊢
    omega
  · intro r len t ht; exact ht
  · intro r pos i lo t ht
    obtain ⟨-, -, -, -, -, -, -, e8, -, -, -, -, e13, e14, -⟩ :=
      child_enter_books g.rules_derivation r pos i lo t
    simp only [leaf_count_ok, e8, e13, e14] at ht ⊢
    exact ht
  · intro r off t ht; exact ht
  · intro r pos i off t ht
    obtain ⟨-, -, -, -, -, -, -, e8, -, -, -, -, e13, e14, -⟩ :=
      root_enter_books g.rules_derivation r pos i off t
    simp only [leaf_count_ok, e8, e13, e14] at ht ⊢
    exact ht
  · intro t ht; exact ht

set_option maxRecDepth 100000 in
/-- Instance of `leaves_partitioned` on the grammar of `ababa`
(`257 → 256 256 a`, `256 → a b`): the leaves are `a`, `b`, the second `256`
and `a`; `t = 1 1 0 1`, `str = a b a` and `wt = 256`. -/
theorem leaves_partitioned_witness :
    tables_in_range grammar_ababa ∧
    ∃ s, index_dfs grammar_ababa = some s ∧
      (leaves s.calls).map (fun c => c.leaf_slot) = List.range s.leaf_idx ∧
      s.m_str = (terminal_leaves s.calls).map (fun c => c.rule) ∧
      (List.range s.wt_idx).map s.m_wt = (repeated_leaves s.calls).map (fun c => c.rule) ∧
      s.m_str = [97, 98, 97] ∧ s.wt_idx = 1 ∧ s.m_wt 0 = 256 ∧ s.leaf_idx = 4 ∧
      (List.range 4).map s.m_t = [true, true, false, true] := by
  have h : tables_in_range grammar_ababa := by unfold tables_in_range; decide
  obtain ⟨s, hs, h1, -, h3, h4, -⟩ := leaves_partitioned grammar_ababa h
  have hval : (index_dfs grammar_ababa).map
      (fun s => (s.m_str, s.wt_idx, s.m_wt 0, s.leaf_idx, (List.range 4).map s.m_t))
      = some ([97, 98, 97], 1, 256, 4, [true, true, false, true]) := by decide
  simp only [hs, Option.map_some', Option.some.injEq, Prod.mk.injEq] at hval
  exact ⟨h, s, hs, h1, h3, h4, hval.1, hval.2.1, hval.2.2.1, hval.2.2.2.1, hval.2.2.2.2⟩

/-! ## The bits of `l` -/

/-- The contract of `dfs(r, off)` for `l_idx`, on a finite table with
consistent lengths: a call made with `l_idx = off` on a symbol that stands at
offset `off` returns with `l_idx = off + len[r]`, and every call it logs was
made with `l_idx` at its offset. -/
theorem dfs_node_tracks (g : grammar) (hin : tables_in_range g) (len : Nat → Nat)
    (hlen : lengths_consistent g len) :
    ∀ fuel r off s s', dfs_node g.rules_derivation g.rules_pos len fuel r off s = some s' →
      r < g.total_rules → occurs_at g len r off → s.l_idx = off →
      offsets_tracked g len s.calls →
      s'.l_idx = off + len r ∧ offsets_tracked g len s'.calls := by
  apply dfs_node_induct g.rules_derivation g.rules_pos len
    (fun r off s s' => r < g.total_rules → occurs_at g len r off → s.l_idx = off →
      offsets_tracked g len s.calls →
      s'.l_idx = off + len r ∧ offsets_tracked g len s'.calls)
  · intro r off s hr _ _ hl ht
    refine ⟨?_, ht⟩
    show s.l_idx + 1 = off + len r
    rw [hlen.1 r hr, hl]
  · intro r off s hr hm _ _ hl ht
    refine ⟨?_, ht⟩
    show s.l_idx + len r = off + len r
    rw [hl]
  · intro visit r off s st hr hm hv hst hrn hocc hl ht
    have hJ := for_range_opt_inv (g.rules_pos r) _
      (fun k a => a.1.l_idx = a.2 ∧ a.2 = off + prefix_len g len r k ∧
        offsets_tracked g len a.1.calls)
      _ _ st ⟨hl, by simp [prefix_len], ht⟩ ?_ hst
    · obtain ⟨j1, j2, j3⟩ := hJ
      refine ⟨?_, j3⟩
      show st.1.l_idx = _
      rw [j1, j2]
      have := prefix_len_full g len hlen r hr hrn
      simp only [arity] at this
      rw [this]
    · intro k a b hk hJa hb
      obtain ⟨j1, j2, j3⟩ := hJa
      simp only [child_step, Option.map_eq_some'] at hb
      obtain ⟨s2, hs2, hb⟩ := hb
      rw [← hb]
      obtain ⟨c', hc'⟩ := child_enter_pending g.rules_derivation r (g.rules_pos r)
        (g.rules_pos r + k) a.2 a.1
      have hsame := child_enter_books g.rules_derivation r (g.rules_pos r)
        (g.rules_pos r + k) a.2 a.1
      have hle : (child_enter g.rules_derivation r (g.rules_pos r) (g.rules_pos r + k)
          a.2 a.1).l_idx = a.2 := by
        rw [hsame.2.2.2.2.2.2.2.2.2.2.2.2.2.2, j1]
      have hxn := hin.2 r hrn k hk
      have hocc' : occurs_at g len (g.rules_derivation (g.rules_pos r + k)) a.2 := by
        rw [j2]; exact occurs_at.child r off k hocc hr hk
      have ht' : offsets_tracked g len (child_enter g.rules_derivation r (g.rules_pos r)
          (g.rules_pos r + k) a.2 a.1).calls := by
        rw [hc'.1]
        intro c hc
        rw [List.mem_append, List.mem_singleton] at hc
        rcases hc with hc | rfl
        · exact j3 c hc
        · obtain ⟨-, q2, q3, -, -, -, q7, -, -⟩ := hc'
          refine ⟨by rw [q7, hle, q3], ?_⟩
          rw [q2, q3]; exact hocc'
      obtain ⟨r1, r2⟩ := hv _ _ _ _ hs2 hxn hocc' hle ht'
      refine ⟨r1, ?_, r2⟩
      show a.2 + len (g.rules_derivation (g.rules_pos r + k)) = _
      rw [j2, prefix_len_succ]
      omega

/-- The contract of the root loop for `l_idx`: started from the seeded state
it ends with `l_idx` at the expansion length of the top rule, and every logged
call was made with `l_idx` at its offset. -/
theorem dfs_root_tracks (g : grammar) (hin : tables_in_range g) (hxs : 256 ≤ g.m_xs)
    (len : Nat → Nat) (hlen : lengths_consistent g len) (fuel : Nat) (s : dfs_state)
    (h : dfs_root g.rules_derivation g.rules_pos len g.m_xs fuel (seed_state g) = some s) :
    s.l_idx = len g.m_xs ∧ offsets_tracked g len s.calls := by
  simp only [dfs_root, Option.map_eq_some'] at h
  obtain ⟨st, hst, hs'⟩ := h
  rw [← hs']
  have hJ := for_range_opt_inv (g.rules_pos g.m_xs) _
    (fun k a => a.1.l_idx = a.2 ∧ a.2 = 0 + prefix_len g len g.m_xs k ∧
      offsets_tracked g len a.1.calls)
    _ _ st ⟨(seed_counters g).2.2.2.2.2.2.1, by simp [prefix_len], ?_⟩ ?_ hst
  · obtain ⟨j1, j2, j3⟩ := hJ
    refine ⟨?_, j3⟩
    rw [j1, j2]
    have := prefix_len_full g len hlen g.m_xs hxs hin.1
    simp only [arity] at this
    rw [this, Nat.zero_add]
  · intro c hc
    rw [(seed_counters g).2.2.2.2.2.2.2.2] at hc
    simp at hc
  · intro k a b hk hJa hb
    obtain ⟨j1, j2, j3⟩ := hJa
    simp only [root_step, Option.map_eq_some'] at hb
    obtain ⟨s2, hs2, hb⟩ := hb
    rw [← hb]
    obtain ⟨c', hc'⟩ := root_enter_pending g.rules_derivation g.m_xs (g.rules_pos g.m_xs)
      (g.rules_pos g.m_xs + k) a.2 a.1
    have hsame := root_enter_books g.rules_derivation g.m_xs (g.rules_pos g.m_xs)
      (g.rules_pos g.m_xs + k) a.2 a.1
    have hle : (root_enter g.rules_derivation g.m_xs (g.rules_pos g.m_xs)
        (g.rules_pos g.m_xs + k) a.2 a.1).l_idx = a.2 := by
      rw [hsame.2.2.2.2.2.2.2.2.2.2.2.2.2.2, j1]
    have hxn := hin.2 g.m_xs hin.1 k hk
    have hocc' : occurs_at g len (g.rules_derivation (g.rules_pos g.m_xs + k)) a.2 := by
      rw [j2]; exact occurs_at.child g.m_xs 0 k occurs_at.root hxs hk
    have ht' : offsets_tracked g len (root_enter g.rules_derivation g.m_xs
        (g.rules_pos g.m_xs) (g.rules_pos g.m_xs + k) a.2 a.1).calls := by
      rw [hc'.1]
      intro c hc
      rw [List.mem_append, List.mem_singleton] at hc
      rcases hc with hc | rfl
      · exact j3 c hc
      · obtain ⟨-, q2, q3, -, -, -, q7, -, -⟩ := hc'
        refine ⟨by rw [q7, hle, q3], ?_⟩
        rw [q2, q3]; exact hocc'
    obtain ⟨r1, r2⟩ := dfs_node_tracks g hin len hlen fuel _ _ _ _ hs2 hxn hocc' hle ht'
    refine ⟨r1, ?_, r2⟩
    show a.2 + len (g.rules_derivation (g.rules_pos g.m_xs + k)) = _
    rw [j2, prefix_len_succ]
    omega

/-- C12.  On a level-ordered finite table with a non-terminal top rule (where
the expansion lengths are consistent with the grammar), `l` starting all zero,
`index_basics::dfs` returns with `l_idx` at the expansion length of the top
rule, the length of the text, and after it: `l[p]` is 1 exactly for the
offsets `p` at which a leaf of the DFS (a terminal, or a non-terminal seen
before) begins; every leaf stands at its offset in the derivation tree of the
text and ends inside the text; and `l[p]` is 0 for every position strictly
inside the expansion of a leaf. -/
theorem l_marks_leaf_offsets (g : grammar) (hin : tables_in_range g)
    (hxs : 256 ≤ g.m_xs) (hlev : level_ordered g) :
    ∃ s, index_dfs g = some s ∧
      (∀ p, (seed_state g).m_l p = false) ∧
      s.l_idx = seed_expansion_len g g.m_xs ∧
      s.l_idx = (full_expansion g g.m_xs).length ∧
      (∀ p, s.m_l p = true ↔ ∃ c, c ∈ leaves s.calls ∧ c.offset = p) ∧
      ∀ c, c ∈ leaves s.calls →
        occurs_at g (seed_expansion_len g) c.rule c.offset ∧
        c.offset + seed_expansion_len g c.rule ≤ s.l_idx ∧
        ∀ p, c.offset < p → p < c.offset + seed_expansion_len g c.rule → s.m_l p = false := by
  obtain ⟨s, hs⟩ := index_dfs_returns g hin
  have hlen : lengths_consistent g (seed_expansion_len g) := by
    rw [seed_expansion_len_eq g hlev]; exact expansion_len_loop_consistent g hlev
  obtain ⟨t1, t2⟩ := dfs_root_tracks g hin hxs _ hlen (dfs_fuel g) s hs
  obtain ⟨-, -, -, -, -, k1, -, k3⟩ := index_dfs_books g s hs
  have hll : ∀ r, leaf_len (seed_expansion_len g) r = seed_expansion_len g r := by
    intro r
    simp only [leaf_len]
    split_ifs with hr
    · exact (hlen.1 r hr).symm
    · rfl
  have hseed : ∀ p, (seed_state g).m_l p = false := by
    intro p; simp [seed_state, seed_loop_eq]
  refine ⟨s, hs, hseed, t1, ?_, ?_, ?_⟩
  · rw [t1, expansion_length g hlev _ hlen g.m_xs hin.1]
  · intro p
    rw [k1 p]
    constructor
    · rintro ⟨c, hc, hcf, hcp⟩
      refine ⟨c, by simp [leaves, hc, hcf], ?_⟩
      rw [← (t2 c hc).1]; exact hcp
    · rintro ⟨c, hc, hcp⟩
      simp only [leaves, List.mem_filter, Bool.not_eq_true'] at hc
      exact ⟨c, hc.1, hc.2, by rw [(t2 c hc.1).1]; exact hcp⟩
  · intro c hc
    simp only [leaves, List.mem_filter, Bool.not_eq_true'] at hc
    obtain ⟨b1, b2⟩ := k3 c hc.1 hc.2
    rw [hll, (t2 c hc.1).1] at b1 b2
    exact ⟨(t2 c hc.1).2, b1, b2⟩

set_option maxRecDepth 100000 in
/-- Instance of `l_marks_leaf_offsets` on the grammar of `ababa`
(`257 → 256 256 a`, `256 → a b`): the leaves begin at the offsets 0, 1, 2 and
4, and `l = 1 1 1 0 1`, the bit of position 3 lying inside the second
occurrence of `256`. -/
theorem l_marks_leaf_offsets_witness :
    tables_in_range grammar_ababa ∧ 256 ≤ grammar_ababa.m_xs ∧ level_ordered grammar_ababa ∧
    ∃ s, index_dfs grammar_ababa = some s ∧
      s.l_idx = 5 ∧
      (∀ p, s.m_l p = true ↔ ∃ c, c ∈ leaves s.calls ∧ c.offset = p) ∧
      (List.range 5).map s.m_l = [true, true, true, false, true] := by
  have h : tables_in_range grammar_ababa := by unfold tables_in_range; decide
  have hxs : 256 ≤ grammar_ababa.m_xs := by decide
  obtain ⟨s, hs, -, h1, -, h3, -⟩ :=
    l_marks_leaf_offsets grammar_ababa h hxs level_ordered_ababa
  have hval : (index_dfs grammar_ababa).map (fun s => (s.l_idx, (List.range 5).map s.m_l))
      = some (5, [true, true, true, false, true]) := by decide
  simp only [hs, Option.map_some', Option.some.injEq, Prod.mk.injEq] at hval
  exact ⟨h, hxs, level_ordered_ababa, s, hs, hval.1, h3, hval.2⟩

/-! ## Termination and the number of calls -/

/-- The rules that received a slot of `pi` during the DFS are non-terminals of
the table other than the top rule, each in one slot only. -/
theorem pi_slots_subset (g : grammar) (hin : tables_in_range g) (hxs : 256 ≤ g.m_xs)
    (s : dfs_state) (hs : index_dfs g = some s) :
    Set.InjOn s.m_pi (Finset.Ico 257 s.pi_idx : Finset Nat) ∧
    (Finset.Ico 257 s.pi_idx).image s.m_pi ⊆ (Finset.Ico 256 g.total_rules).erase g.m_xs := by
  obtain ⟨s', hs', hinv, -, hrange, hext, -⟩ := slots_full_invariant g hin hxs
  have hss : s' = s := by
    rw [hs] at hs'; exact (Option.some.inj hs').symm
  subst hss
  have hidx : (seed_state g).pi_idx = 257 := (seed_counters g).1
  rw [pi_extends, hidx] at hext
  have hpi0 : s'.m_pi 0 = g.m_xs := by
    rw [hext.2 0 (by omega), seed_pi]; simp
  have hpit : ∀ c, c < 256 → s'.m_pi (c + 1) = c := by
    intro c hc
    rw [hext.2 (c + 1) (by omega), seed_pi]
    have : 0 < c + 1 ∧ c + 1 ≤ 256 := by omega
    simp [this]
  have hle : 257 ≤ s'.pi_idx := hext.1
  have hinj : ∀ i j, i < s'.pi_idx → j < s'.pi_idx → s'.m_pi i = s'.m_pi j → i = j := by
    intro i j hi hj hij
    have h1 := hinv.2 i hi
    have h2 := hinv.2 j hj
    rw [hij, h2] at h1
    exact_mod_cast h1.symm
  refine ⟨?_, ?_⟩
  · intro i hi j hj hij
    simp only [Finset.coe_Ico, Set.mem_Ico] at hi hj
    exact hinj i j hi.2 hj.2 hij
  · intro x hx
    simp only [Finset.mem_image, Finset.mem_Ico] at hx
    obtain ⟨i, ⟨hi1, hi2⟩, rfl⟩ := hx
    simp only [Finset.mem_erase, Finset.mem_Ico]
    refine ⟨?_, ?_, hrange i hi2⟩
    · intro hc
      have := hinj i 0 hi2 (by omega) (by rw [hc, hpi0])
      omega
    · by_contra hc
      have hlt : s'.m_pi i < 256 := by omega
      have := hinj i (s'.m_pi i + 1) hi2 (by omega) (by rw [hpit _ hlt])
      omega

/-- C23.  On every finite rule table, also one in which a non-terminal occurs
in its own derivation, `index_basics::dfs` with its seeding returns (the
recursion is never deeper than `total_rules + 1` calls).  The first-occurrence
branch marks its rule in `inv_pi` before the loop over the right-hand side; no
visit that takes this branch is on the rule of an earlier visit, so every
non-terminal is expanded at most once; and, the top rule being a
non-terminal, the number of calls of `dfs(rule_idx, offset)` is at most the
arity of the top rule plus the sum of the arities of the other
non-terminals. -/
theorem dfs_terminates_bounded (g : grammar) (hin : tables_in_range g) :
    ∃ s, index_dfs g = some s ∧
      (∀ r len t, marked (open_rule r len t) r) ∧
      (∀ old c rest, s.calls = old ++ c :: rest → c.fresh = true →
        256 ≤ c.rule ∧ ∀ d, d ∈ old → d.rule ≠ c.rule) ∧
      (256 ≤ g.m_xs →
        s.calls.length ≤ arity g.rules_pos g.m_xs +
          ∑ r in (Finset.Ico 256 g.total_rules).erase g.m_xs, arity g.rules_pos r) := by
  obtain ⟨s, hs⟩ := index_dfs_returns g hin
  obtain ⟨-, -, ⟨-, m2⟩, -, -, -⟩ := index_dfs_books g s hs
  refine ⟨s, hs, ?_, ?_, ?_⟩
  · intro r len t
    simp only [marked, open_rule, Function.update_same]
    omega
  · intro old c rest hsplit hf
    obtain ⟨a1, -, a3⟩ := (m2 old c rest hsplit).1 hf
    exact ⟨a1, a3⟩
  · intro hxs
    obtain ⟨hinj, hsub⟩ := pi_slots_subset g hin hxs s hs
    have hsum : slot_arity_sum g.rules_pos s.m_pi 257 s.pi_idx ≤
        ∑ r in (Finset.Ico 256 g.total_rules).erase g.m_xs, arity g.rules_pos r := by
      have h1 : slot_arity_sum g.rules_pos s.m_pi 257 s.pi_idx =
          ∑ r in (Finset.Ico 257 s.pi_idx).image s.m_pi, arity g.rules_pos r := by
        rw [Finset.sum_image (fun i hi j hj hij => hinj hi hj hij)]
        rfl
      rw [h1]
      exact Finset.sum_le_sum_of_subset hsub
    obtain ⟨-, -, -, cg⟩ := dfs_root_counts _ _ _ _ _ _ _ hs
    have hlen := dfs_root_calls_length _ _ _ _ _ _ _ hs
    rw [(seed_counters g).1, (seed_counters g).2.2.2.1] at cg
    rw [(seed_counters g).2.2.2.1, (seed_counters g).2.2.2.2.2.2.2.2] at hlen
    simp only [List.length_nil] at hlen
    omega

set_option maxRecDepth 100000 in
/-- Instance of `dfs_terminates_bounded` on the table `256 → 256 a`,
`257 → 256 b`, where 256 occurs in its own right-hand side: the DFS returns
after the four calls on `256`, `256`, `a` and `b`, of which the first alone
takes the first-occurrence branch; the bound is `2 + 2`. -/
theorem dfs_terminates_bounded_witness :
    tables_in_range grammar_cyclic ∧
    grammar_cyclic.rules_derivation (grammar_cyclic.rules_pos 256 + 0) = 256 ∧
    ∃ s, index_dfs grammar_cyclic = some s ∧
      s.calls.map (fun c => (c.rule, c.fresh))
        = [(256, true), (256, false), (97, false), (98, false)] ∧
      s.calls.length ≤ arity grammar_cyclic.rules_pos grammar_cyclic.m_xs +
        ∑ r in (Finset.Ico 256 grammar_cyclic.total_rules).erase grammar_cyclic.m_xs,
          arity grammar_cyclic.rules_pos r := by
  have h : tables_in_range grammar_cyclic := by unfold tables_in_range; decide
  obtain ⟨s, hs, -, -, hb⟩ := dfs_terminates_bounded grammar_cyclic h
  have hlog : (index_dfs grammar_cyclic).map (fun s => s.calls.map (fun c => (c.rule, c.fresh)))
      = some [(256, true), (256, false), (97, false), (98, false)] := by decide
  simp only [hs, Option.map_some', Option.some.injEq] at hlog
  exact ⟨h, by decide, s, hs, hlog, hb (by decide)⟩

/-! ## The indices of `suffixes_expansion_pos` and `prev_rule` -/

/-- A strictly increasing list of numbers from `a` on reaches
`a + length - 1`. -/
theorem increasing_reaches : ∀ (l : List Nat) (a : Nat), l.Pairwise (fun x y => x < y) →
    (∀ x, x ∈ l → a ≤ x) → l ≠ [] → ∃ x, x ∈ l ∧ a + l.length ≤ x + 1 := by
  intro l
  induction l with
  | nil => intro a _ _ h; exact absurd rfl h
  | cons x t ih =>
    intro a hp hlo _
    by_cases ht : t = []
    · subst ht
      exact ⟨x, by simp, by have := hlo x (by simp); simp; omega⟩
    · rw [List.pairwise_cons] at hp
      obtain ⟨y, hy, hlen⟩ := ih (x + 1) hp.2 (fun y hy => hp.1 y hy) ht
      refine ⟨y, List.mem_cons_of_mem _ hy, ?_⟩
      have := hlo x (by simp)
      simp only [List.length_cons]
      omega

/-- On a well-formed grammar the DFS indices of the visited nodes are
`257, …, G`: none is above `G`, and as soon as a node is visited one of them is
`G`. -/
theorem dfs_indices_reach_size (g : grammar) (hwf : well_formed g) :
    ∃ s, index_dfs g = some s ∧
      s.calls.length + 256 = g.m_grammar_size ∧
      (∀ c, c ∈ s.calls → 257 ≤ c.gidx ∧ c.gidx ≤ suffixes_size g) ∧
      (s.calls ≠ [] → ∃ c, c ∈ s.calls ∧ c.gidx = suffixes_size g) := by
  obtain ⟨s, hs, -, hfocc, -, hg⟩ := final_counters g hwf
  obtain ⟨-, ⟨-, -, f3, f4⟩, -, -, -, -⟩ := index_dfs_books g s hs
  have hlen := dfs_root_calls_length _ _ _ _ _ _ _ hs
  rw [(seed_counters g).2.2.2.1, (seed_counters g).2.2.2.2.2.2.2.2, hg] at hlen
  simp only [List.length_nil] at hlen
  have hb : ∀ c, c ∈ s.calls → 257 ≤ c.gidx ∧ c.gidx ≤ suffixes_size g := by
    intro c hc
    obtain ⟨a1, a2, a3, -⟩ := f3 c hc
    simp only [suffixes_size]
    omega
  refine ⟨s, hs, by omega, hb, ?_⟩
  intro hne
  have hp : (s.calls.map (fun c => c.gidx)).Pairwise (fun x y => x < y) := by
    rw [List.pairwise_map]
    refine f4.imp_of_mem ?_
    intro a b ha hb' hab
    rw [(f3 a ha).2.2.1, (f3 b hb').2.2.1]
    exact hab
  obtain ⟨x, hx, hxl⟩ := increasing_reaches (s.calls.map (fun c => c.gidx)) 257 hp
    (by
      intro x hx
      obtain ⟨c, hc, rfl⟩ := List.mem_map.1 hx
      exact (hb c hc).1)
    (by simpa using hne)
  obtain ⟨c, hc, rfl⟩ := List.mem_map.1 hx
  refine ⟨c, hc, ?_⟩
  have := (hb c hc).2
  simp only [List.length_map, suffixes_size] at hxl this ⊢
  omega

set_option maxRecDepth 100000 in
/-- C21, evaluated on the well-formed grammar of `ababa` (`256 → a b`,
`257 → 256 256 a`, `G = 261`), on which the DFS fills `focc` exactly and visits
`G - 256 = 5` nodes: the last node, the third child `a` of the root, has DFS
index 261, and the root loop stores its offset 4 in
`suffixes_expansion_pos[261]` and its previous sibling 256 in
`prev_rule[261]`, both vectors being allocated with 261 entries. -/
theorem last_dfs_index_out_of_range :
    well_formed grammar_ababa ∧
    suffixes_size grammar_ababa = 261 ∧
    (seed_state grammar_ababa).suffixes_expansion_pos 261 = 0 ∧
    (seed_state grammar_ababa).m_prev_rule 261 = 0 ∧
    ∃ s, index_dfs grammar_ababa = some s ∧
      s.focc_idx = focc_size grammar_ababa ∧
      s.calls.length = grammar_ababa.m_grammar_size - 256 ∧
      s.suffixes_expansion_pos 261 = 4 ∧ s.m_prev_rule 261 = 256 ∧
      ∃ c, c ∈ s.calls ∧ c.parent = 257 ∧ c.child = 2 ∧ c.rule = 97 ∧ c.offset = 4 ∧
        c.gidx = 261 ∧ ¬ c.gidx < suffixes_size grammar_ababa := by
  have h1 : (index_dfs grammar_ababa).map
      (fun s => s.calls.map (fun c => [c.parent, c.child, c.rule, c.offset, c.gidx]))
      = some [[257, 0, 256, 0, 257], [256, 0, 97, 0, 258], [256, 1, 98, 1, 259],
          [257, 1, 256, 2, 260], [257, 2, 97, 4, 261]] := by decide
  have h2 : (index_dfs grammar_ababa).map
      (fun s => (s.focc_idx, s.suffixes_expansion_pos 261, s.m_prev_rule 261))
      = some (262, 4, 256) := by decide
  have h3 : (seed_state grammar_ababa).suffixes_expansion_pos 261 = 0 := by
    simp [seed_state, seed_loop_eq]
  have h4 : (seed_state grammar_ababa).m_prev_rule 261 = 0 := by
    simp [seed_state, seed_loop_eq]
  cases hs : index_dfs grammar_ababa with
  | none => simp [hs] at h2
  | some s =>
    simp only [hs, Option.map_some', Option.some.injEq, Prod.mk.injEq] at h1 h2
    have hmem : [257, 2, 97, 4, 261] ∈
        s.calls.map (fun c => [c.parent, c.child, c.rule, c.offset, c.gidx]) := by
      rw [h1]; simp
    obtain ⟨c, hc, hval⟩ := List.mem_map.1 hmem
    simp only [List.cons.injEq, and_true] at hval
    obtain ⟨e1, e2, e3, e4, e5⟩ := hval
    have hl : s.calls.length = 5 := by
      have := congrArg List.length h1
      simpa using this
    refine ⟨well_formed_ababa, by decide, h3, h4, s, rfl, by rw [h2.1]; decide,
      by rw [hl]; decide, h2.2.1, h2.2.2, c, hc, e1, e2, e3, e4, e5, ?_⟩
    rw [e5]; decide

/-! ## The counter `l_idx` -/

/-- A symbol that stands in the derivation tree of a finite table is a rule of
the table. -/
theorem occurs_at_in_range (g : grammar) (hin : tables_in_range g) (len : Nat → Nat)
    (r o : Nat) (h : occurs_at g len r o) : r < g.total_rules := by
  induction h with
  | root => exact hin.1
  | child r o k _ _ hk ih => exact hin.2 r ih k hk

/-- The contract of `dfs(r, off)` for `l_idx` alone, on a finite table with
consistent lengths: a call on a rule of the table made with `l_idx = off`
returns with `l_idx = off + len[r]`. -/
theorem dfs_node_l_idx (g : grammar) (hin : tables_in_range g) (len : Nat → Nat)
    (hlen : lengths_consistent g len) :
    ∀ fuel r off s s', dfs_node g.rules_derivation g.rules_pos len fuel r off s = some s' →
      r < g.total_rules → s.l_idx = off → s'.l_idx = off + len r := by
  apply dfs_node_induct g.rules_derivation g.rules_pos len
    (fun r off s s' => r < g.total_rules → s.l_idx = off → s'.l_idx = off + len r)
  · intro r off s hr _ hl
    show s.l_idx + 1 = off + len r
    rw [hlen.1 r hr, hl]
  · intro r off s hr hm _ hl
    show s.l_idx + len r = off + len r
    rw [hl]
  · intro visit r off s st hr hm hv hst hrn hl
    have hJ := for_range_opt_inv (g.rules_pos r) _
      (fun k a => a.1.l_idx = a.2 ∧ a.2 = off + prefix_len g len r k)
      _ _ st ⟨hl, by simp [prefix_len]⟩ ?_ hst
    · obtain ⟨j1, j2⟩ := hJ
      show st.1.l_idx = _
      rw [j1, j2]
      have := prefix_len_full g len hlen r hr hrn
      simp only [arity] at this
      rw [this]
    · intro k a b hk hJa hb
      obtain ⟨j1, j2⟩ := hJa
      simp only [child_step, Option.map_eq_some'] at hb
      obtain ⟨s2, hs2, hb⟩ := hb
      rw [← hb]
      have hsame := child_enter_books g.rules_derivation r (g.rules_pos r)
        (g.rules_pos r + k) a.2 a.1
      have hle : (child_enter g.rules_derivation r (g.rules_pos r) (g.rules_pos r + k)
          a.2 a.1).l_idx = a.2 := by
        rw [hsame.2.2.2.2.2.2.2.2.2.2.2.2.2.2, j1]
      refine ⟨hv _ _ _ _ hs2 (hin.2 r hrn k hk) hle, ?_⟩
      show a.2 + len (g.rules_derivation (g.rules_pos r + k)) = _
      rw [j2, prefix_len_succ]
      omega

/-- On a level-ordered finite table without empty right-hand sides, consistent
lengths are positive. -/
theorem expansion_len_pos (g : grammar) (hin : tables_in_range g) (hlev : level_ordered g)
    (len : Nat → Nat) (hlen : lengths_consistent g len)
    (hne : ∀ r, 256 ≤ r → r < g.total_rules → 0 < arity g.rules_pos r) :
    ∀ r, r < g.total_rules → 0 < len r := by
  intro r
  induction r using Nat.strong_induction_on with
  | _ r ih =>
    intro hr
    by_cases h256 : r < 256
    · rw [hlen.1 r h256]; exact Nat.one_pos
    · have hr256 : 256 ≤ r := by omega
      have ha := hne r hr256 hr
      have hfull := prefix_len_full g len hlen r hr256 hr
      obtain ⟨k, hk⟩ : ∃ k, arity g.rules_pos r = k + 1 := ⟨arity g.rules_pos r - 1, by omega⟩
      rw [hk, prefix_len_succ] at hfull
      have hx := hlev r hr256 hr k (by omega)
      have hxn := hin.2 r hr k (by omega)
      have := ih _ hx hxn
      omega

set_option maxRecDepth 100000 in
/-- The bound on the indices at which `l` is written needs rules with
non-empty right-hand sides.  On the table `256 →` (empty), `257 → a 256 256`
of the text `a`, whose lengths `len[256] = 0`, `len[257] = 1` are consistent,
the second visit of 256 takes the branch of a non-terminal seen before with
`l_idx = 1` and sets `l[1]`, an index that is not smaller than
`rules_expansion_len[xs] = 1`. -/
theorem l_written_at_text_length :
    tables_in_range grammar_empty_rule ∧ level_ordered grammar_empty_rule ∧
    lengths_consistent grammar_empty_rule (seed_expansion_len grammar_empty_rule) ∧
    seed_expansion_len grammar_empty_rule grammar_empty_rule.m_xs = 1 ∧
    (seed_state grammar_empty_rule).m_l 1 = false ∧
    ∃ s, index_dfs grammar_empty_rule = some s ∧ s.l_idx = 1 ∧ s.m_l 1 = true ∧
      ∃ c, c ∈ leaves s.calls ∧ c.rule = 256 ∧ c.offset = 1 ∧ c.l_pos = 1 ∧
        ¬ c.l_pos < seed_expansion_len grammar_empty_rule grammar_empty_rule.m_xs := by
  have hin : tables_in_range grammar_empty_rule := by unfold tables_in_range; decide
  have hlev : level_ordered grammar_empty_rule := by
    intro r h1 h2 k hk
    have hr : r = 256 ∨ r = 257 := by
      have : grammar_empty_rule.total_rules = 258 := rfl
      omega
    rcases hr with rfl | rfl
    · have ha : arity grammar_empty_rule.rules_pos 256 = 0 := by decide
      omega
    · have ha : arity grammar_empty_rule.rules_pos 257 = 3 := by decide
      rw [ha] at hk
      interval_cases k <;> decide
  have hlen : lengths_consistent grammar_empty_rule (seed_expansion_len grammar_empty_rule) := by
    rw [seed_expansion_len_eq _ hlev]; exact expansion_len_loop_consistent _ hlev
  have hx : seed_expansion_len grammar_empty_rule grammar_empty_rule.m_xs = 1 := by decide
  have h0 : (seed_state grammar_empty_rule).m_l 1 = false := by
    simp [seed_state, seed_loop_eq]
  have h1 : (index_dfs grammar_empty_rule).map
      (fun s => (s.calls.map (fun c => [c.rule, c.offset, c.l_pos]),
        s.calls.map (fun c => c.fresh), s.l_idx, s.m_l 1))
      = some ([[97, 0, 0], [256, 1, 1], [256, 1, 1]], [false, true, false], 1, true) := by
    decide
  cases hs : index_dfs grammar_empty_rule with
  | none => simp [hs] at h1
  | some s =>
    simp only [hs, Option.map_some', Option.some.injEq, Prod.mk.injEq] at h1
    obtain ⟨e1, e2, e3, e4⟩ := h1
    have hlen3 : s.calls.length = 3 := by
      have := congrArg List.length e1
      simpa using this
    have hget : ∀ (i : Nat) (hi : i < s.calls.length),
        [(s.calls.get ⟨i, hi⟩).rule, (s.calls.get ⟨i, hi⟩).offset, (s.calls.get ⟨i, hi⟩).l_pos]
          = ([[97, 0, 0], [256, 1, 1], [256, 1, 1]] : List (List Nat)).getD i [] ∧
        (s.calls.get ⟨i, hi⟩).fresh = ([false, true, false] : List Bool).getD i false := by
      intro i hi
      constructor
      · rw [← e1]
        simp [List.getD_eq_getElem?_getD, List.getElem?_map, List.getElem?_eq_getElem hi]
      · rw [← e2]
        simp [List.getD_eq_getElem?_getD, List.getElem?_map, List.getElem?_eq_getElem hi]
    have h2 := hget 2 (by omega)
    simp only [List.getD_cons_succ, List.getD_cons_zero, List.cons.injEq, and_true] at h2
    obtain ⟨⟨q1, q2, q3⟩, q4⟩ := h2
    refine ⟨hin, hlev, hlen, hx, h0, s, rfl, e3, e4, s.calls.get ⟨2, by omega⟩, ?_, q1, q2, q3, ?_⟩
    · simp only [leaves, List.mem_filter, Bool.not_eq_true']
      exact ⟨List.get_mem _ _ _, q4⟩
    · rw [q3, hx]; decide

/-- The counter `l_idx` on a finite table with a non-terminal top rule and
expansion lengths consistent with the grammar, whatever the rules are: a call
`dfs(r, off)` on a rule of the table that starts with `l_idx = off` returns
with `l_idx = off + rules_expansion_len[r]`; every call made during the
traversal is on a rule of the table and starts with `l_idx` at its offset; the
DFS ends with `l_idx = rules_expansion_len[xs]`; `l` is written exactly at the
values of `l_idx` at which a leaf is visited, and such an index `p` satisfies
`p + rules_expansion_len[r] <= rules_expansion_len[xs]` for the symbol `r` of
the leaf: it is smaller than `rules_expansion_len[xs]` when the expansion of
`r` is not empty, as it is for every leaf when the table is level-ordered and
no rule has an empty right-hand side. -/
theorem l_idx_tracks (g : grammar) (hin : tables_in_range g) (hxs : 256 ≤ g.m_xs)
    (hlen : lengths_consistent g (seed_expansion_len g)) :
    (∀ fuel r off s s',
      dfs_node g.rules_derivation g.rules_pos (seed_expansion_len g) fuel r off s = some s' →
      r < g.total_rules → s.l_idx = off → s'.l_idx = off + seed_expansion_len g r) ∧
    ∃ s, index_dfs g = some s ∧
      s.l_idx = seed_expansion_len g g.m_xs ∧
      (∀ c, c ∈ s.calls → c.rule < g.total_rules ∧ c.l_pos = c.offset) ∧
      (∀ p, s.m_l p = true ↔ ∃ c, c ∈ leaves s.calls ∧ c.l_pos = p) ∧
      (∀ c, c ∈ leaves s.calls →
        c.l_pos + seed_expansion_len g c.rule ≤ seed_expansion_len g g.m_xs ∧
        (0 < seed_expansion_len g c.rule → c.l_pos < seed_expansion_len g g.m_xs)) ∧
      (level_ordered g → (∀ r, 256 ≤ r → r < g.total_rules → 0 < arity g.rules_pos r) →
        ∀ c, c ∈ leaves s.calls → c.l_pos < seed_expansion_len g g.m_xs) := by
  obtain ⟨s, hs⟩ := index_dfs_returns g hin
  obtain ⟨t1, t2⟩ := dfs_root_tracks g hin hxs _ hlen (dfs_fuel g) s hs
  obtain ⟨-, -, -, -, -, k1, -, k3⟩ := index_dfs_books g s hs
  have hll : ∀ r, leaf_len (seed_expansion_len g) r = seed_expansion_len g r := by
    intro r
    simp only [leaf_len]
    split_ifs with hr
    · exact (hlen.1 r hr).symm
    · rfl
  have hrange : ∀ c, c ∈ s.calls → c.rule < g.total_rules := fun c hc =>
    occurs_at_in_range g hin _ _ _ (t2 c hc).2
  have hend : ∀ c, c ∈ leaves s.calls →
      c.l_pos + seed_expansion_len g c.rule ≤ seed_expansion_len g g.m_xs := by
    intro c hc
    simp only [leaves, List.mem_filter, Bool.not_eq_true'] at hc
    have := (k3 c hc.1 hc.2).1
    rw [hll, t1] at this
    exact this
  refine ⟨dfs_node_l_idx g hin _ hlen, s, hs, t1, fun c hc => ⟨hrange c hc, (t2 c hc).1⟩,
    ?_, fun c hc => ⟨hend c hc, fun hpos => by have := hend c hc; omega⟩, ?_⟩
  · intro p
    rw [k1 p]
    constructor
    · rintro ⟨c, hc, hcf, hcp⟩
      exact ⟨c, by simp [leaves, hc, hcf], hcp⟩
    · rintro ⟨c, hc, hcp⟩
      simp only [leaves, List.mem_filter, Bool.not_eq_true'] at hc
      exact ⟨c, hc.1, hc.2, hcp⟩
  · intro hlev hne c hc
    have hcm : c ∈ s.calls := by
      simp only [leaves, List.mem_filter] at hc
      exact hc.1
    have hpos := expansion_len_pos g hin hlev _ hlen hne c.rule (hrange c hcm)
    have := hend c hc
    omega

/-- C22.  On a level-ordered finite table with a non-terminal top rule and no
empty right-hand side (where the expansion lengths computed by
`index_basics::dfs` are consistent with the grammar): a call `dfs(r, off)` on
a rule of the table that starts with `l_idx = off` returns with
`l_idx = off + rules_expansion_len[r]`; every call made during the traversal
is on a rule of the table and starts with `l_idx` at its offset argument; the
DFS ends with `l_idx = rules_expansion_len[xs]`; and `l` is written exactly at
the values of `l_idx` at which a leaf is visited, each of them smaller than
`rules_expansion_len[xs]`. -/
theorem l_idx_tracks_offsets (g : grammar) (hin : tables_in_range g) (hxs : 256 ≤ g.m_xs)
    (hlev : level_ordered g)
    (hne : ∀ r, 256 ≤ r → r < g.total_rules → 0 < arity g.rules_pos r) :
    lengths_consistent g (seed_expansion_len g) ∧
    (∀ fuel r off s s',
      dfs_node g.rules_derivation g.rules_pos (seed_expansion_len g) fuel r off s = some s' →
      r < g.total_rules → s.l_idx = off → s'.l_idx = off + seed_expansion_len g r) ∧
    ∃ s, index_dfs g = some s ∧
      s.l_idx = seed_expansion_len g g.m_xs ∧
      (∀ c, c ∈ s.calls → c.rule < g.total_rules ∧ c.l_pos = c.offset) ∧
      (∀ p, s.m_l p = true ↔ ∃ c, c ∈ leaves s.calls ∧ c.l_pos = p) ∧
      (∀ c, c ∈ leaves s.calls → c.l_pos < seed_expansion_len g g.m_xs) ∧
      (∀ p, s.m_l p = true → p < seed_expansion_len g g.m_xs) := by
  have hlen : lengths_consistent g (seed_expansion_len g) := by
    rw [seed_expansion_len_eq g hlev]; exact expansion_len_loop_consistent g hlev
  obtain ⟨h1, s, hs, h2, h3, h4, -, h6⟩ := l_idx_tracks g hin hxs hlen
  refine ⟨hlen, h1, s, hs, h2, h3, h4, h6 hlev hne, ?_⟩
  intro p hp
  obtain ⟨c, hc, hcp⟩ := (h4 p).1 hp
  rw [← hcp]
  exact h6 hlev hne c hc

set_option maxRecDepth 100000 in
/-- Instance of `l_idx_tracks_offsets` on the grammar of `ababa`
(`257 → 256 256 a`, `256 → a b`), level-ordered and without empty rules: the
DFS ends with `l_idx = 5`, and every leaf is visited with `l_idx` below 5. -/
theorem l_idx_tracks_offsets_witness :
    tables_in_range grammar_ababa ∧ 256 ≤ grammar_ababa.m_xs ∧
    level_ordered grammar_ababa ∧
    (∀ r, 256 ≤ r → r < grammar_ababa.total_rules → 0 < arity grammar_ababa.rules_pos r) ∧
    ∃ s, index_dfs grammar_ababa = some s ∧ s.l_idx = 5 ∧
      (∀ c, c ∈ s.calls → c.l_pos = c.offset) ∧
      (∀ c, c ∈ leaves s.calls → c.l_pos < 5) ∧
      s.calls.map (fun c => (c.rule, c.offset, c.l_pos))
        = [(256, 0, 0), (97, 0, 0), (98, 1, 1), (256, 2, 2), (97, 4, 4)] := by
  have hin : tables_in_range grammar_ababa := by unfold tables_in_range; decide
  have hxs : 256 ≤ grammar_ababa.m_xs := by decide
  have hx : seed_expansion_len grammar_ababa grammar_ababa.m_xs = 5 := by decide
  have hne : ∀ r, 256 ≤ r → r < grammar_ababa.total_rules →
      0 < arity grammar_ababa.rules_pos r := by
    intro r h1 h2
    have hr : r = 256 ∨ r = 257 := by
      have : grammar_ababa.total_rules = 258 := rfl
      omega
    rcases hr with rfl | rfl <;> decide
  obtain ⟨-, -, s, hs, h1, h2, -, h5, -⟩ :=
    l_idx_tracks_offsets grammar_ababa hin hxs level_ordered_ababa hne
  have hlog : (index_dfs grammar_ababa).map
      (fun s => s.calls.map (fun c => (c.rule, c.offset, c.l_pos)))
      = some [(256, 0, 0), (97, 0, 0), (98, 1, 1), (256, 2, 2), (97, 4, 4)] := by decide
  simp only [hs, Option.map_some', Option.some.injEq] at hlog
  refine ⟨hin, hxs, level_ordered_ababa, hne, s, hs, by rw [h1, hx],
    fun c hc => (h2 c hc).2, ?_, hlog⟩
  intro c hc
  have := h5 c hc
  rw [hx] at this
  exact this

/-! ## The expansion-length loop with the additions of `uint_t` -/

/-- The inner loop with the additions of `uint_t` computes the remainders
modulo `2^w` of what the inner loop computes in the natural numbers. -/
theorem expansion_len_rule_uint_mod (w : Nat) (rd : Nat → Nat) (i pos : Nat)
    (f f' : Nat → Nat) (h : ∀ x, f x = f' x % 2 ^ w) (n : Nat) :
    ∀ x, expansion_len_rule_uint w rd i pos n f x
      = expansion_len_rule rd i pos n f' x % 2 ^ w := by
  induction n with
  | zero => intro x; exact h x
  | succ k ih =>
    intro x
    simp only [expansion_len_rule_uint, expansion_len_rule, for_range] at ih ⊢
    by_cases hx : x = i
    · subst hx
      rw [Function.update_same, Function.update_same, ih, ih]
      exact (Nat.add_mod _ _ _).symm
    · rw [Function.update_noteq hx, Function.update_noteq hx]
      exact ih x

/-- The expansion-length loop with the additions of `uint_t` computes the
remainders modulo `2^w` of the lengths computed in the natural numbers. -/
theorem expansion_len_loop_uint_mod (w : Nat) (hw : 0 < w) (g : grammar) :
    ∀ x, expansion_len_loop_uint w g x = expansion_len_loop g x % 2 ^ w := by
  have hone : 1 % 2 ^ w = 1 := Nat.mod_eq_of_lt (Nat.one_lt_two_pow (by omega))
  have hupto : ∀ n x, expansion_len_upto_uint w g n x = expansion_len_upto g n x % 2 ^ w := by
    intro n
    induction n with
    | zero =>
      intro x
      simp only [expansion_len_upto_uint, expansion_len_upto, for_range]
      split_ifs
      · exact hone.symm
      · rfl
    | succ k ih =>
      intro x
      exact expansion_len_rule_uint_mod w g.rules_derivation (256 + k) (g.rules_pos (256 + k))
        (expansion_len_upto_uint w g k) (expansion_len_upto g k) ih _ x
  exact hupto _

/-- C8, amended.  Let `uint_t` have `w > 0` bits.  On a grammar whose rules
expand only into lower symbols, the expansion-length loop leaves `1` for every
terminal and, for every non-terminal `r` of the table, the sum of the entries
of the symbols of its right-hand side reduced modulo `2^w`, which is the
number of bytes of the full expansion of `r` reduced modulo `2^w`.  When the
full expansion of every rule of the table is shorter than `2^w`, the entry of
every rule is the number of bytes of its full expansion, the entry of every
non-terminal is the sum of the entries of its right-hand side, and the entries
are those computed in the natural numbers. -/
theorem expansion_len_loop_uint_correct (w : Nat) (hw : 0 < w) (g : grammar)
    (hlev : level_ordered g) :
    (∀ c, c < 256 → expansion_len_loop_uint w g c = 1) ∧
    (∀ r, 256 ≤ r → r < g.total_rules →
      expansion_len_loop_uint w g r =
        ((List.range (g.rules_pos (r + 1) - g.rules_pos r)).map
          (fun k => expansion_len_loop_uint w g (g.rules_derivation (g.rules_pos r + k)))).sum
            % 2 ^ w) ∧
    (∀ r, r < g.total_rules →
      expansion_len_loop_uint w g r = (full_expansion g r).length % 2 ^ w) ∧
    ((∀ r, r < g.total_rules → (full_expansion g r).length < 2 ^ w) →
      ∀ r, r < g.total_rules →
        expansion_len_loop_uint w g r = (full_expansion g r).length ∧
        expansion_len_loop_uint w g r = expansion_len_loop g r ∧
        (256 ≤ r →
          expansion_len_loop_uint w g r =
            ((List.range (g.rules_pos (r + 1) - g.rules_pos r)).map
              (fun k =>
                expansion_len_loop_uint w g (g.rules_derivation (g.rules_pos r + k)))).sum)) := by
  obtain ⟨n1, n2, n3, -⟩ := expansion_len_loop_correct g hlev
  have hmod := expansion_len_loop_uint_mod w hw g
  have hone : 1 % 2 ^ w = 1 := Nat.mod_eq_of_lt (Nat.one_lt_two_pow (by omega))
  have hsum : ∀ r, 256 ≤ r → r < g.total_rules →
      expansion_len_loop_uint w g r =
        ((List.range (g.rules_pos (r + 1) - g.rules_pos r)).map
          (fun k => expansion_len_loop_uint w g (g.rules_derivation (g.rules_pos r + k)))).sum
            % 2 ^ w := by
    intro r h1 h2
    rw [hmod r, n2 r h1 h2, List.sum_nat_mod, List.map_map]
    refine congrArg (fun l => List.sum l % 2 ^ w) ?_
    apply List.map_congr_left
    intro k _
    simp only [Function.comp]
    exact (hmod _).symm
  refine ⟨?_, hsum, ?_, ?_⟩
  · intro c hc
    rw [hmod c, n1 c hc, hone]
  · intro r hr
    rw [hmod r, n3 r hr]
  · intro hfit
    have hexact : ∀ r, r < g.total_rules →
        expansion_len_loop_uint w g r = (full_expansion g r).length := by
      intro r hr
      rw [hmod r, n3 r hr]
      exact Nat.mod_eq_of_lt (hfit r hr)
    intro r hr
    refine ⟨hexact r hr, by rw [hexact r hr, n3 r hr], ?_⟩
    intro h256
    rw [hexact r hr, ← n3 r hr, n2 r h256 hr]
    refine congrArg List.sum ?_
    apply List.map_congr_left
    intro k hk
    have hk' : k < arity g.rules_pos r := List.mem_range.1 hk
    have hlt := hlev r h256 hr k hk'
    have hcn : g.rules_derivation (g.rules_pos r + k) < g.total_rules := by omega
    rw [hexact _ hcn, n3 _ hcn]

/-- The table of doubling rules is level-ordered. -/
theorem level_ordered_doubling (w : Nat) : level_ordered (grammar_doubling w) := by
  intro r h1 h2 k hk
  simp only [grammar_doubling, arity] at hk ⊢
  split_ifs at hk ⊢ <;> omega

/-- In the table of doubling rules the lengths computed in the natural numbers
double from rule to rule: rule `256 + k` has length `2^(k+1)`. -/
theorem doubling_len (w : Nat) :
    ∀ k, k < w → expansion_len_loop (grammar_doubling w) (256 + k) = 2 ^ (k + 1) := by
  have hlen := expansion_len_loop_consistent (grammar_doubling w) (level_ordered_doubling w)
  have hrhs : ∀ k, k < w → rhs (grammar_doubling w) (256 + k)
      = [if k = 0 then 97 else 255 + k, if k = 0 then 97 else 255 + k] := by
    intro k _
    have ha : arity (grammar_doubling w).rules_pos (256 + k) = 2 := by
      simp only [grammar_doubling, arity]
      split_ifs <;> omega
    have hp : (grammar_doubling w).rules_pos (256 + k) = 256 + 2 * k := by
      simp only [grammar_doubling]
      split_ifs <;> omega
    have hd : ∀ j, j < 2 → (grammar_doubling w).rules_derivation (256 + 2 * k + j)
        = if k = 0 then 97 else 255 + k := by
      intro j hj
      simp only [grammar_doubling]
      split_ifs <;> omega
    rw [rhs, ha, hp]
    simp only [List.range_succ, List.range_zero, List.nil_append, List.map_append,
      List.map_cons, List.map_nil, List.singleton_append]
    rw [hd 0 (by omega), hd 1 (by omega)]
  intro k
  induction k with
  | zero =>
    intro hk
    have := hlen.2 (256 + 0) (by omega) (by simp only [grammar_doubling]; omega)
    rw [hrhs 0 hk] at this
    simp only [if_true, List.map_cons, List.map_nil, List.sum_cons, List.sum_nil]
      at this
    rw [this, hlen.1 97 (by omega)]
    norm_num
  | succ k ih =>
    intro hk
    have := hlen.2 (256 + (k + 1)) (by omega) (by simp only [grammar_doubling]; omega)
    rw [hrhs (k + 1) hk] at this
    have hk0 : k + 1 ≠ 0 := by omega
    simp only [hk0, if_false, List.map_cons, List.map_nil, List.sum_cons, List.sum_nil]
      at this
    have e : 255 + (k + 1) = 256 + k := by omega
    rw [this, e, ih (by omega)]
    rw [pow_succ 2 (k + 1)]
    omega

/-- With `uint_t` of `w > 0` bits the last doubling rule, whose full expansion
has `2^w` bytes, gets the entry 0, and the rule before it, when there is one,
gets `2^(w-1)`. -/
theorem doubling_wraps (w : Nat) (hw : 0 < w) :
    (full_expansion (grammar_doubling w) (255 + w)).length = 2 ^ w ∧
    expansion_len_loop_uint w (grammar_doubling w) (255 + w) = 0 ∧
    (1 < w → expansion_len_loop_uint w (grammar_doubling w) (254 + w) = 2 ^ (w - 1)) := by
  have hlev := level_ordered_doubling w
  have hlen := expansion_len_loop_consistent (grammar_doubling w) hlev
  have e1 : 255 + w = 256 + (w - 1) := by omega
  have e2 : w - 1 + 1 = w := by omega
  have hn : expansion_len_loop (grammar_doubling w) (255 + w) = 2 ^ w := by
    rw [e1, doubling_len w (w - 1) (by omega), e2]
  refine ⟨?_, ?_, ?_⟩
  · rw [expansion_length _ hlev _ hlen (255 + w) (by simp only [grammar_doubling]; omega), hn]
  · rw [expansion_len_loop_uint_mod w hw, hn, Nat.mod_self]
  · intro h1
    have e3 : 254 + w = 256 + (w - 2) := by omega
    have e4 : w - 2 + 1 = w - 1 := by omega
    rw [expansion_len_loop_uint_mod w hw, e3, doubling_len w (w - 2) (by omega), e4]
    exact Nat.mod_eq_of_lt (Nat.pow_lt_pow_right (by omega) (by omega))

/-- C8 as stated fails on the level-ordered table of 32 doubling rules
(`256 → a a`, `256 + k → (255 + k) (255 + k)`) when `uint_t` has 32 bits, and
on the table of 64 doubling rules when it has 64: the full expansion of the
last rule has `2^w` bytes and the entries of the two symbols of its right-hand
side are `2^(w-1)` each, but the sum wraps around and the loop leaves the
entry 0. -/
theorem expansion_len_loop_wraps :
    (level_ordered (grammar_doubling 32) ∧
      (grammar_doubling 32).rules_derivation ((grammar_doubling 32).rules_pos 287) = 286 ∧
      (grammar_doubling 32).rules_derivation ((grammar_doubling 32).rules_pos 287 + 1) = 286 ∧
      expansion_len_loop_uint 32 (grammar_doubling 32) 286 = 2147483648 ∧
      (full_expansion (grammar_doubling 32) 287).length = 4294967296 ∧
      expansion_len_loop_uint 32 (grammar_doubling 32) 287 = 0) ∧
    (level_ordered (grammar_doubling 64) ∧
      (grammar_doubling 64).rules_derivation ((grammar_doubling 64).rules_pos 319) = 318 ∧
      (grammar_doubling 64).rules_derivation ((grammar_doubling 64).rules_pos 319 + 1) = 318 ∧
      expansion_len_loop_uint 64 (grammar_doubling 64) 318 = 9223372036854775808 ∧
      (full_expansion (grammar_doubling 64) 319).length = 18446744073709551616 ∧
      expansion_len_loop_uint 64 (grammar_doubling 64) 319 = 0) := by
  obtain ⟨a1, a2, a3⟩ := doubling_wraps 32 (by omega)
  obtain ⟨b1, b2, b3⟩ := doubling_wraps 64 (by omega)
  refine ⟨⟨level_ordered_doubling 32, by decide, by decide, ?_, ?_, a2⟩,
    ⟨level_ordered_doubling 64, by decide, by decide, ?_, ?_, b2⟩⟩
  · rw [a3 (by omega)]; norm_num
  · rw [a1]; norm_num
  · rw [b3 (by omega)]; norm_num
  · rw [b1]; norm_num

set_option maxRecDepth 100000 in
/-- Instance of `expansion_len_loop_uint_correct` with `uint_t` of 32 bits on
the grammar of `ababa`, whose expansions have 1, 2 and 5 bytes: the loop
leaves 2 for rule 256 and 5 for rule 257. -/
theorem expansion_len_loop_uint_correct_witness :
    (0 < 32) ∧ level_ordered grammar_ababa ∧
    (∀ r, r < grammar_ababa.total_rules → (full_expansion grammar_ababa r).length < 2 ^ 32) ∧
    (∀ c, c < 256 → expansion_len_loop_uint 32 grammar_ababa c = 1) ∧
    expansion_len_loop_uint 32 grammar_ababa 256 = 2 ∧
    expansion_len_loop_uint 32 grammar_ababa 257 = 5 ∧
    (full_expansion grammar_ababa 257).length = 5 := by
  have h := expansion_len_loop_uint_correct 32 (by omega) grammar_ababa level_ordered_ababa
  obtain ⟨n1, -, n3, -⟩ := expansion_len_loop_correct grammar_ababa level_ordered_ababa
  have v256 : expansion_len_loop grammar_ababa 256 = 2 := by decide
  have v257 : expansion_len_loop grammar_ababa 257 = 5 := by decide
  have hfit : ∀ r, r < grammar_ababa.total_rules →
      (full_expansion grammar_ababa r).length < 2 ^ 32 := by
    intro r hr
    rw [← n3 r hr]
    have hr' : r < 258 := hr
    by_cases hc : r < 256
    · rw [n1 r hc]; norm_num
    · have hr2 : r = 256 ∨ r = 257 := by omega
      rcases hr2 with rfl | rfl
      · rw [v256]; norm_num
      · rw [v257]; norm_num
  have hex := h.2.2.2 hfit
  refine ⟨by omega, level_ordered_ababa, hfit, h.1, ?_, ?_, ?_⟩
  · rw [(hex 256 (by decide)).2.1, v256]
  · rw [(hex 257 (by decide)).2.1, v257]
  · rw [← n3 257 (by decide), v257]

end gcis
